import Mathlib

/-!
# AWGN channel simulator: ChannelModel, Analyzer and SignalGenerator

A shallow embedding of `002/codebase/ChannelModel.cpp`, `Analyzer.cpp`,
`SignalGenerator.cpp`, `SignalToNoiseRatio.cpp`, `AWGN.cpp`, of `001/codebase/AWGN.cpp` and
of the bit-error count of `main.cpp`.

* `std::vector<T>` is a `List T`; `v.size()` is `v.length`.
* `size_t` arithmetic is arithmetic on `Nat` modulo `2 ^ 64` (`sizeAdd`, `sizeSub`).
* `v[i]` with `i` outside the vector is undefined behaviour in C++; the embedding
  makes it an explicit fault, `Fault.outOfRange`.
* `double` values are elements of a linearly ordered field `K` (exact arithmetic);
  `std::sqrt`, `std::sin`, `std::pow`, `std::log`, `std::cos`, `std::log10` and the
  constants `PI`, `G_PI` are parameters of the functions that use them.
* Where a property depends on the rounding of `double` or on the divisions a call
  evaluates, `addNoiseOn` takes the operations `+`, `*`, `/` of `double` as a parameter
  and records the divisors; `binary64` is the IEEE 754 arithmetic on the rationals.
* A seeded `std::mt19937` with its distribution is the stream of values it returns,
  indexed by the number of values drawn before.
* `int` values are elements of `Int`; the claims only run the code on bits in `{0, 1}`,
  where no `int` operation overflows, and on counters that stay below the size of a
  vector of at most `INT_MAX` elements.
-/

namespace AWGN

/-! ## Machine model -/

/-- Number of values of a `size_t` (64-bit). -/
def SIZE_MOD : Nat := 2 ^ 64

/-- Addition of two `size_t` values. -/
@[irreducible]
def sizeAdd (a b : Nat) : Nat := (a + b) % SIZE_MOD

/-- Subtraction of two `size_t` values (wraps around below zero). -/
@[irreducible]
def sizeSub (a b : Nat) : Nat := (a + SIZE_MOD - b % SIZE_MOD) % SIZE_MOD

/-- Ways in which a run of the C++ code leaves defined behaviour. -/
inductive Fault where
  /-- An element access `v[i]` with `i >= v.size()`. -/
  | outOfRange
  /-- The iteration budget of a loop was used up. -/
  | stepLimit
  /-- A `std::invalid_argument` was thrown. -/
  | invalidArgument
  deriving DecidableEq, Repr

/-- Element read `v[i]`. -/
def readAt {α : Type} (v : List α) (i : Nat) : Except Fault α :=
  match v.get? i with
  | some x => .ok x
  | none => .error .outOfRange

/-- Element write `v[i] = x`. -/
def writeAt {α : Type} (v : List α) (i : Nat) (x : α) : Except Fault (List α) :=
  if i < v.length then .ok (v.set i x) else .error .outOfRange

/-- At most `budget` rounds of the loop `for (size_t i = ...; i < bound; i += step) body`,
from index `i` and loop state `s`. -/
def loopRounds {σ : Type} (bound step : Nat) (body : Nat → σ → Except Fault σ) :
    Nat → Nat → σ → Except Fault σ
  | 0, i, s => if i < bound then .error .stepLimit else .ok s
  | budget + 1, i, s =>
    if i < bound then
      match body i s with
      | .ok s' => loopRounds bound step body budget (sizeAdd i step) s'
      | .error e => .error e
    else .ok s

/-- The loop `for (size_t i = i0; i < bound; i += step) body` on the loop state `s0`.
An index that grows by `step >= 1` each round passes `bound` within `bound` rounds,
so the budget `bound` is only used up when the index wraps around `2 ^ 64`. -/
def forLoop {σ : Type} (i0 bound step : Nat) (body : Nat → σ → Except Fault σ) (s0 : σ) :
    Except Fault σ :=
  loopRounds bound step body bound i0 s0

/-! ## ChannelModel.hpp / ChannelModel.cpp -/

inductive ModulationType where
  | BPSK | QPSK | QAM16
  deriving DecidableEq, Repr

inductive CodingType where
  | NONE | CONVOLUTIONAL
  deriving DecidableEq, Repr

/-- The shift-register update and the two emitted bits of one round of
`encodeConvolutional`, on `int` values. -/
def encodeStep (state input : Int) : Int × Int × Int :=
  (Int.land (Int.xor (Int.xor input (Int.land (Int.shiftRight state 1) 1)) (Int.land state 1)) 1,
   Int.land (Int.xor input (Int.land state 1)) 1,
   Int.land (Int.lor (Int.shiftRight state 1) (input <<< (2 : Int))) 7)

/-- `ChannelModel::encodeConvolutional`. The loop state is `(encoded, state)`. -/
def encodeConvolutional (bits : List Int) : Except Fault (List Int) :=
  (forLoop 0 bits.length 1 (fun i (st : List Int × Int) => do
      let input ← readAt bits i
      let r := encodeStep st.2 input
      pure ((st.1 ++ [r.1]) ++ [r.2.1], r.2.2))
    ([], 0)).map Prod.fst

variable {K : Type} [LinearOrderedField K]

/-- `ChannelModel::decodeConvolutional`. -/
def decodeConvolutional (softBits : List K) : Except Fault (List Int) :=
  forLoop 0 softBits.length 2 (fun i (decoded : List Int) => do
      let s1 ← readAt softBits i
      let s2 ← readAt softBits (sizeAdd i 1)
      let b1 : Int := if s1 > 0 then 1 else 0
      let b2 : Int := if s2 > 0 then 1 else 0
      pure (decoded ++ [Int.xor b1 b2]))
    []

/-- `ChannelModel::modulateBPSK`. -/
def modulateBPSK (bits : List Int) : Except Fault (List K) :=
  forLoop 0 bits.length 1 (fun i (symbols : List K) => do
      let b ← readAt bits i
      writeAt symbols i (if b ≠ 0 then 1 else -1))
    (List.replicate bits.length 0)

/-- `ChannelModel::modulateQPSK`. -/
def modulateQPSK (sqrt : K → K) (bits : List Int) : Except Fault (List K) :=
  let scale : K := sqrt 2 / 2
  forLoop 0 (sizeSub bits.length 1) 2 (fun i (symbols : List K) => do
      let b0 ← readAt bits i
      let b1 ← readAt bits (sizeAdd i 1)
      let I : K := if b0 ≠ 0 then scale else -scale
      let Q : K := if b1 ≠ 0 then scale else -scale
      let symbols ← writeAt symbols i I
      writeAt symbols (sizeAdd i 1) Q)
    (List.replicate (bits.length / 2 * 2) 0)

/-- The amplitude level selected by a 2-bit index in `modulateQAM16`. -/
def qamLevel (idx : Int) : K :=
  if idx = 0 then -3 else if idx = 1 then -1 else if idx = 2 then 3 else 1

/-- `ChannelModel::modulateQAM16`. -/
def modulateQAM16 (sqrt : K → K) (bits : List Int) : Except Fault (List K) :=
  let scale : K := sqrt 10
  forLoop 0 (sizeSub bits.length 3) 4 (fun i (symbols : List K) => do
      let b0 ← readAt bits i
      let b1 ← readAt bits (sizeAdd i 1)
      let b2 ← readAt bits (sizeAdd i 2)
      let b3 ← readAt bits (sizeAdd i 3)
      let I_bits := b0 * 2 + b1
      let Q_bits := b2 * 2 + b3
      let I : K := qamLevel I_bits / scale
      let Q : K := qamLevel Q_bits / scale
      let symbols ← writeAt symbols i I
      let symbols ← writeAt symbols (sizeAdd i 1) Q
      let symbols ← writeAt symbols (sizeAdd i 2) I
      writeAt symbols (sizeAdd i 3) Q)
    (List.replicate (bits.length / 4 * 4) 0)

/-- `ChannelModel::demodulateBPSK`. -/
def demodulateBPSK (symbols : List K) : Except Fault (List Int) :=
  forLoop 0 symbols.length 1 (fun i (bits : List Int) => do
      let s ← readAt symbols i
      writeAt bits i (if s > 0 then 1 else 0))
    (List.replicate symbols.length 0)

/-- `ChannelModel::demodulateQPSK`. -/
def demodulateQPSK (symbols : List K) : Except Fault (List Int) :=
  forLoop 0 (sizeSub symbols.length 1) 2 (fun i (bits : List Int) => do
      let s0 ← readAt symbols i
      let bits ← writeAt bits i (if s0 > 0 then 1 else 0)
      let s1 ← readAt symbols (sizeAdd i 1)
      writeAt bits (sizeAdd i 1) (if s1 > 0 then 1 else 0))
    (List.replicate symbols.length 0)

/-- `ChannelModel::demodulateQAM16`. -/
def demodulateQAM16 (sqrt : K → K) (symbols : List K) : Except Fault (List Int) :=
  let scale : K := sqrt 10
  forLoop 0 (sizeSub symbols.length 3) 4 (fun i (bits : List Int) => do
      let s0 ← readAt symbols i
      let I : K := s0 * scale
      let s1 ← readAt symbols (sizeAdd i 1)
      let Q : K := s1 * scale
      let bits ← writeAt bits i
        (if I > 0 then (if I > 2 then 1 else 0) else (if I < -2 then 0 else 1))
      let bits ← writeAt bits (sizeAdd i 1)
        (if I > 0 then (if I > 2 then 0 else 1) else (if I < -2 then 1 else 0))
      let bits ← writeAt bits (sizeAdd i 2)
        (if Q > 0 then (if Q > 2 then 1 else 0) else (if Q < -2 then 0 else 1))
      writeAt bits (sizeAdd i 3)
        (if Q > 0 then (if Q > 2 then 0 else 1) else (if Q < -2 then 1 else 0)))
    (List.replicate symbols.length 0)

/-- `ChannelModel::modulate` of a channel model built with `(modulation, coding)`. -/
def modulate (sqrt : K → K) (modulation : ModulationType) (coding : CodingType)
    (bits : List Int) : Except Fault (List K) := do
  let encodedBits ← (match coding with
    | .CONVOLUTIONAL => encodeConvolutional bits
    | .NONE => pure bits)
  match modulation with
  | .BPSK => modulateBPSK encodedBits
  | .QPSK => modulateQPSK sqrt encodedBits
  | .QAM16 => modulateQAM16 sqrt encodedBits

/-- `ChannelModel::demodulate` of a channel model built with `(modulation, coding)`. -/
def demodulate (sqrt : K → K) (modulation : ModulationType) (coding : CodingType)
    (symbols : List K) : Except Fault (List Int) := do
  let bits ← (match modulation with
    | .BPSK => demodulateBPSK symbols
    | .QPSK => demodulateQPSK symbols
    | .QAM16 => demodulateQAM16 sqrt symbols)
  match coding with
  | .CONVOLUTIONAL => decodeConvolutional symbols
  | .NONE => pure bits

/-! ## Analyzer.cpp -/

/-- `Analyzer::computeZeroCrossingPoints`. -/
def computeZeroCrossingPoints (noisy : List K) : Except Fault (List Nat) :=
  forLoop 1 noisy.length 1 (fun i (crossingPoints : List Nat) => do
      let prev ← readAt noisy (sizeSub i 1)
      let cur ← readAt noisy i
      if (prev < 0 ∧ cur ≥ 0) ∨ (prev > 0 ∧ cur ≤ 0) then
        pure (crossingPoints ++ [i])
      else
        pure crossingPoints)
    []

/-! ## SignalGenerator.cpp -/

/-- `SignalGenerator::generateSineWave` of a generator built with
`(numSamples, amplitude, frequency)`; `sin` is `std::sin` and `PI` is `Constants::PI`. -/
def generateSineWave (sin : K → K) (PI : K) (numSamples : Nat) (amplitude frequency : K) :
    Except Fault (List K) :=
  forLoop 0 numSamples 1 (fun i (signal : List K) =>
      writeAt signal i (amplitude * sin (2 * PI * frequency * (i : K))))
    (List.replicate numSamples 0)

/-! ## main.cpp: the bit-error count of `generate_signals` -/

/-- The loop of `generate_signals` that counts the positions where the sent and the
decoded bits differ (`errors`). -/
def countBitErrors (bits decoded_bits : List Int) : Except Fault Nat :=
  forLoop 0 (min bits.length decoded_bits.length) 1 (fun i (errors : Nat) => do
      let a ← readAt bits i
      let b ← readAt decoded_bits i
      pure (if a ≠ b then sizeAdd errors 1 else errors))
    0

/-! ## SignalToNoiseRatio.cpp -/

/-- `SignalToNoiseRatio::calculateNoisePower`; `pow` is `std::pow`. -/
def calculateNoisePower (pow : K → K → K) (signalPower snr_dB : K) : K :=
  signalPower / pow 10 (snr_dB / 10)

/-- The divisor of the mean of squares, `signal.size()` converted to `double`. -/
def sizeDivisor (signal : List K) : K :=
  (signal.length : K)

/-- `SignalToNoiseRatio::adjustNoisePower` of a controller built with `targetSNRdB`: the
value it stores in `noisePower`. The mean of squares is `std::accumulate` over the samples,
divided by `sizeDivisor signal`; the division is under no condition. -/
def adjustNoisePower (pow : K → K → K) (targetSNRdB : K) (signal : List K) : K :=
  let signalPower : K := signal.foldl (fun sum x => sum + x * x) 0 / sizeDivisor signal
  calculateNoisePower pow signalPower targetSNRdB

/-! ## AWGN.cpp -/

/-- `AWGN::addNoise` (version 002) of an injector built with `(targetSNRdB, seed)`.
`uniform seed k` is the `k`-th value `uniform(gen)` returns for a generator `gen` freshly
seeded with `seed`; the loop state is `(noisySignal, draws)` with `draws` the number of
values drawn so far. `pow`, `sqrt`, `log`, `cos` are the `<cmath>` functions. -/
def addNoise (pow : K → K → K) (sqrt log cos : K → K) (G_PI : K) (uniform : Nat → Nat → K)
    (targetSNRdB : K) (seed : Nat) (signal : List K) : Except Fault (List K) :=
  let noisePower : K := adjustNoisePower pow targetSNRdB signal
  let noiseStdDev : K := sqrt noisePower
  (forLoop 0 signal.length 1 (fun i (st : List K × Nat) => do
      let u1 : K := uniform seed st.2
      let u2 : K := uniform seed (st.2 + 1)
      let z : K := sqrt (-2 * log u1) * cos (2 * G_PI * u2)
      let x ← readAt signal i
      let noisySignal ← writeAt st.1 i (x + noiseStdDev * z)
      pure (noisySignal, st.2 + 2))
    (List.replicate signal.length 0, 0)).map Prod.fst

/-! ## Analyzer.cpp: measured SNR and phasor statistics -/

/-- A `double` result that may be `std::numeric_limits<double>::infinity()`. -/
inductive Measured (K : Type) where
  | finite (x : K)
  | infinity

/-- The loop `noise[i] = noisy[i] - original[i]` over `i < size`, shared by `computeSNR`
(`size = original.size()`) and `computePhasorStatistics` (`size = noisy.size()`). -/
def noiseOf (size : Nat) (noisy original : List K) : Except Fault (List K) :=
  forLoop 0 size 1 (fun i (noise : List K) => do
      let a ← readAt noisy i
      let b ← readAt original i
      writeAt noise i (a - b))
    (List.replicate size 0)

/-- `Analyzer::computeSNR`; `log10` is `std::log10`. -/
def computeSNR (log10 : K → K) (original noisy : List K) : Except Fault (Measured K) :=
  if original.length ≠ noisy.length then
    .error .invalidArgument
  else do
    let signalPower : K :=
      original.foldl (fun sum x => sum + x * x) 0 / (original.length : K)
    let noise ← noiseOf original.length noisy original
    let noisePower : K := noise.foldl (fun sum x => sum + x * x) 0 / (noise.length : K)
    if noisePower = 0 then
      pure .infinity
    else
      pure (.finite (10 * log10 (signalPower / noisePower)))

/-- `Analyzer::computePhasorStatistics`. `normal seed sigma k` is the `k`-th value
`dist(gen)` returns for a generator freshly seeded with `seed` and a normal distribution
with mean 0 and deviation `sigma`. The loop states are `(real_parts, imag_parts, draws)`
and `(count1, count2, count3)`. -/
def computePhasorStatistics (sqrt : K → K) (normal : Nat → K → Nat → K)
    (noisy original : List K) (seed : Nat) : Except Fault (K × K × K) :=
  if noisy.length ≠ original.length then
    .error .invalidArgument
  else do
    let noise ← noiseOf noisy.length noisy original
    let noisePower : K := noise.foldl (fun sum x => sum + x * x) 0 / (noise.length : K)
    let sigma : K := sqrt (noisePower / 2)
    let parts ← forLoop 0 noisy.length 1 (fun i (st : List K × List K × Nat) => do
        let real_parts ← writeAt st.1 i (normal seed sigma st.2.2)
        let imag_parts ← writeAt st.2.1 i (normal seed sigma (st.2.2 + 1))
        pure (real_parts, imag_parts, st.2.2 + 2))
      (List.replicate noisy.length 0, List.replicate noisy.length 0, 0)
    let counts ← forLoop 0 noisy.length 1 (fun i (c : Int × Int × Int) => do
        let re ← readAt parts.1 i
        let im ← readAt parts.2.1 i
        let magnitude : K := sqrt (re * re + im * im)
        let count1 : Int := if magnitude ≤ sigma then c.1 + 1 else c.1
        let count2 : Int := if magnitude ≤ 2 * sigma then c.2.1 + 1 else c.2.1
        let count3 : Int := if magnitude ≤ 3 * sigma then c.2.2 + 1 else c.2.2
        pure (count1, count2, count3))
      (0, 0, 0)
    pure ((counts.1 : K) / (noisy.length : K), (counts.2.1 : K) / (noisy.length : K),
      (counts.2.2 : K) / (noisy.length : K))

/-! ## SignalToNoiseRatio.cpp: Eb/N0 -/

/-- `SignalToNoiseRatio::calculateEbN0` of a controller built with
`(targetSNRdB, bitRate, bandwidth)`; `log10` is `std::log10`. -/
def calculateEbN0 (pow : K → K → K) (log10 : K → K) (targetSNRdB bitRate bandwidth : K)
    (signal : List K) : K :=
  let signalPower : K := signal.foldl (fun sum x => sum + x * x) 0 / (signal.length : K)
  let noisePower : K := calculateNoisePower pow signalPower targetSNRdB
  let eb : K := signalPower / bitRate
  let n0 : K := noisePower / bandwidth
  10 * log10 (eb / n0)

/-! ## Analyzer.cpp: the closed-form zero-crossing rate -/

/-- `Analyzer::computeZeroCrossings`. -/
def computeZeroCrossings (pow : K → K → K) (sqrt : K → K) (_noisy : List K)
    (frequency bandwidth snr_db : K) : K :=
  let snr_linear : K := pow 10 (snr_db / 10)
  let term : K :=
    (snr_linear + 1 + (bandwidth * bandwidth) / (12 * frequency * frequency)) / (snr_linear + 1)
  frequency * sqrt term

/-! ## 001/codebase/AWGN.cpp -/

/-- `AWGN::calculateNoisePower` of version 001. -/
def calculateNoisePower001 (pow : K → K → K) (signalPower snr_dB : K) : K :=
  signalPower / pow 10 (snr_dB / 10)

/-- `AWGN::addNoise` of version 001, of an injector built with `(targetSNRdB, seed)`; the
noise power is computed inline. The random stream and the loop state are as in `addNoise`. -/
def addNoise001 (pow : K → K → K) (sqrt log cos : K → K) (G_PI : K) (uniform : Nat → Nat → K)
    (targetSNRdB : K) (seed : Nat) (signal : List K) : Except Fault (List K) :=
  let signalPower : K := signal.foldl (fun sum x => sum + x * x) 0 / (signal.length : K)
  let noisePower : K := calculateNoisePower001 pow signalPower targetSNRdB
  let noiseStdDev : K := sqrt noisePower
  (forLoop 0 signal.length 1 (fun i (st : List K × Nat) => do
      let u1 : K := uniform seed st.2
      let u2 : K := uniform seed (st.2 + 1)
      let z : K := sqrt (-2 * log u1) * cos (2 * G_PI * u2)
      let x ← readAt signal i
      let noisySignal ← writeAt st.1 i (x + noiseStdDev * z)
      pure (noisySignal, st.2 + 2))
    (List.replicate signal.length 0, 0)).map Prod.fst

/-! ## 002/codebase/AWGN.hpp: the injector object -/

/-- The data members of `SignalToNoiseRatio`. -/
structure SignalToNoiseRatio (K : Type) where
  targetSNRdB_ : K
  bitRate_ : K
  bandwidth_ : K

/-- The data members of the class `AWGN` of version 002; `channelModel_` is given by its
modulation and coding. -/
structure AWGNv2 (K : Type) where
  snrController_ : SignalToNoiseRatio K
  seed_ : Nat
  modulation_ : ModulationType
  coding_ : CodingType

/-- `AWGN::addNoise` of version 002 on an injector object: it uses `snrController_` (through
`adjustNoisePower`, which reads `targetSNRdB_`) and `seed_`. -/
def AWGNv2.addNoise (pow : K → K → K) (sqrt log cos : K → K) (G_PI : K)
    (uniform : Nat → Nat → K) (awgn : AWGNv2 K) (signal : List K) : Except Fault (List K) :=
  AWGN.addNoise pow sqrt log cos G_PI uniform awgn.snrController_.targetSNRdB_ awgn.seed_ signal

/-! ## 002/codebase: `addNoise` with the arithmetic of `double` made explicit -/

/-- The arithmetic of `double` that `addNoise` uses: `add a b` is the value of `a + b`,
`mul a b` of `a * b` and `div a b` of `a / b`, roundings and the quotient by zero
included. -/
structure DoubleOps (K : Type) where
  add : K → K → K
  mul : K → K → K
  div : K → K → K

/-- Exact arithmetic, in which no operation rounds. -/
def exactOps : DoubleOps K :=
  ⟨fun a b => a + b, fun a b => a * b, fun a b => a / b⟩

/-- One division `a / b` of `double`: its value, and the record of its divisor. -/
def recordedDiv (ops : DoubleOps K) (a b : K) : K × List K :=
  (ops.div a b, [b])

/-- `SignalToNoiseRatio::adjustNoisePower` in the arithmetic `ops`: the value it stores in
`noisePower`, and the divisors of the divisions it evaluates, in the order of evaluation
(`sum / signal.size()`, then `snr_dB / 10.0` and `signalPower / std::pow(...)` of
`calculateNoisePower`). -/
def adjustNoisePowerOn (ops : DoubleOps K) (pow : K → K → K) (targetSNRdB : K)
    (signal : List K) : K × List K :=
  let sum : K := signal.foldl (fun sum x => ops.add sum (ops.mul x x)) 0
  let signalPower : K × List K := recordedDiv ops sum (sizeDivisor signal)
  let exponent : K × List K := recordedDiv ops targetSNRdB 10
  let noisePower : K × List K := recordedDiv ops signalPower.1 (pow 10 exponent.1)
  (noisePower.1, signalPower.2 ++ exponent.2 ++ noisePower.2)

/-- `AWGN::addNoise` (version 002) in the arithmetic `ops`: the returned vector, and the
divisors of the divisions the code evaluates during the call (all of them in
`adjustNoisePower`; the loop body has no division). -/
def addNoiseOn (ops : DoubleOps K) (pow : K → K → K) (sqrt log cos : K → K) (G_PI : K)
    (uniform : Nat → Nat → K) (targetSNRdB : K) (seed : Nat) (signal : List K) :
    Except Fault (List K) × List K :=
  let adjusted : K × List K := adjustNoisePowerOn ops pow targetSNRdB signal
  let noiseStdDev : K := sqrt adjusted.1
  ((forLoop 0 signal.length 1 (fun i (st : List K × Nat) => do
      let u1 : K := uniform seed st.2
      let u2 : K := uniform seed (st.2 + 1)
      let z : K := ops.mul (sqrt (ops.mul (-2) (log u1))) (cos (ops.mul (ops.mul 2 G_PI) u2))
      let x ← readAt signal i
      let noisySignal ← writeAt st.1 i (ops.add x (ops.mul noiseStdDev z))
      pure (noisySignal, st.2 + 2))
    (List.replicate signal.length 0, 0)).map Prod.fst, adjusted.2)

/-! ## IEEE 754 binary64 -/

/-- The integer nearest to `q`, the even one of the two when `q` is halfway. -/
def roundHalfEven (q : ℚ) : ℤ :=
  if 2 * (q - ⌊q⌋) < 1 then ⌊q⌋
  else if 1 < 2 * (q - ⌊q⌋) then ⌊q⌋ + 1
  else if ⌊q⌋ % 2 = 0 then ⌊q⌋ else ⌊q⌋ + 1

/-- The `double` nearest to `q` (53-bit significand, round to nearest, ties to even), for
`q` in the range of the normal numbers: with `2 ^ e <= |q| < 2 ^ (e + 1)` the doubles around
`q` are the multiples of `2 ^ (e - 52)`. -/
def roundDouble (q : ℚ) : ℚ :=
  if q = 0 then 0
  else (roundHalfEven (q / 2 ^ (Int.log 2 |q| - 52)) : ℚ) * 2 ^ (Int.log 2 |q| - 52)

/-- The arithmetic of `double`: each operation returns the double nearest to the exact
result. A quotient by zero, which is NaN or an infinity in IEEE 754, has no counterpart
among the rationals; no claim reads it. -/
def binary64 : DoubleOps ℚ :=
  ⟨fun a b => roundDouble (a + b), fun a b => roundDouble (a * b),
    fun a b => roundDouble (a / b)⟩

/-! ## A run of `addNoise` in the arithmetic of `double`

The values the library returns in the run of `addNoise` on a waveform of one sample of
power 1 with `targetSNRdB = 10` and seed 0 (libstdc++ and glibc on x86-64), as exact
rationals: the two draws `u1`, `u2` of the generator, `std::pow(10.0, 1.0) = 10`,
`std::log(u1)`, the two values of `std::sqrt` and the value of `std::cos`. -/

/-- The draws `u1 = 0x1.2f89545f18fe1p-1` and `u2 = 0x1.b04399816e2d5p-1`. -/
def runUniform (_seed k : Nat) : ℚ :=
  if k = 0 then 5339869588066273 / 2 ^ 53 else 7604469782471381 / 2 ^ 53

/-- The value `std::pow(10.0, 1.0)`. -/
def runPow (_base _exponent : ℚ) : ℚ := 10

/-- The value `std::log(u1) = -0x1.0baf72ea76df6p-1`. -/
def runLog (_u : ℚ) : ℚ := -2354585214891771 / 2 ^ 52

/-- The values `std::sqrt(0x1.999999999999ap-4) = 0x1.43d136248490fp-2` (the deviation
`noiseStdDev`) and `std::sqrt(-2.0 * std::log(u1)) = 0x1.05c708e93fb8dp+0`. -/
def runSqrt (v : ℚ) : ℚ :=
  if v = 3602879701896397 / 2 ^ 55 then 5696652996790543 / 2 ^ 54
  else 4605238125525901 / 2 ^ 52

/-- The value `std::cos(2.0 * G_PI * u2) = 0x1.1dd47a55a1db3p-1`. -/
def runCos (_a : ℚ) : ℚ := 5028374390644147 / 2 ^ 53

/-- The constant `G_PI` as a `double`, `0x1.921fb54442d18p+1`. -/
def runPi : ℚ := 884279719003555 / 2 ^ 48

/-! ## Definitions used to state the properties -/

/-- A vector of size `n` whose first `i` slots hold `t 0, t 1, ...` and whose other slots
still hold the initial value `z`. -/
def fillTo {α : Type} (n : Nat) (t : Nat → α) (z : α) (i : Nat) : List α :=
  (List.range n).map (fun j => if j < i then t j else z)

/-- The value `modulateQAM16` stores at position `j`. -/
def qamSymbolAt (sqrt : K → K) (bits : List Int) (j : Nat) : K :=
  qamLevel (bits.getD (j / 4 * 4 + 2 * (j % 2)) 0 * 2 + bits.getD (j / 4 * 4 + 2 * (j % 2) + 1) 0)
    / sqrt 10

/-- The bit `demodulateQAM16` stores at position `j`. -/
def qamBitAt (sqrt : K → K) (symbols : List K) (j : Nat) : Int :=
  let x : K := symbols.getD (j / 4 * 4 + (j % 4) / 2) 0 * sqrt 10
  if j % 2 = 0 then
    (if x > 0 then (if x > 2 then 1 else 0) else (if x < -2 then 0 else 1))
  else
    (if x > 0 then (if x > 2 then 0 else 1) else (if x < -2 then 1 else 0))

/-- The loop state `(encoded, state)` of `encodeConvolutional` after `k` rounds. -/
def encodeTrace (bits : List Int) : Nat → List Int × Int
  | 0 => ([], 0)
  | k + 1 =>
    (((encodeTrace bits k).1 ++ [(encodeStep (encodeTrace bits k).2 (bits.getD k 0)).1]) ++
        [(encodeStep (encodeTrace bits k).2 (bits.getD k 0)).2.1],
      (encodeStep (encodeTrace bits k).2 (bits.getD k 0)).2.2)

/-- The bits `decodeConvolutional` has pushed after `k` rounds. -/
def decodedPrefix (softBits : List K) (k : Nat) : List Int :=
  (List.range k).map (fun j =>
    Int.xor (if softBits.getD (j * 2) 0 > 0 then 1 else 0)
      (if softBits.getD (j * 2 + 1) 0 > 0 then 1 else 0))

/-- The test `computeZeroCrossingPoints` applies at index `i`. -/
def crossesAt (noisy : List K) (i : Nat) : Prop :=
  (noisy.getD (i - 1) 0 < 0 ∧ noisy.getD i 0 ≥ 0) ∨ (noisy.getD (i - 1) 0 > 0 ∧ noisy.getD i 0 ≤ 0)

instance (noisy : List K) (i : Nat) : Decidable (crossesAt noisy i) := by
  unfold crossesAt
  infer_instance

/-- The value of `errors` after `k` rounds of the bit-error loop. -/
def errorsAfter (bits decoded_bits : List Int) (k : Nat) : Nat :=
  ((List.range k).filter (fun i => decide (bits.getD i 0 ≠ decoded_bits.getD i 0))).length

/-- The pair of bits the rate-1/2 code with generator polynomials 7 and 5 (octal) emits
for `u[n]`, with `u[k] = 0` for `k < 0`: `(u[n] ^ u[n-1] ^ u[n-2], u[n] ^ u[n-2])`. -/
def generatorPair75 (u : List Int) (n : Nat) : Int × Int :=
  (Int.xor (Int.xor (u.getD n 0) (if 1 ≤ n then u.getD (n - 1) 0 else 0))
      (if 2 ≤ n then u.getD (n - 2) 0 else 0),
   Int.xor (u.getD n 0) (if 2 ≤ n then u.getD (n - 2) 0 else 0))

/-- The reading of the specification for `demodulate` with convolutional coding: the
per-scheme hard decision is made first and `decodeConvolutional` is applied to the bits it
returns (converted to `double`). -/
def demodulateThenDecode (sqrt : K → K) (modulation : ModulationType) (symbols : List K) :
    Except Fault (List Int) :=
  (match modulation with
    | .BPSK => demodulateBPSK symbols
    | .QPSK => demodulateQPSK symbols
    | .QAM16 => demodulateQAM16 sqrt symbols) >>= fun bits =>
    decodeConvolutional (bits.map (fun b => ((b : Int) : K)))

/-- The condition of the specification read in either order: one of the samples
`noisy[i-1]`, `noisy[i]` is strictly negative and the other is `>= 0`, or one of them is
strictly positive and the other is `<= 0`. -/
def crossesEitherOrder (noisy : List K) (i : Nat) : Prop :=
  (noisy.getD (i - 1) 0 < 0 ∧ noisy.getD i 0 ≥ 0) ∨
  (noisy.getD i 0 < 0 ∧ noisy.getD (i - 1) 0 ≥ 0) ∨
  (noisy.getD (i - 1) 0 > 0 ∧ noisy.getD i 0 ≤ 0) ∨
  (noisy.getD i 0 > 0 ∧ noisy.getD (i - 1) 0 ≤ 0)

/-- The mean of the squared samples, `(x[0]^2 + ... + x[n-1]^2) / n`. -/
def meanSquare (l : List K) : K :=
  (l.map (fun x => x * x)).sum / (l.length : K)

/-- The value `addNoise` adds to sample `i`: `noiseStdDev * z`, with `z` the Box-Muller
value computed from the draws `2 * i` and `2 * i + 1`. -/
def noiseAt (pow : K → K → K) (sqrt log cos : K → K) (G_PI : K) (uniform : Nat → Nat → K)
    (targetSNRdB : K) (seed : Nat) (signal : List K) (i : Nat) : K :=
  sqrt (adjustNoisePower pow targetSNRdB signal) *
    (sqrt (-2 * log (uniform seed (2 * i))) * cos (2 * G_PI * uniform seed (2 * i + 1)))

/-- The amplitude level of a pair of bits as the specification lists it:
`level(00) = -3`, `level(01) = -1`, `level(10) = +3`, `level(11) = +1`. -/
def levelOf (b0 b1 : Int) : K :=
  if b0 = 0 ∧ b1 = 0 then -3
  else if b0 = 0 ∧ b1 = 1 then -1
  else if b0 = 1 ∧ b1 = 0 then 3
  else 1

/-- The 16 groups of four bits. -/
def allGroups : List (List Int) :=
  [[0, 0, 0, 0], [0, 0, 0, 1], [0, 0, 1, 0], [0, 0, 1, 1],
   [0, 1, 0, 0], [0, 1, 0, 1], [0, 1, 1, 0], [0, 1, 1, 1],
   [1, 0, 0, 0], [1, 0, 0, 1], [1, 0, 1, 0], [1, 0, 1, 1],
   [1, 1, 0, 0], [1, 1, 0, 1], [1, 1, 1, 0], [1, 1, 1, 1]]

/-- The power `I^2 + Q^2` of the first pair `(I, Q)` of a modulator result. -/
def pairPower : Except Fault (List K) → K
  | .ok (I :: Q :: _) => I * I + Q * Q
  | _ => 0

/-- The element-wise differences `noisy[i] - original[i]`. -/
def differences (noisy original : List K) : List K :=
  List.zipWith (fun a b => a - b) noisy original

/-- The counters `(count1, count2, count3)` of `computePhasorStatistics` after `k` rounds
over the points `(re[i], im[i])`. -/
def phasorCounts (sqrt : K → K) (sigma : K) (re im : List K) : Nat → Int × Int × Int
  | 0 => (0, 0, 0)
  | k + 1 =>
    (if sqrt (re.getD k 0 * re.getD k 0 + im.getD k 0 * im.getD k 0) ≤ sigma
        then (phasorCounts sqrt sigma re im k).1 + 1 else (phasorCounts sqrt sigma re im k).1,
      if sqrt (re.getD k 0 * re.getD k 0 + im.getD k 0 * im.getD k 0) ≤ 2 * sigma
        then (phasorCounts sqrt sigma re im k).2.1 + 1
        else (phasorCounts sqrt sigma re im k).2.1,
      if sqrt (re.getD k 0 * re.getD k 0 + im.getD k 0 * im.getD k 0) ≤ 3 * sigma
        then (phasorCounts sqrt sigma re im k).2.2 + 1
        else (phasorCounts sqrt sigma re im k).2.2)

/-- The input bit `d` positions before the one read in round `k`; 0 before the start of
the input (the register starts at 0). -/
def delayed (bits : List Int) (k d : Nat) : Int :=
  if d ≤ k then bits.getD (k - d) 0 else 0

/-- The value `encodeConvolutional` pushes at position `i` of its output, as a function of
the input bits: round `k = i / 2` pushes `u[k] ^ u[k-2] ^ u[k-3]` and then `u[k] ^ u[k-3]`. -/
def encodedBitAt (bits : List Int) (i : Nat) : Int :=
  if i % 2 = 0 then
    Int.xor (Int.xor (bits.getD (i / 2) 0) (delayed bits (i / 2) 2)) (delayed bits (i / 2) 3)
  else
    Int.xor (bits.getD (i / 2) 0) (delayed bits (i / 2) 3)

/-- The Box-Muller value `z` that `addNoise` computes for sample `i`, from the draws `2 * i`
and `2 * i + 1` of the generator. -/
def boxMuller (sqrt log cos : K → K) (G_PI : K) (uniform : Nat → Nat → K) (seed i : Nat) : K :=
  sqrt (-2 * log (uniform seed (2 * i))) * cos (2 * G_PI * uniform seed (2 * i + 1))

/-- The mean of squares `adjustNoisePower` computes in the arithmetic `ops`
(`signalPower`). -/
def signalPowerOn (ops : DoubleOps K) (signal : List K) : K :=
  ops.div (signal.foldl (fun sum x => ops.add sum (ops.mul x x)) 0) (sizeDivisor signal)

/-- The value `addNoise` adds to sample `i` in the arithmetic `ops`, `noiseStdDev * z`, for
a waveform whose computed mean of squares is `power`. -/
def injectedOn (ops : DoubleOps K) (pow : K → K → K) (sqrt log cos : K → K) (G_PI : K)
    (uniform : Nat → Nat → K) (targetSNRdB : K) (seed : Nat) (power : K) (i : Nat) : K :=
  ops.mul (sqrt (ops.div power (pow 10 (ops.div targetSNRdB 10))))
    (ops.mul (sqrt (ops.mul (-2) (log (uniform seed (2 * i)))))
      (cos (ops.mul (ops.mul 2 G_PI) (uniform seed (2 * i + 1)))))

/-! ## Loop rules -/

theorem readAt_of_lt {α : Type} (v : List α) (i : Nat) (h : i < v.length) :
    readAt v i = .ok v[i] := by
  simp [readAt, List.getElem?_eq_getElem h]

theorem readAt_of_le {α : Type} (v : List α) (i : Nat) (h : v.length ≤ i) :
    readAt v i = .error .outOfRange := by
  simp [readAt, List.getElem?_eq_none h]

theorem writeAt_of_lt {α : Type} (v : List α) (i : Nat) (x : α) (h : i < v.length) :
    writeAt v i x = .ok (v.set i x) := by
  simp [writeAt, h]

theorem writeAt_of_le {α : Type} (v : List α) (i : Nat) (x : α) (h : v.length ≤ i) :
    writeAt v i x = .error .outOfRange := by
  simp [writeAt, Nat.not_lt.mpr h]

theorem bind_ok {α β : Type} (a : α) (f : α → Except Fault β) :
    (Except.ok a >>= f) = f a := rfl

theorem bind_error {α β : Type} (e : Fault) (f : α → Except Fault β) :
    ((Except.error e : Except Fault α) >>= f) = .error e := rfl

theorem sizeAdd_of_lt (a b : Nat) (h : a + b < SIZE_MOD) : sizeAdd a b = a + b := by
  simp [sizeAdd, Nat.mod_eq_of_lt h]

theorem sizeSub_of_le (a b : Nat) (ha : a < SIZE_MOD) (h : b ≤ a) : sizeSub a b = a - b := by
  have hb : b < SIZE_MOD := lt_of_le_of_lt h ha
  unfold sizeSub
  rw [Nat.mod_eq_of_lt hb]
  have : a + SIZE_MOD - b = (a - b) + SIZE_MOD := by omega
  rw [this, Nat.add_mod_right, Nat.mod_eq_of_lt (by omega)]

theorem sizeSub_of_lt (a b : Nat) (hb : b < SIZE_MOD) (h : a < b) :
    sizeSub a b = a + SIZE_MOD - b := by
  unfold sizeSub
  rw [Nat.mod_eq_of_lt hb, Nat.mod_eq_of_lt (by omega)]

theorem readAt_nil {α : Type} (i : Nat) : readAt ([] : List α) i = .error .outOfRange := rfl

theorem readAt_cons_zero {α : Type} (a : α) (l : List α) : readAt (a :: l) 0 = .ok a := rfl

theorem readAt_cons_succ {α : Type} (a : α) (l : List α) (i : Nat) :
    readAt (a :: l) (i + 1) = readAt l i := rfl

/-- A loop whose round `k` takes the state `st k` to `st (k + 1)` and that leaves after
`r` rounds ends in `st r`. -/
theorem loopRounds_trace {σ : Type} (bound step : Nat) (body : Nat → σ → Except Fault σ)
    (i0 r : Nat) (st : Nat → σ) (hwrap : i0 + r * step < SIZE_MOD)
    (hcond : ∀ k, k ≤ r → (i0 + k * step < bound ↔ k < r))
    (hbody : ∀ k, k < r → body (i0 + k * step) (st k) = .ok (st (k + 1))) :
    ∀ budget k, k ≤ r → r ≤ budget + k →
      loopRounds bound step body budget (i0 + k * step) (st k) = .ok (st r) := by
  intro budget
  induction budget with
  | zero =>
    intro k hk hr
    have hkr : k = r := by omega
    subst hkr
    have : ¬ (i0 + k * step < bound) := by
      rw [hcond k le_rfl]; exact lt_irrefl k
    simp [loopRounds, this]
  | succ n ih =>
    intro k hk hr
    by_cases hkr : k < r
    · have hlt : i0 + k * step < bound := (hcond k hk).2 hkr
      have hle : i0 + (k + 1) * step ≤ i0 + r * step :=
        Nat.add_le_add_left (Nat.mul_le_mul_right step hkr) i0
      have hnext : sizeAdd (i0 + k * step) step = i0 + (k + 1) * step := by
        rw [sizeAdd_of_lt]
        · rw [Nat.add_mul, Nat.one_mul, Nat.add_assoc]
        · have : i0 + k * step + step = i0 + (k + 1) * step := by
            rw [Nat.add_mul, Nat.one_mul, Nat.add_assoc]
          omega
      simp only [loopRounds, hlt, if_true, hbody k hkr, hnext]
      exact ih (k + 1) hkr (by omega)
    · have hkr2 : k = r := by omega
      subst hkr2
      have : ¬ (i0 + k * step < bound) := by
        rw [hcond k le_rfl]; exact lt_irrefl k
      simp [loopRounds, this]

theorem forLoop_trace {σ : Type} (i0 bound step : Nat) (body : Nat → σ → Except Fault σ)
    (r : Nat) (st : Nat → σ) (hstep : 0 < step) (hwrap : i0 + r * step < SIZE_MOD)
    (hcond : ∀ k, k ≤ r → (i0 + k * step < bound ↔ k < r))
    (hbody : ∀ k, k < r → body (i0 + k * step) (st k) = .ok (st (k + 1))) :
    forLoop i0 bound step body (st 0) = .ok (st r) := by
  have hr : r ≤ bound := by
    rcases Nat.eq_zero_or_pos r with h0 | hpos
    · omega
    · have h1 : i0 + (r - 1) * step < bound := (hcond (r - 1) (by omega)).2 (by omega)
      have h2 : r - 1 ≤ (r - 1) * step := Nat.le_mul_of_pos_right _ hstep
      omega
  have := loopRounds_trace bound step body i0 r st hwrap hcond hbody bound 0 (Nat.zero_le r)
    (by omega)
  simpa [forLoop] using this

/-- A loop whose first round faults, faults. -/
theorem forLoop_fault {σ : Type} (i0 bound step : Nat) (body : Nat → σ → Except Fault σ)
    (s0 : σ) (e : Fault) (hlt : i0 < bound) (hbody : body i0 s0 = .error e) :
    forLoop i0 bound step body s0 = .error e := by
  unfold forLoop
  obtain ⟨n, hn⟩ : ∃ n, bound = n + 1 := ⟨bound - 1, by omega⟩
  have : loopRounds bound step body (n + 1) i0 s0 = .error e := by
    simp [loopRounds, hlt, hbody]
  rw [hn] at this ⊢
  exact this

/-! ## Vectors filled front to back -/

theorem length_fillTo {α : Type} (n : Nat) (t : Nat → α) (z : α) (i : Nat) :
    (fillTo n t z i).length = n := by
  simp [fillTo]

theorem fillTo_zero {α : Type} (n : Nat) (t : Nat → α) (z : α) :
    fillTo n t z 0 = List.replicate n z := by
  apply List.ext_getElem
  · simp [fillTo]
  · intro j h1 h2
    simp [fillTo]

theorem set_fillTo {α : Type} (n : Nat) (t : Nat → α) (z : α) (i : Nat) :
    (fillTo n t z i).set i (t i) = fillTo n t z (i + 1) := by
  apply List.ext_getElem
  · simp [fillTo]
  · intro j h1 h2
    simp only [fillTo, List.getElem_set, List.getElem_map, List.getElem_range]
    by_cases hji : i = j
    · subst hji; simp
    · have : (j < i + 1) ↔ (j < i) := by omega
      simp [hji, this]

theorem writeAt_fillTo {α : Type} (n : Nat) (t : Nat → α) (z : α) (i : Nat) (h : i < n) :
    writeAt (fillTo n t z i) i (t i) = .ok (fillTo n t z (i + 1)) := by
  rw [writeAt_of_lt _ _ _ (by simpa [length_fillTo] using h), set_fillTo]

theorem fillTo_full {α β : Type} (l : List α) (f : α → β) (d : α) (z : β) :
    fillTo l.length (fun j => f (l.getD j d)) z l.length = l.map f := by
  apply List.ext_getElem
  · simp [fillTo]
  · intro j h1 h2
    have hj : j < l.length := by simpa [fillTo] using h1
    simp [fillTo, hj, List.getD_eq_getElem]

theorem getElem?_fillTo {α : Type} (n : Nat) (t : Nat → α) (z : α) (i j : Nat) (h : j < n) :
    (fillTo n t z i)[j]? = some (if j < i then t j else z) := by
  simp [fillTo, List.getElem?_eq_getElem, h]

/-! ## BPSK -/

theorem modulateBPSK_eq (bits : List Int) (hlen : bits.length < SIZE_MOD) :
    (modulateBPSK bits : Except Fault (List K)) =
      .ok (bits.map (fun b => if b ≠ 0 then (1 : K) else -1)) := by
  have h := forLoop_trace 0 bits.length 1
    (fun i (symbols : List K) => do
      let b ← readAt bits i
      writeAt symbols i (if b ≠ 0 then 1 else -1))
    bits.length
    (fillTo bits.length (fun j => if bits.getD j 0 ≠ 0 then (1 : K) else -1) 0)
    Nat.one_pos (by simpa using hlen) (by intro k hk; simp)
    (by
      intro k hk
      have := writeAt_fillTo bits.length
        (fun j => if bits.getD j 0 ≠ 0 then (1 : K) else -1) 0 k hk
      simp only [List.getD_eq_getElem _ _ hk] at this
      simp only [Nat.zero_add, Nat.mul_one, readAt_of_lt bits k hk, bind_ok]
      exact this)
  rw [fillTo_zero, fillTo_full bits (fun b => if b ≠ 0 then (1 : K) else -1) 0 0] at h
  exact h

theorem demodulateBPSK_eq (symbols : List K) (hlen : symbols.length < SIZE_MOD) :
    demodulateBPSK symbols = .ok (symbols.map (fun s => if s > 0 then (1 : Int) else 0)) := by
  have h := forLoop_trace 0 symbols.length 1
    (fun i (bits : List Int) => do
      let s ← readAt symbols i
      writeAt bits i (if s > 0 then 1 else 0))
    symbols.length
    (fillTo symbols.length (fun j => if symbols.getD j 0 > 0 then (1 : Int) else 0) 0)
    Nat.one_pos (by simpa using hlen) (by intro k hk; simp)
    (by
      intro k hk
      have := writeAt_fillTo symbols.length
        (fun j => if symbols.getD j 0 > 0 then (1 : Int) else 0) 0 k hk
      simp only [List.getD_eq_getElem _ _ hk] at this
      simp only [Nat.zero_add, Nat.mul_one, readAt_of_lt symbols k hk, bind_ok]
      exact this)
  rw [fillTo_zero, fillTo_full symbols (fun s => if s > 0 then (1 : Int) else 0) 0 0] at h
  exact h

theorem hardBit_bpsk (b : Int) (hb : b = 0 ∨ b = 1) :
    (if (if b ≠ 0 then (1 : K) else -1) > 0 then (1 : Int) else 0) = b := by
  rcases hb with rfl | rfl <;> simp

theorem map_id_of_forall {α : Type} (l : List α) (f : α → α) (h : ∀ a ∈ l, f a = a) :
    l.map f = l := by
  induction l with
  | nil => rfl
  | cons a t ih =>
    simp only [List.map_cons]
    rw [h a (List.mem_cons_self a t), ih (fun x hx => h x (List.mem_cons_of_mem a hx))]

/-- The form of `forLoop_trace` with the first and the last state named. -/
theorem forLoop_trace_eq {σ : Type} (i0 bound step : Nat) (body : Nat → σ → Except Fault σ)
    (s0 res : σ) (r : Nat) (st : Nat → σ) (hstep : 0 < step) (h0 : st 0 = s0)
    (hres : st r = res) (hwrap : i0 + r * step < SIZE_MOD)
    (hcond : ∀ k, k ≤ r → (i0 + k * step < bound ↔ k < r))
    (hbody : ∀ k, k < r → body (i0 + k * step) (st k) = .ok (st (k + 1))) :
    forLoop i0 bound step body s0 = .ok res := by
  rw [← h0, ← hres]
  exact forLoop_trace i0 bound step body r st hstep hwrap hcond hbody

/-! ## QPSK -/

theorem modulateQPSK_eq (sqrt : K → K) (bits : List Int) (hpos : 0 < bits.length)
    (hlen : bits.length < SIZE_MOD) :
    modulateQPSK sqrt bits =
      .ok (fillTo (bits.length / 2 * 2)
        (fun j => if bits.getD j 0 ≠ 0 then sqrt 2 / 2 else -(sqrt 2 / 2)) 0
        (bits.length / 2 * 2)) := by
  unfold modulateQPSK
  refine forLoop_trace_eq 0 _ 2 _ _ _ (bits.length / 2)
    (fun k => fillTo (bits.length / 2 * 2)
      (fun j => if bits.getD j 0 ≠ 0 then sqrt 2 / 2 else -(sqrt 2 / 2)) 0 (k * 2))
    (by decide) ?_ rfl ?_ ?_ ?_
  · simp only [Nat.zero_mul, fillTo_zero]
  · omega
  · intro k hk
    rw [sizeSub_of_le _ _ hlen hpos]
    omega
  · intro k hk
    have hk2 : k * 2 + 1 < bits.length := by omega
    have hk1 : k * 2 < bits.length := by omega
    have a1 : sizeAdd (k * 2) 1 = k * 2 + 1 := sizeAdd_of_lt _ _ (by omega)
    have w1 := writeAt_fillTo (bits.length / 2 * 2)
      (fun j => if bits.getD j 0 ≠ 0 then sqrt 2 / 2 else -(sqrt 2 / 2)) 0 (k * 2) (by omega)
    have w2 := writeAt_fillTo (bits.length / 2 * 2)
      (fun j => if bits.getD j 0 ≠ 0 then sqrt 2 / 2 else -(sqrt 2 / 2)) 0 (k * 2 + 1)
      (by omega)
    simp only [List.getD_eq_getElem _ _ hk1] at w1
    simp only [List.getD_eq_getElem _ _ hk2] at w2
    have e : (k + 1) * 2 = k * 2 + 1 + 1 := by omega
    simp only [Nat.zero_add, a1, readAt_of_lt bits _ hk1, readAt_of_lt bits _ hk2, bind_ok,
      w1, w2, e]

theorem modulateQPSK_even (sqrt : K → K) (bits : List Int) (hpos : 0 < bits.length)
    (hlen : bits.length < SIZE_MOD) (heven : bits.length % 2 = 0) :
    modulateQPSK sqrt bits =
      .ok (bits.map (fun b => if b ≠ 0 then sqrt 2 / 2 else -(sqrt 2 / 2))) := by
  rw [modulateQPSK_eq sqrt bits hpos hlen]
  have h : bits.length / 2 * 2 = bits.length := by omega
  rw [h, fillTo_full bits (fun b => if b ≠ 0 then sqrt 2 / 2 else -(sqrt 2 / 2)) 0 0]

theorem demodulateQPSK_eq (symbols : List K) (hpos : 0 < symbols.length)
    (hlen : symbols.length < SIZE_MOD) :
    demodulateQPSK symbols =
      .ok (fillTo symbols.length (fun j => if symbols.getD j 0 > 0 then (1 : Int) else 0) 0
        (symbols.length / 2 * 2)) := by
  unfold demodulateQPSK
  refine forLoop_trace_eq 0 _ 2 _ _ _ (symbols.length / 2)
    (fun k => fillTo symbols.length
      (fun j => if symbols.getD j 0 > 0 then (1 : Int) else 0) 0 (k * 2))
    (by decide) ?_ rfl ?_ ?_ ?_
  · simp only [Nat.zero_mul, fillTo_zero]
  · omega
  · intro k hk
    rw [sizeSub_of_le _ _ hlen hpos]
    omega
  · intro k hk
    have hk2 : k * 2 + 1 < symbols.length := by omega
    have hk1 : k * 2 < symbols.length := by omega
    have a1 : sizeAdd (k * 2) 1 = k * 2 + 1 := sizeAdd_of_lt _ _ (by omega)
    have w1 := writeAt_fillTo symbols.length
      (fun j => if symbols.getD j 0 > 0 then (1 : Int) else 0) 0 (k * 2) hk1
    have w2 := writeAt_fillTo symbols.length
      (fun j => if symbols.getD j 0 > 0 then (1 : Int) else 0) 0 (k * 2 + 1) hk2
    simp only [List.getD_eq_getElem _ _ hk1] at w1
    simp only [List.getD_eq_getElem _ _ hk2] at w2
    have e : (k + 1) * 2 = k * 2 + 1 + 1 := by omega
    simp only [Nat.zero_add, a1, readAt_of_lt symbols _ hk1, readAt_of_lt symbols _ hk2,
      bind_ok, w1, w2, e]

theorem demodulateQPSK_even (symbols : List K) (hpos : 0 < symbols.length)
    (hlen : symbols.length < SIZE_MOD) (heven : symbols.length % 2 = 0) :
    demodulateQPSK symbols = .ok (symbols.map (fun s => if s > 0 then (1 : Int) else 0)) := by
  rw [demodulateQPSK_eq symbols hpos hlen]
  have h : symbols.length / 2 * 2 = symbols.length := by omega
  rw [h, fillTo_full symbols (fun s => if s > 0 then (1 : Int) else 0) 0 0]

theorem hardBit_qpsk (scale : K) (hs : 0 < scale) (b : Int) (hb : b = 0 ∨ b = 1) :
    (if (if b ≠ 0 then scale else -scale) > 0 then (1 : Int) else 0) = b := by
  rcases hb with rfl | rfl
  · simp [hs.le]
  · simp [hs]

/-! ## 16-QAM -/

theorem qamSymbolAt_I (sqrt : K → K) (bits : List Int) (k d : Nat) (hd : d = 0 ∨ d = 2)
    (h : k * 4 + 1 < bits.length) :
    qamSymbolAt sqrt bits (k * 4 + d) =
      qamLevel (bits[k * 4] * 2 + bits[k * 4 + 1]) / sqrt 10 := by
  have e : (k * 4 + d) / 4 * 4 + 2 * ((k * 4 + d) % 2) = k * 4 := by omega
  unfold qamSymbolAt
  rw [e, List.getD_eq_getElem _ _ h, List.getD_eq_getElem _ _ (by omega : k * 4 < bits.length)]

theorem qamSymbolAt_Q (sqrt : K → K) (bits : List Int) (k d : Nat) (hd : d = 1 ∨ d = 3)
    (h : k * 4 + 3 < bits.length) :
    qamSymbolAt sqrt bits (k * 4 + d) =
      qamLevel (bits[k * 4 + 2] * 2 + bits[k * 4 + 3]) / sqrt 10 := by
  have e : (k * 4 + d) / 4 * 4 + 2 * ((k * 4 + d) % 2) = k * 4 + 2 := by omega
  unfold qamSymbolAt
  rw [e, List.getD_eq_getElem _ _ h,
    List.getD_eq_getElem _ _ (by omega : k * 4 + 2 < bits.length)]

theorem modulateQAM16_eq (sqrt : K → K) (bits : List Int) (h3 : 3 ≤ bits.length)
    (hlen : bits.length < SIZE_MOD) :
    modulateQAM16 sqrt bits =
      .ok (fillTo (bits.length / 4 * 4) (qamSymbolAt sqrt bits) 0 (bits.length / 4 * 4)) := by
  unfold modulateQAM16
  refine forLoop_trace_eq 0 _ 4 _ _ _ (bits.length / 4)
    (fun k => fillTo (bits.length / 4 * 4) (qamSymbolAt sqrt bits) 0 (k * 4))
    (by decide) ?_ rfl ?_ ?_ ?_
  · simp only [Nat.zero_mul, fillTo_zero]
  · omega
  · intro k hk
    rw [sizeSub_of_le _ _ hlen h3]
    omega
  · intro k hk
    have hk0 : k * 4 < bits.length := by omega
    have hk1 : k * 4 + 1 < bits.length := by omega
    have hk2 : k * 4 + 2 < bits.length := by omega
    have hk3 : k * 4 + 3 < bits.length := by omega
    have a1 : sizeAdd (k * 4) 1 = k * 4 + 1 := sizeAdd_of_lt _ _ (by omega)
    have a2 : sizeAdd (k * 4) 2 = k * 4 + 2 := sizeAdd_of_lt _ _ (by omega)
    have a3 : sizeAdd (k * 4) 3 = k * 4 + 3 := sizeAdd_of_lt _ _ (by omega)
    have w0 := writeAt_fillTo (bits.length / 4 * 4) (qamSymbolAt sqrt bits) 0 (k * 4)
      (by omega)
    have w1 := writeAt_fillTo (bits.length / 4 * 4) (qamSymbolAt sqrt bits) 0 (k * 4 + 1)
      (by omega)
    have w2 := writeAt_fillTo (bits.length / 4 * 4) (qamSymbolAt sqrt bits) 0 (k * 4 + 2)
      (by omega)
    have w3 := writeAt_fillTo (bits.length / 4 * 4) (qamSymbolAt sqrt bits) 0 (k * 4 + 3)
      (by omega)
    have q0 := qamSymbolAt_I sqrt bits k 0 (Or.inl rfl) hk1
    rw [Nat.add_zero] at q0
    rw [q0] at w0
    rw [qamSymbolAt_Q sqrt bits k 1 (Or.inl rfl) hk3] at w1
    rw [qamSymbolAt_I sqrt bits k 2 (Or.inr rfl) hk1] at w2
    rw [qamSymbolAt_Q sqrt bits k 3 (Or.inr rfl) hk3] at w3
    have e : (k + 1) * 4 = k * 4 + 3 + 1 := by omega
    simp only [Nat.zero_add, a1, a2, a3, readAt_of_lt bits _ hk0, readAt_of_lt bits _ hk1,
      readAt_of_lt bits _ hk2, readAt_of_lt bits _ hk3, bind_ok, w0, w1, w2, w3, e]

theorem qamBitAt_even (sqrt : K → K) (symbols : List K) (k d : Nat) (hd : d = 0 ∨ d = 2)
    (h : k * 4 + d / 2 < symbols.length) :
    qamBitAt sqrt symbols (k * 4 + d) =
      (if symbols[k * 4 + d / 2] * sqrt 10 > 0
        then (if symbols[k * 4 + d / 2] * sqrt 10 > 2 then 1 else 0)
        else (if symbols[k * 4 + d / 2] * sqrt 10 < -2 then 0 else 1)) := by
  have e : (k * 4 + d) / 4 * 4 + ((k * 4 + d) % 4) / 2 = k * 4 + d / 2 := by omega
  have e2 : (k * 4 + d) % 2 = 0 := by omega
  simp only [qamBitAt, e, e2, List.getD_eq_getElem _ _ h, if_true]

theorem qamBitAt_odd (sqrt : K → K) (symbols : List K) (k d : Nat) (hd : d = 1 ∨ d = 3)
    (h : k * 4 + d / 2 < symbols.length) :
    qamBitAt sqrt symbols (k * 4 + d) =
      (if symbols[k * 4 + d / 2] * sqrt 10 > 0
        then (if symbols[k * 4 + d / 2] * sqrt 10 > 2 then 0 else 1)
        else (if symbols[k * 4 + d / 2] * sqrt 10 < -2 then 1 else 0)) := by
  have e : (k * 4 + d) / 4 * 4 + ((k * 4 + d) % 4) / 2 = k * 4 + d / 2 := by omega
  have e2 : (k * 4 + d) % 2 = 1 := by omega
  simp only [qamBitAt, e, e2, List.getD_eq_getElem _ _ h, one_ne_zero, if_false]

theorem demodulateQAM16_eq (sqrt : K → K) (symbols : List K) (h3 : 3 ≤ symbols.length)
    (hlen : symbols.length < SIZE_MOD) :
    demodulateQAM16 sqrt symbols =
      .ok (fillTo symbols.length (qamBitAt sqrt symbols) 0 (symbols.length / 4 * 4)) := by
  unfold demodulateQAM16
  refine forLoop_trace_eq 0 _ 4 _ _ _ (symbols.length / 4)
    (fun k => fillTo symbols.length (qamBitAt sqrt symbols) 0 (k * 4))
    (by decide) ?_ rfl ?_ ?_ ?_
  · simp only [Nat.zero_mul, fillTo_zero]
  · omega
  · intro k hk
    rw [sizeSub_of_le _ _ hlen h3]
    omega
  · intro k hk
    have hk0 : k * 4 < symbols.length := by omega
    have hk1 : k * 4 + 1 < symbols.length := by omega
    have a1 : sizeAdd (k * 4) 1 = k * 4 + 1 := sizeAdd_of_lt _ _ (by omega)
    have a2 : sizeAdd (k * 4) 2 = k * 4 + 2 := sizeAdd_of_lt _ _ (by omega)
    have a3 : sizeAdd (k * 4) 3 = k * 4 + 3 := sizeAdd_of_lt _ _ (by omega)
    have w0 := writeAt_fillTo symbols.length (qamBitAt sqrt symbols) 0 (k * 4) (by omega)
    have w1 := writeAt_fillTo symbols.length (qamBitAt sqrt symbols) 0 (k * 4 + 1) (by omega)
    have w2 := writeAt_fillTo symbols.length (qamBitAt sqrt symbols) 0 (k * 4 + 2) (by omega)
    have w3 := writeAt_fillTo symbols.length (qamBitAt sqrt symbols) 0 (k * 4 + 3) (by omega)
    have q0 := qamBitAt_even sqrt symbols k 0 (Or.inl rfl) (by omega)
    have q1 := qamBitAt_odd sqrt symbols k 1 (Or.inl rfl) (by omega)
    have q2 := qamBitAt_even sqrt symbols k 2 (Or.inr rfl) (by omega)
    have q3 := qamBitAt_odd sqrt symbols k 3 (Or.inr rfl) (by omega)
    simp only [Nat.add_zero, Nat.zero_div, Nat.reduceDiv] at q0 q1 q2 q3
    rw [q0] at w0
    rw [q1] at w1
    rw [q2] at w2
    rw [q3] at w3
    have e : (k + 1) * 4 = k * 4 + 3 + 1 := by omega
    simp only [Nat.zero_add, a1, a2, a3, readAt_of_lt symbols _ hk0,
      readAt_of_lt symbols _ hk1, bind_ok, w0, w1, w2, w3, e]

/-! ## Convolutional coding -/

theorem encodeConvolutional_eq (bits : List Int) (hlen : bits.length < SIZE_MOD) :
    encodeConvolutional bits = .ok (encodeTrace bits bits.length).1 := by
  have key : forLoop 0 bits.length 1 (fun i (st : List Int × Int) => do
        let input ← readAt bits i
        let r := encodeStep st.2 input
        pure ((st.1 ++ [r.1]) ++ [r.2.1], r.2.2)) ([], 0)
      = .ok (encodeTrace bits bits.length) := by
    refine forLoop_trace_eq 0 _ 1 _ _ _ bits.length (encodeTrace bits)
      Nat.one_pos rfl rfl ?_ ?_ ?_
    · omega
    · intro k hk
      omega
    · intro k hk
      simp only [Nat.zero_add, Nat.mul_one, readAt_of_lt bits k hk, bind_ok, pure,
        Except.pure, encodeTrace, List.getD_eq_getElem _ _ hk]
  unfold encodeConvolutional
  rw [key]
  rfl

theorem decodeConvolutional_eq (softBits : List K) (heven : softBits.length % 2 = 0)
    (hlen : softBits.length < SIZE_MOD) :
    decodeConvolutional softBits = .ok (decodedPrefix softBits (softBits.length / 2)) := by
  unfold decodeConvolutional
  refine forLoop_trace_eq 0 _ 2 _ _ _ (softBits.length / 2) (decodedPrefix softBits)
    (by decide) rfl rfl ?_ ?_ ?_
  · omega
  · intro k hk
    omega
  · intro k hk
    have hk0 : k * 2 < softBits.length := by omega
    have hk1 : k * 2 + 1 < softBits.length := by omega
    have a1 : sizeAdd (k * 2) 1 = k * 2 + 1 := sizeAdd_of_lt _ _ (by omega)
    simp only [Nat.zero_add, a1, readAt_of_lt softBits _ hk0, readAt_of_lt softBits _ hk1,
      bind_ok, pure, Except.pure, decodedPrefix, List.range_succ, List.map_append,
      List.map_cons, List.map_nil, List.getD_eq_getElem _ _ hk0,
      List.getD_eq_getElem _ _ hk1]

/-! ## Zero crossings, sine samples and the bit-error count -/

theorem computeZeroCrossingPoints_eq (noisy : List K) (hlen : noisy.length < SIZE_MOD) :
    computeZeroCrossingPoints noisy =
      .ok ((List.range' 1 (noisy.length - 1)).filter (fun i => decide (crossesAt noisy i))) := by
  unfold computeZeroCrossingPoints
  refine forLoop_trace_eq 1 _ 1 _ _ _ (noisy.length - 1)
    (fun k => (List.range' 1 k).filter (fun i => decide (crossesAt noisy i)))
    Nat.one_pos rfl rfl ?_ ?_ ?_
  · have h1 : 1 < SIZE_MOD := by decide
    omega
  · intro k hk
    omega
  · intro k hk
    have hk0 : k < noisy.length := by omega
    have hk1 : 1 + k < noisy.length := by omega
    have s1 : sizeSub (1 + k) 1 = k := by
      rw [sizeSub_of_le _ _ (by omega) (by omega)]; omega
    have hc : crossesAt noisy (1 + k) ↔
        ((noisy[k] < 0 ∧ noisy[1 + k] ≥ 0) ∨ (noisy[k] > 0 ∧ noisy[1 + k] ≤ 0)) := by
      unfold crossesAt
      have e : 1 + k - 1 = k := by omega
      rw [e, List.getD_eq_getElem _ _ hk0, List.getD_eq_getElem _ _ hk1]
    simp only [Nat.mul_one, s1, readAt_of_lt noisy _ hk0, readAt_of_lt noisy _ hk1, bind_ok,
      List.range'_1_concat, List.filter_append]
    by_cases h : (noisy[k] < 0 ∧ noisy[1 + k] ≥ 0) ∨ (noisy[k] > 0 ∧ noisy[1 + k] ≤ 0)
    · have hd : decide (crossesAt noisy (1 + k)) = true := decide_eq_true (hc.2 h)
      simp only [h, if_true, pure, Except.pure, List.filter_cons, hd, List.filter_nil]
    · have hd : decide (crossesAt noisy (1 + k)) = false :=
        decide_eq_false (fun hx => h (hc.1 hx))
      simp only [h, if_false, pure, Except.pure, List.filter_cons, hd, List.filter_nil,
        Bool.false_eq_true, List.append_nil]

theorem generateSineWave_eq (sin : K → K) (PI : K) (numSamples : Nat) (amplitude frequency : K)
    (hlen : numSamples < SIZE_MOD) :
    generateSineWave sin PI numSamples amplitude frequency =
      .ok ((List.range numSamples).map
        (fun (i : Nat) => amplitude * sin (2 * PI * frequency * (i : K)))) := by
  unfold generateSineWave
  refine forLoop_trace_eq 0 _ 1 _ _ _ numSamples
    (fun k => fillTo numSamples
      (fun (i : Nat) => amplitude * sin (2 * PI * frequency * (i : K))) 0 k)
    Nat.one_pos ?_ ?_ ?_ ?_ ?_
  · exact fillTo_zero _ _ _
  · apply List.ext_getElem
    · simp [fillTo]
    · intro j h1 h2
      have hj : j < numSamples := by simpa [fillTo] using h1
      simp [fillTo, hj]
  · omega
  · intro k hk
    omega
  · intro k hk
    have w := writeAt_fillTo numSamples
      (fun (i : Nat) => amplitude * sin (2 * PI * frequency * (i : K))) 0 k hk
    simp only [Nat.zero_add, Nat.mul_one]
    exact w

theorem countBitErrors_eq (bits decoded_bits : List Int)
    (hlen : min bits.length decoded_bits.length < SIZE_MOD) :
    countBitErrors bits decoded_bits =
      .ok (errorsAfter bits decoded_bits (min bits.length decoded_bits.length)) := by
  unfold countBitErrors
  refine forLoop_trace_eq 0 _ 1 _ _ _ (min bits.length decoded_bits.length)
    (errorsAfter bits decoded_bits) Nat.one_pos rfl rfl ?_ ?_ ?_
  · omega
  · intro k hk
    omega
  · intro k hk
    have hk0 : k < bits.length := lt_of_lt_of_le hk (Nat.min_le_left _ _)
    have hk1 : k < decoded_bits.length := lt_of_lt_of_le hk (Nat.min_le_right _ _)
    have hle : errorsAfter bits decoded_bits k ≤ k := by
      unfold errorsAfter
      exact le_trans (List.length_filter_le _ _) (by simp)
    have a1 : sizeAdd (errorsAfter bits decoded_bits k) 1 = errorsAfter bits decoded_bits k + 1 :=
      sizeAdd_of_lt _ _ (by omega)
    simp only [Nat.zero_add, Nat.mul_one, readAt_of_lt bits _ hk0,
      readAt_of_lt decoded_bits _ hk1, bind_ok, pure, Except.pure, a1]
    have e : errorsAfter bits decoded_bits (k + 1) =
        if bits[k] ≠ decoded_bits[k] then errorsAfter bits decoded_bits k + 1
        else errorsAfter bits decoded_bits k := by
      unfold errorsAfter
      rw [List.range_succ, List.filter_append, List.length_append]
      simp only [List.filter_cons, List.filter_nil, List.getD_eq_getElem _ _ hk0,
        List.getD_eq_getElem _ _ hk1]
      by_cases hne : bits[k] = decoded_bits[k] <;> simp [hne]
    rw [e]

/-! ## Vectors shorter than one symbol group -/

theorem sizeSub_pos_of_lt (a b : Nat) (hb : b < SIZE_MOD) (h : a < b) : 0 < sizeSub a b := by
  rw [sizeSub_of_lt a b hb h]
  omega

theorem sizeAdd_zero_small (b : Nat) (hb : b < 4) : sizeAdd 0 b = b :=
  (sizeAdd_of_lt 0 b (lt_of_lt_of_le (by omega : 0 + b < 4) (by decide))).trans
    (Nat.zero_add b)

theorem modulateQPSK_nil (sqrt : K → K) :
    modulateQPSK sqrt ([] : List Int) = .error .outOfRange := by
  unfold modulateQPSK
  refine forLoop_fault 0 _ 2 _ _ _ (sizeSub_pos_of_lt 0 1 (by decide) (by decide)) ?_
  simp only [readAt_nil, bind_error]

theorem demodulateQPSK_nil :
    demodulateQPSK ([] : List K) = .error .outOfRange := by
  unfold demodulateQPSK
  refine forLoop_fault 0 _ 2 _ _ _ (sizeSub_pos_of_lt 0 1 (by decide) (by decide)) ?_
  simp only [readAt_nil, bind_error]

theorem modulateQAM16_short (sqrt : K → K) (bits : List Int) (h : bits.length < 3) :
    modulateQAM16 sqrt bits = .error .outOfRange := by
  unfold modulateQAM16
  refine forLoop_fault 0 _ 4 _ _ _ (sizeSub_pos_of_lt _ 3 (by decide) h) ?_
  have a1 := sizeAdd_zero_small 1 (by decide)
  have a2 := sizeAdd_zero_small 2 (by decide)
  match bits, h with
  | [], _ => simp only [readAt_nil, bind_error]
  | [b0], _ =>
    simp only [a1, readAt_cons_zero, readAt_cons_succ b0 [] 0, readAt_nil, bind_ok,
      bind_error]
  | [b0, b1], _ =>
    simp only [a1, a2, readAt_cons_zero, readAt_cons_succ b0 [b1] 0,
      readAt_cons_succ b0 [b1] 1, readAt_cons_succ b1 [] 0, readAt_nil, bind_ok, bind_error]
  | _ :: _ :: _ :: _, h => simp at h; omega

theorem demodulateQAM16_short (sqrt : K → K) (symbols : List K) (h : symbols.length < 3) :
    demodulateQAM16 sqrt symbols = .error .outOfRange := by
  unfold demodulateQAM16
  refine forLoop_fault 0 _ 4 _ _ _ (sizeSub_pos_of_lt _ 3 (by decide) h) ?_
  have a1 := sizeAdd_zero_small 1 (by decide)
  have a2 := sizeAdd_zero_small 2 (by decide)
  match symbols, h with
  | [], _ => simp only [readAt_nil, bind_error]
  | [s0], _ =>
    simp only [a1, readAt_cons_zero, readAt_cons_succ s0 [] 0, readAt_nil, bind_ok,
      bind_error]
  | [s0, s1], _ =>
    simp only [a1, a2, readAt_cons_zero, readAt_cons_succ s0 [s1] 0, bind_ok]
    rw [writeAt_of_lt _ 0 _ (by simp), bind_ok, writeAt_of_lt _ 1 _ (by simp), bind_ok,
      writeAt_of_le _ 2 _ (by simp), bind_error]
  | _ :: _ :: _ :: _, h => simp at h; omega

/-! ## Sign of the samples of a sine -/

theorem sin_pi_nat_add (k : Nat) (t : ℝ) :
    Real.sin (Real.pi * ((k : ℝ) + t)) = (-1) ^ k * Real.sin (Real.pi * t) := by
  have e : Real.pi * ((k : ℝ) + t) = Real.pi * t + k * Real.pi := by ring
  rw [e, Real.sin_add_nat_mul_pi]

theorem sin_pi_frac_pos (t : ℝ) (h0 : 0 < t) (h1 : t < 1) : 0 < Real.sin (Real.pi * t) := by
  apply Real.sin_pos_of_pos_of_lt_pi
  · exact mul_pos Real.pi_pos h0
  · calc Real.pi * t < Real.pi * 1 := mul_lt_mul_of_pos_left h1 Real.pi_pos
      _ = Real.pi := mul_one _

theorem sin_pi_pos_of_even (k : Nat) (hk : Even k) (y : ℝ) (h0 : (k : ℝ) < y)
    (h1 : y < (k : ℝ) + 1) : 0 < Real.sin (Real.pi * y) := by
  have e : y = (k : ℝ) + (y - k) := by ring
  rw [e, sin_pi_nat_add, hk.neg_one_pow, one_mul]
  exact sin_pi_frac_pos _ (by linarith) (by linarith)

theorem sin_pi_neg_of_odd (k : Nat) (hk : Odd k) (y : ℝ) (h0 : (k : ℝ) < y)
    (h1 : y < (k : ℝ) + 1) : Real.sin (Real.pi * y) < 0 := by
  have e : y = (k : ℝ) + (y - k) := by ring
  rw [e, sin_pi_nat_add, hk.neg_one_pow]
  have := sin_pi_frac_pos (y - k) (by linarith) (by linarith)
  linarith

theorem sin_pi_nat (k : Nat) : Real.sin (Real.pi * (k : ℝ)) = 0 := by
  rw [mul_comm]
  exact Real.sin_nat_mul_pi k

/-- With less than half a period between two samples, the test of
`computeZeroCrossingPoints` holds between the samples at phases `pi * x` and
`pi * (x + d)` exactly when an integer lies in `(x, x + d]`. -/
theorem sine_crossing_iff (a x d : ℝ) (ha : 0 < a) (hx : 0 ≤ x) (hd0 : 0 < d) (hd1 : d < 1) :
    ((a * Real.sin (Real.pi * x) < 0 ∧ a * Real.sin (Real.pi * (x + d)) ≥ 0) ∨
      (a * Real.sin (Real.pi * x) > 0 ∧ a * Real.sin (Real.pi * (x + d)) ≤ 0)) ↔
    ⌊x + d⌋₊ = ⌊x⌋₊ + 1 := by
  have hk1 : (⌊x⌋₊ : ℝ) ≤ x := Nat.floor_le hx
  have hk2 : x < (⌊x⌋₊ : ℝ) + 1 := Nat.lt_floor_add_one x
  have hy : 0 ≤ x + d := by linarith
  generalize ⌊x⌋₊ = k at hk1 hk2
  by_cases hlt : x + d < (k : ℝ) + 1
  · -- no integer in `(x, x + d]`
    have hfl : ⌊x + d⌋₊ = k := (Nat.floor_eq_iff hy).2 ⟨by linarith, hlt⟩
    have hne : ¬ (⌊x + d⌋₊ = k + 1) := by omega
    refine iff_of_false ?_ hne
    rcases eq_or_lt_of_le hk1 with hxk | hxk
    · rw [← hxk, sin_pi_nat, mul_zero]
      simp
    · rcases Nat.even_or_odd k with he | ho
      · have s1 := mul_pos ha (sin_pi_pos_of_even k he x hxk hk2)
        have s2 := mul_pos ha (sin_pi_pos_of_even k he (x + d) (by linarith) hlt)
        rintro (⟨h, _⟩ | ⟨_, h⟩) <;> linarith
      · have s1 := mul_neg_of_pos_of_neg ha (sin_pi_neg_of_odd k ho x hxk hk2)
        have s2 := mul_neg_of_pos_of_neg ha (sin_pi_neg_of_odd k ho (x + d) (by linarith) hlt)
        rintro (⟨_, h⟩ | ⟨h, _⟩) <;> linarith
  · -- the integer `k + 1` lies in `(x, x + d]`
    have hge : (k : ℝ) + 1 ≤ x + d := not_lt.1 hlt
    have hfl : ⌊x + d⌋₊ = k + 1 :=
      (Nat.floor_eq_iff hy).2 ⟨by push_cast; linarith, by push_cast; linarith⟩
    refine iff_of_true ?_ hfl
    have hxk : (k : ℝ) < x := by linarith
    have hcast : ((k + 1 : ℕ) : ℝ) = (k : ℝ) + 1 := by push_cast; ring
    rcases Nat.even_or_odd k with he | ho
    · right
      refine ⟨mul_pos ha (sin_pi_pos_of_even k he x hxk hk2), ?_⟩
      rcases eq_or_lt_of_le hge with heq | hgt
      · rw [← heq, ← hcast, sin_pi_nat, mul_zero]
      · have := mul_neg_of_pos_of_neg ha (sin_pi_neg_of_odd (k + 1) (Even.add_one he) (x + d)
          (by rw [hcast]; exact hgt) (by rw [hcast]; linarith))
        linarith
    · left
      refine ⟨mul_neg_of_pos_of_neg ha (sin_pi_neg_of_odd k ho x hxk hk2), ?_⟩
      rcases eq_or_lt_of_le hge with heq | hgt
      · rw [← heq, ← hcast, sin_pi_nat, mul_zero]
      · have := mul_pos ha (sin_pi_pos_of_even (k + 1) (Odd.add_one ho) (x + d)
          (by rw [hcast]; exact hgt) (by rw [hcast]; linarith))
        linarith

theorem floor_step (x d : ℝ) (hx : 0 ≤ x) (hd0 : 0 < d) (hd1 : d < 1) :
    ⌊x + d⌋₊ = ⌊x⌋₊ ∨ ⌊x + d⌋₊ = ⌊x⌋₊ + 1 := by
  have hk1 : (⌊x⌋₊ : ℝ) ≤ x := Nat.floor_le hx
  have hk2 : x < (⌊x⌋₊ : ℝ) + 1 := Nat.lt_floor_add_one x
  have hy : 0 ≤ x + d := by linarith
  by_cases hlt : x + d < (⌊x⌋₊ : ℝ) + 1
  · left
    exact (Nat.floor_eq_iff hy).2 ⟨by linarith, hlt⟩
  · right
    have hge : (⌊x⌋₊ : ℝ) + 1 ≤ x + d := not_lt.1 hlt
    exact (Nat.floor_eq_iff hy).2 ⟨by push_cast; linarith, by push_cast; linarith⟩

/-- On samples `a * sin (2 * pi * f * i)` with `0 < f < 1/2`, the indices up to `n` at
which the test of `computeZeroCrossingPoints` holds are `floor (2 * f * n)` many. -/
theorem sine_crossing_count (a f : ℝ) (ha : 0 < a) (hf0 : 0 < f) (hf1 : 2 * f < 1)
    (L : List ℝ) (n : Nat)
    (hL : ∀ i, i ≤ n → L.getD i 0 = a * Real.sin (2 * Real.pi * f * (i : ℝ))) :
    ((List.range' 1 n).filter (fun i => decide (crossesAt L i))).length = ⌊2 * f * (n : ℝ)⌋₊ := by
  induction n with
  | zero => simp
  | succ n ih =>
    have ih2 := ih (fun i hi => hL i (Nat.le_succ_of_le hi))
    have hx : (0 : ℝ) ≤ 2 * f * (n : ℝ) := by positivity
    have e0 : 2 * Real.pi * f * (n : ℝ) = Real.pi * (2 * f * (n : ℝ)) := by ring
    have e1 : 2 * Real.pi * f * ((1 + n : ℕ) : ℝ) = Real.pi * (2 * f * (n : ℝ) + 2 * f) := by
      push_cast; ring
    have e2 : 2 * f * ((n + 1 : ℕ) : ℝ) = 2 * f * (n : ℝ) + 2 * f := by push_cast; ring
    have hc : crossesAt L (1 + n) ↔ ⌊2 * f * (n : ℝ) + 2 * f⌋₊ = ⌊2 * f * (n : ℝ)⌋₊ + 1 := by
      unfold crossesAt
      have en : 1 + n - 1 = n := by omega
      rw [en, hL n (Nat.le_succ n), hL (1 + n) (by omega), e0, e1]
      exact sine_crossing_iff a (2 * f * (n : ℝ)) (2 * f) ha hx (by linarith) hf1
    rw [List.range'_1_concat, List.filter_append, List.length_append, ih2, e2]
    by_cases h : crossesAt L (1 + n)
    · have hd : decide (crossesAt L (1 + n)) = true := decide_eq_true h
      simp only [List.filter_cons, hd, if_true, List.filter_nil, List.length_cons,
        List.length_nil]
      exact (hc.1 h).symm
    · have hd : decide (crossesAt L (1 + n)) = false := decide_eq_false h
      simp only [List.filter_cons, hd, Bool.false_eq_true, if_false, List.filter_nil,
        List.length_nil, Nat.add_zero]
      rcases floor_step (2 * f * (n : ℝ)) (2 * f) hx (by linarith) hf1 with h1 | h1
      · exact h1.symm
      · exact absurd (hc.2 h1) h

/-- The run of `generateSineWave` followed by `computeZeroCrossingPoints`, for
`0 < f < 1/2`: it returns `floor (2 * f * (N - 1))` indices. -/
theorem sine_run_count (amplitude frequency : ℝ) (N : Nat) (ha : 0 < amplitude)
    (hf0 : 0 < frequency) (hf1 : frequency < 1 / 2) (hN : 1 ≤ N) (hlen : N < SIZE_MOD) :
    ∃ pts, (generateSineWave Real.sin Real.pi N amplitude frequency >>=
        computeZeroCrossingPoints) = .ok pts ∧
      pts.length = ⌊2 * frequency * ((N : ℝ) - 1)⌋₊ := by
  have hl : ((List.range N).map
      (fun (i : Nat) => amplitude * Real.sin (2 * Real.pi * frequency * (i : ℝ)))).length = N := by
    simp
  have hrun : (generateSineWave Real.sin Real.pi N amplitude frequency >>=
      computeZeroCrossingPoints) = .ok ((List.range' 1 (N - 1)).filter (fun i => decide
        (crossesAt ((List.range N).map (fun (i : Nat) =>
          amplitude * Real.sin (2 * Real.pi * frequency * (i : ℝ)))) i))) := by
    rw [generateSineWave_eq Real.sin Real.pi N amplitude frequency hlen, bind_ok,
      computeZeroCrossingPoints_eq _ (by rw [hl]; exact hlen), hl]
  refine ⟨_, hrun, ?_⟩
  have hc : (((N - 1 : ℕ)) : ℝ) = (N : ℝ) - 1 := by
    rw [Nat.cast_sub hN]; simp
  rw [← hc]
  apply sine_crossing_count amplitude frequency ha hf0 (by linarith)
  intro i hi
  have hiN : i < N := by omega
  rw [List.getD_eq_getElem _ _ (by simpa using hiN)]
  simp

/-! ## Dispatch of `modulate` and `demodulate` -/

theorem modulate_none (sqrt : K → K) (m : ModulationType) (bits : List Int) :
    modulate sqrt m .NONE bits =
      (match m with
        | .BPSK => modulateBPSK bits
        | .QPSK => modulateQPSK sqrt bits
        | .QAM16 => modulateQAM16 sqrt bits) := by
  cases m <;> simp only [modulate] <;> simp only [pure, Except.pure] <;> rw [bind_ok]

theorem modulate_convolutional (sqrt : K → K) (m : ModulationType) (bits : List Int) :
    modulate sqrt m .CONVOLUTIONAL bits =
      encodeConvolutional bits >>= fun encodedBits =>
        (match m with
          | .BPSK => modulateBPSK encodedBits
          | .QPSK => modulateQPSK sqrt encodedBits
          | .QAM16 => modulateQAM16 sqrt encodedBits) := by
  cases m <;> simp only [modulate]

theorem demodulate_eq (sqrt : K → K) (m : ModulationType) (c : CodingType)
    (symbols : List K) :
    demodulate sqrt m c symbols =
      (match m with
        | .BPSK => demodulateBPSK symbols
        | .QPSK => demodulateQPSK symbols
        | .QAM16 => demodulateQAM16 sqrt symbols) >>= fun bits =>
        (match c with
          | .CONVOLUTIONAL => decodeConvolutional symbols
          | .NONE => .ok bits) := by
  cases m <;> cases c <;> simp only [demodulate] <;> simp only [pure, Except.pure]

theorem fillTo_four {α : Type} (t : Nat → α) (z : α) :
    fillTo 4 t z 4 = [t 0, t 1, t 2, t 3] := rfl

theorem qam16_zero_group (sqrt : K → K) (hs : 0 < sqrt 10) :
    (modulate sqrt .QAM16 .NONE [0, 0, 0, 0] >>= demodulate sqrt .QAM16 .NONE)
      = .ok [0, 1, 0, 1] := by
  have hm : modulateQAM16 sqrt [0, 0, 0, 0] =
      .ok [-3 / sqrt 10, -3 / sqrt 10, -3 / sqrt 10, -3 / sqrt 10] := by
    rw [modulateQAM16_eq sqrt [0, 0, 0, 0] (by decide) (by decide)]
    have : ([0, 0, 0, 0] : List Int).length / 4 * 4 = 4 := rfl
    rw [this, fillTo_four]
    simp [qamSymbolAt, qamLevel]
  have hx : -3 / sqrt 10 * sqrt 10 = -3 := div_mul_cancel₀ _ hs.ne'
  have hd : demodulateQAM16 sqrt [-3 / sqrt 10, -3 / sqrt 10, -3 / sqrt 10, -3 / sqrt 10] =
      .ok [0, 1, 0, 1] := by
    rw [demodulateQAM16_eq sqrt _ (by simp) (by simp [SIZE_MOD])]
    have : ([-3 / sqrt 10, -3 / sqrt 10, -3 / sqrt 10, -3 / sqrt 10] : List K).length = 4 :=
      rfl
    rw [this]
    have : 4 / 4 * 4 = 4 := rfl
    rw [this, fillTo_four]
    norm_num [qamBitAt, hx]
  simp only [modulate_none]
  rw [hm, bind_ok]
  simp only [demodulate_eq]
  rw [hd, bind_ok]

theorem bpsk_convolutional_one (sqrt : K → K) :
    (modulate sqrt .BPSK .CONVOLUTIONAL [1] >>= demodulate sqrt .BPSK .CONVOLUTIONAL)
      = .ok [0] := by
  have he : encodeConvolutional [1] = .ok [1, 1] := by
    rw [encodeConvolutional_eq [1] (by decide)]
    have : (encodeTrace [1] ([1] : List Int).length).1 = [1, 1] := by decide
    rw [this]
  have hm : (modulateBPSK [1, 1] : Except Fault (List K)) = .ok [1, 1] := by
    rw [modulateBPSK_eq [1, 1] (by decide)]
    simp
  have hd : demodulateBPSK ([1, 1] : List K) = .ok [1, 1] := by
    rw [demodulateBPSK_eq _ (by simp [SIZE_MOD])]
    simp
  have hc : decodeConvolutional ([1, 1] : List K) = .ok [0] := by
    rw [decodeConvolutional_eq _ (by simp) (by simp [SIZE_MOD])]
    have : ([1, 1] : List K).length / 2 = 1 := by simp
    rw [this]
    have h0 : ([1, 1] : List K).getD (0 * 2) 0 = 1 := rfl
    have h1 : ([1, 1] : List K).getD (0 * 2 + 1) 0 = 1 := rfl
    simp only [decodedPrefix, List.range_succ, List.range_zero, List.nil_append, List.map_cons,
      List.map_nil, h0, h1, zero_lt_one, if_true]
    rfl
  simp only [modulate_convolutional]
  rw [he, bind_ok, hm, bind_ok]
  simp only [demodulate_eq]
  rw [hd, bind_ok, hc]

/-! ## Demodulation with convolutional coding -/

theorem hardBit_cast (s : K) :
    (if (((if s > 0 then (1 : Int) else 0) : Int) : K) > 0 then (1 : Int) else 0) =
      (if s > 0 then (1 : Int) else 0) := by
  by_cases h : s > 0 <;> simp [h]

theorem decodedPrefix_hard (symbols : List K) (k : Nat) (hk : k * 2 ≤ symbols.length) :
    decodedPrefix ((symbols.map (fun s => if s > 0 then (1 : Int) else 0)).map
      (fun b => ((b : Int) : K))) k = decodedPrefix symbols k := by
  unfold decodedPrefix
  apply List.map_congr_left
  intro j hj
  have hj2 : j < k := List.mem_range.1 hj
  have h0 : j * 2 < symbols.length := by omega
  have h1 : j * 2 + 1 < symbols.length := by omega
  rw [List.getD_eq_getElem _ _ (by simpa using h0), List.getD_eq_getElem _ _ (by simpa using h1),
    List.getD_eq_getElem _ _ h0, List.getD_eq_getElem _ _ h1]
  simp only [List.getElem_map, hardBit_cast]

theorem decode_hard_eq (symbols : List K) (heven : symbols.length % 2 = 0)
    (hlen : symbols.length < SIZE_MOD) :
    decodeConvolutional ((symbols.map (fun s => if s > 0 then (1 : Int) else 0)).map
      (fun b => ((b : Int) : K))) = decodeConvolutional symbols := by
  have hl : ((symbols.map (fun s => if s > 0 then (1 : Int) else 0)).map
      (fun b => ((b : Int) : K))).length = symbols.length := by
    rw [List.length_map, List.length_map]
  rw [decodeConvolutional_eq _ (hl ▸ heven) (hl ▸ hlen), decodeConvolutional_eq _ heven hlen,
    hl, decodedPrefix_hard symbols _ (by omega)]

theorem demodulate_convolutional_eq (sqrt : K → K) (m : ModulationType) (symbols : List K)
    (hpos : 0 < symbols.length) (h4 : symbols.length % 4 = 0)
    (hlen : symbols.length < SIZE_MOD) :
    demodulate sqrt m .CONVOLUTIONAL symbols = decodeConvolutional symbols := by
  rw [demodulate_eq]
  cases m
  · simp only []
    rw [demodulateBPSK_eq symbols hlen, bind_ok]
  · simp only []
    rw [demodulateQPSK_even symbols hpos hlen (by omega), bind_ok]
  · simp only []
    rw [demodulateQAM16_eq sqrt symbols (by omega) hlen, bind_ok]

theorem demodulateThenDecode_eq (sqrt : K → K) (m : ModulationType) (symbols : List K)
    (hm : m ≠ .QAM16) (hpos : 0 < symbols.length) (h4 : symbols.length % 4 = 0)
    (hlen : symbols.length < SIZE_MOD) :
    demodulateThenDecode sqrt m symbols = decodeConvolutional symbols := by
  unfold demodulateThenDecode
  cases m
  · simp only []
    rw [demodulateBPSK_eq symbols hlen, bind_ok, decode_hard_eq symbols (by omega) hlen]
  · simp only []
    rw [demodulateQPSK_even symbols hpos hlen (by omega), bind_ok,
      decode_hard_eq symbols (by omega) hlen]
  · exact absurd rfl hm

theorem qam16_ones (sqrt : K → K) (hs : 2 < sqrt 10) :
    demodulateQAM16 sqrt [1, 1, 1, 1] = .ok [1, 0, 1, 0] ∧
    decodeConvolutional ([1, 1, 1, 1] : List K) = .ok [0, 0] ∧
    decodeConvolutional ((([1, 0, 1, 0] : List Int)).map (fun b => ((b : Int) : K)))
      = .ok [1, 1] := by
  refine ⟨?_, ?_, ?_⟩
  · rw [demodulateQAM16_eq sqrt _ (by simp) (by simp [SIZE_MOD])]
    have : ([1, 1, 1, 1] : List K).length = 4 := rfl
    rw [this]
    have : 4 / 4 * 4 = 4 := rfl
    rw [this, fillTo_four]
    have h0 : (0 : K) < sqrt 10 := lt_trans two_pos hs
    simp [qamBitAt, hs, h0]
  · rw [decodeConvolutional_eq _ (by simp) (by simp [SIZE_MOD])]
    have : ([1, 1, 1, 1] : List K).length / 2 = 2 := by simp
    rw [this]
    simp [decodedPrefix, List.range_succ]
    decide
  · rw [decodeConvolutional_eq _ (by simp) (by simp [SIZE_MOD])]
    have : ((([1, 0, 1, 0] : List Int)).map (fun b => ((b : Int) : K))).length / 2 = 2 := by
      simp
    rw [this]
    simp [decodedPrefix, List.range_succ]
    decide

/-! ## Noise injection -/

theorem foldl_sq_add (l : List K) (c : K) :
    l.foldl (fun sum x => sum + x * x) c = c + (l.map (fun x => x * x)).sum := by
  induction l generalizing c with
  | nil => simp
  | cons a t ih => simp [ih, add_assoc]

theorem foldl_sq_eq_sum (l : List K) :
    l.foldl (fun sum x => sum + x * x) 0 = (l.map (fun x => x * x)).sum := by
  rw [foldl_sq_add, zero_add]

theorem adjustNoisePower_eq (pow : K → K → K) (targetSNRdB : K) (signal : List K) :
    adjustNoisePower pow targetSNRdB signal =
      meanSquare signal / pow 10 (targetSNRdB / 10) := by
  simp only [adjustNoisePower, calculateNoisePower, sizeDivisor, meanSquare, foldl_sq_eq_sum]

theorem fillTo_all {α : Type} (n : Nat) (t : Nat → α) (z : α) :
    fillTo n t z n = (List.range n).map t := by
  apply List.ext_getElem
  · simp [fillTo]
  · intro j h1 h2
    have hj : j < n := by simpa [fillTo] using h1
    simp [fillTo, hj]

theorem except_map_ok {α β : Type} (f : α → β) (a : α) :
    (Except.ok a : Except Fault α).map f = .ok (f a) := rfl

theorem addNoise_eq (pow : K → K → K) (sqrt log cos : K → K) (G_PI : K)
    (uniform : Nat → Nat → K) (targetSNRdB : K) (seed : Nat) (signal : List K)
    (hlen : signal.length < SIZE_MOD) :
    addNoise pow sqrt log cos G_PI uniform targetSNRdB seed signal =
      .ok ((List.range signal.length).map (fun i => signal.getD i 0 +
        noiseAt pow sqrt log cos G_PI uniform targetSNRdB seed signal i)) := by
  have key : forLoop 0 signal.length 1 (fun i (st : List K × Nat) => do
        let u1 : K := uniform seed st.2
        let u2 : K := uniform seed (st.2 + 1)
        let z : K := sqrt (-2 * log u1) * cos (2 * G_PI * u2)
        let x ← readAt signal i
        let noisySignal ← writeAt st.1 i
          (x + sqrt (adjustNoisePower pow targetSNRdB signal) * z)
        pure (noisySignal, st.2 + 2))
      (List.replicate signal.length 0, 0)
      = .ok (fillTo signal.length (fun i => signal.getD i 0 +
          noiseAt pow sqrt log cos G_PI uniform targetSNRdB seed signal i) 0 signal.length,
        2 * signal.length) := by
    refine forLoop_trace_eq 0 _ 1 _ _ _ signal.length
      (fun k => (fillTo signal.length (fun i => signal.getD i 0 +
          noiseAt pow sqrt log cos G_PI uniform targetSNRdB seed signal i) 0 k, 2 * k))
      Nat.one_pos ?_ rfl ?_ ?_ ?_
    · simp only [fillTo_zero, Nat.mul_zero]
    · omega
    · intro k hk
      omega
    · intro k hk
      have w := writeAt_fillTo signal.length (fun i => signal.getD i 0 +
          noiseAt pow sqrt log cos G_PI uniform targetSNRdB seed signal i) 0 k hk
      simp only [noiseAt, List.getD_eq_getElem _ _ hk] at w
      have e : 2 * (k + 1) = 2 * k + 2 := by omega
      simp only [Nat.zero_add, Nat.mul_one, readAt_of_lt signal k hk, bind_ok, noiseAt, w,
        pure, Except.pure, e]
  unfold addNoise
  simp only []
  rw [key, except_map_ok, fillTo_all]

theorem noiseOf_eq (size : Nat) (noisy original : List K) (hn : size ≤ noisy.length)
    (ho : size ≤ original.length) (hlen : size < SIZE_MOD) :
    noiseOf size noisy original =
      .ok ((List.range size).map (fun i => noisy.getD i 0 - original.getD i 0)) := by
  unfold noiseOf
  refine forLoop_trace_eq 0 _ 1 _ _ _ size
    (fun k => fillTo size (fun i => noisy.getD i 0 - original.getD i 0) 0 k)
    Nat.one_pos ?_ ?_ ?_ ?_ ?_
  · exact fillTo_zero _ _ _
  · exact fillTo_all _ _ _
  · omega
  · intro k hk
    omega
  · intro k hk
    have hk1 : k < noisy.length := by omega
    have hk2 : k < original.length := by omega
    have w := writeAt_fillTo size (fun i => noisy.getD i 0 - original.getD i 0) 0 k hk
    simp only [List.getD_eq_getElem _ _ hk1, List.getD_eq_getElem _ _ hk2] at w
    simp only [Nat.zero_add, Nat.mul_one, readAt_of_lt noisy k hk1,
      readAt_of_lt original k hk2, bind_ok, w]

theorem getD_map_range {α : Type} (n : Nat) (f : Nat → α) (d : α) (i : Nat) (h : i < n) :
    ((List.range n).map f).getD i d = f i := by
  rw [List.getD_eq_getElem _ _ (by simpa using h)]
  simp

theorem addNoise_nil (pow : K → K → K) (sqrt log cos : K → K) (G_PI : K)
    (uniform : Nat → Nat → K) (targetSNRdB : K) (seed : Nat) :
    addNoise pow sqrt log cos G_PI uniform targetSNRdB seed [] = .ok [] := by
  rw [addNoise_eq pow sqrt log cos G_PI uniform targetSNRdB seed [] (by simp [SIZE_MOD])]
  rfl

/-! ## Shape of the coded and decoded streams -/

theorem encodeTrace_length (bits : List Int) (k : Nat) :
    (encodeTrace bits k).1.length = 2 * k := by
  induction k with
  | zero => rfl
  | succ k ih =>
    simp only [encodeTrace, List.length_append, List.length_cons, List.length_nil, ih]
    omega

theorem encodeStep_range :
    ∀ s ∈ ([0, 1, 2, 3, 4, 5, 6, 7] : List Int), ∀ b ∈ ([0, 1] : List Int),
      ((encodeStep s b).1 = 0 ∨ (encodeStep s b).1 = 1) ∧
      ((encodeStep s b).2.1 = 0 ∨ (encodeStep s b).2.1 = 1) ∧
      (encodeStep s b).2.2 ∈ ([0, 1, 2, 3, 4, 5, 6, 7] : List Int) := by
  decide

theorem getD_bit (bits : List Int) (hbits : ∀ b ∈ bits, b = 0 ∨ b = 1) (k : Nat) :
    bits.getD k 0 ∈ ([0, 1] : List Int) := by
  by_cases hk : k < bits.length
  · rw [List.getD_eq_getElem _ _ hk]
    rcases hbits _ (List.getElem_mem hk) with h | h <;> simp [h]
  · rw [List.getD_eq_default _ _ (by omega)]
    simp

theorem encodeTrace_bits (bits : List Int) (hbits : ∀ b ∈ bits, b = 0 ∨ b = 1) (k : Nat) :
    (∀ c ∈ (encodeTrace bits k).1, c = 0 ∨ c = 1) ∧
    (encodeTrace bits k).2 ∈ ([0, 1, 2, 3, 4, 5, 6, 7] : List Int) := by
  induction k with
  | zero =>
    constructor
    · intro c hc
      simp [encodeTrace] at hc
    · simp [encodeTrace]
  | succ k ih =>
    obtain ⟨h1, h2, h3⟩ := encodeStep_range _ ih.2 _ (getD_bit bits hbits k)
    constructor
    · intro c hc
      simp only [encodeTrace, List.mem_append, List.mem_singleton] at hc
      rcases hc with (hc | hc) | hc
      · exact ih.1 c hc
      · rw [hc]; exact h1
      · rw [hc]; exact h2
    · simp only [encodeTrace]
      exact h3

theorem encodeTrace_congr (a b : List Int) (k : Nat)
    (h : ∀ j, j < k → a.getD j 0 = b.getD j 0) : encodeTrace a k = encodeTrace b k := by
  induction k with
  | zero => rfl
  | succ k ih =>
    have ih2 := ih (fun j hj => h j (Nat.lt_succ_of_lt hj))
    simp only [encodeTrace, ih2, h k (Nat.lt_succ_self k)]

theorem encodeTrace_take (bits : List Int) (k m : Nat) (hkm : k ≤ m) :
    (encodeTrace bits m).1.take (2 * k) = (encodeTrace bits k).1 := by
  induction m with
  | zero =>
    have : k = 0 := by omega
    subst this
    rfl
  | succ m ih =>
    rcases Nat.eq_or_lt_of_le hkm with heq | hlt
    · rw [heq]
      exact List.take_of_length_le (by rw [encodeTrace_length])
    · have hk : k ≤ m := by omega
      have hl : 2 * k ≤ (encodeTrace bits m).1.length := by
        rw [encodeTrace_length]; omega
      simp only [encodeTrace, List.append_assoc]
      rw [List.take_append_of_le_length hl]
      exact ih hk

theorem getD_take_of_lt {α : Type} (l : List α) (k j : Nat) (d : α) (h : j < k) :
    (l.take k).getD j d = l.getD j d := by
  simp [List.getD_eq_getElem?_getD, List.getElem?_take, h]

theorem xor_indicator (p q : Prop) [Decidable p] [Decidable q] :
    Int.xor (if p then 1 else 0) (if q then 1 else 0) =
      if (decide p != decide q) then 1 else 0 := by
  by_cases hp : p <;> by_cases hq : q <;> simp [hp, hq] <;> rfl

/-! ## Layout of the QPSK and 16-QAM symbols -/

theorem qamLevel_eq_levelOf (b0 b1 : Int) (h0 : b0 = 0 ∨ b0 = 1) (h1 : b1 = 0 ∨ b1 = 1) :
    (qamLevel (b0 * 2 + b1) : K) = levelOf b0 b1 := by
  rcases h0 with rfl | rfl <;> rcases h1 with rfl | rfl <;> simp [qamLevel, levelOf]

theorem getD_eq_of_take_eq {α : Type} (a b : List α) (m j : Nat) (d : α)
    (h : a.take m = b.take m) (hj : j < m) : a.getD j d = b.getD j d := by
  rw [← getD_take_of_lt a m j d hj, ← getD_take_of_lt b m j d hj, h]

theorem getD_zero_or_one (bits : List Int) (hbits : ∀ b ∈ bits, b = 0 ∨ b = 1) (k : Nat) :
    bits.getD k 0 = 0 ∨ bits.getD k 0 = 1 := by
  have := getD_bit bits hbits k
  simpa using this

theorem modulateQPSK_congr (sqrt : K → K) (bits other : List Int) (hpos : 0 < bits.length)
    (hlen : bits.length < SIZE_MOD) (hl : other.length = bits.length)
    (ht : other.take (2 * (bits.length / 2)) = bits.take (2 * (bits.length / 2))) :
    modulateQPSK sqrt other = modulateQPSK sqrt bits := by
  rw [modulateQPSK_eq sqrt bits hpos hlen, modulateQPSK_eq sqrt other (hl ▸ hpos) (hl ▸ hlen),
    hl, fillTo_all, fillTo_all]
  congr 1
  apply List.map_congr_left
  intro j hj
  have hj2 : j < 2 * (bits.length / 2) := by
    have := List.mem_range.1 hj
    omega
  rw [getD_eq_of_take_eq other bits _ j 0 ht hj2]

theorem modulateQAM16_congr (sqrt : K → K) (bits other : List Int) (h3 : 3 ≤ bits.length)
    (hlen : bits.length < SIZE_MOD) (hl : other.length = bits.length)
    (ht : other.take (4 * (bits.length / 4)) = bits.take (4 * (bits.length / 4))) :
    modulateQAM16 sqrt other = modulateQAM16 sqrt bits := by
  rw [modulateQAM16_eq sqrt bits h3 hlen, modulateQAM16_eq sqrt other (hl ▸ h3) (hl ▸ hlen),
    hl, fillTo_all, fillTo_all]
  congr 1
  apply List.map_congr_left
  intro j hj
  have hj2 : j < bits.length / 4 * 4 := List.mem_range.1 hj
  unfold qamSymbolAt
  rw [getD_eq_of_take_eq other bits _ _ 0 ht (by omega),
    getD_eq_of_take_eq other bits _ _ 0 ht (by omega)]

theorem modulateQAM16_group (sqrt : K → K) (b0 b1 b2 b3 : Int) :
    modulateQAM16 sqrt [b0, b1, b2, b3] =
      .ok [qamLevel (b0 * 2 + b1) / sqrt 10, qamLevel (b2 * 2 + b3) / sqrt 10,
        qamLevel (b0 * 2 + b1) / sqrt 10, qamLevel (b2 * 2 + b3) / sqrt 10] := by
  rw [modulateQAM16_eq sqrt [b0, b1, b2, b3] (by simp) (by simp [SIZE_MOD])]
  have : ([b0, b1, b2, b3] : List Int).length / 4 * 4 = 4 := by simp
  rw [this, fillTo_four]
  simp [qamSymbolAt]

theorem pairPower_group (sqrt : K → K) (hs : sqrt 10 * sqrt 10 = 10) (b0 b1 b2 b3 : Int) :
    pairPower (modulateQAM16 sqrt [b0, b1, b2, b3]) =
      ((qamLevel (b0 * 2 + b1) : K) * qamLevel (b0 * 2 + b1) +
        qamLevel (b2 * 2 + b3) * qamLevel (b2 * 2 + b3)) / 10 := by
  rw [modulateQAM16_group]
  simp only [pairPower]
  rw [div_mul_div_comm, div_mul_div_comm, hs]
  ring

/-! ## Measured SNR and phasor statistics -/

theorem range_map_sub_eq (noisy original : List K) (h : noisy.length = original.length) :
    (List.range noisy.length).map (fun i => noisy.getD i 0 - original.getD i 0) =
      differences noisy original := by
  apply List.ext_getElem
  · simp [differences, h]
  · intro j h1 h2
    have hj : j < noisy.length := by simpa using h1
    have hj2 : j < original.length := h ▸ hj
    simp [differences, List.getElem?_eq_getElem hj, List.getElem?_eq_getElem hj2]

theorem length_differences (noisy original : List K) (h : noisy.length = original.length) :
    (differences noisy original).length = noisy.length := by
  simp [differences, h]

theorem partsLoop_eq (normal : Nat → K → Nat → K) (seed : Nat) (sigma : K) (n : Nat)
    (hn : n < SIZE_MOD) :
    forLoop 0 n 1 (fun i (st : List K × List K × Nat) => do
        let real_parts ← writeAt st.1 i (normal seed sigma st.2.2)
        let imag_parts ← writeAt st.2.1 i (normal seed sigma (st.2.2 + 1))
        pure (real_parts, imag_parts, st.2.2 + 2))
      (List.replicate n 0, List.replicate n 0, 0)
    = .ok ((List.range n).map (fun i => normal seed sigma (2 * i)),
        (List.range n).map (fun i => normal seed sigma (2 * i + 1)), 2 * n) := by
  refine forLoop_trace_eq 0 _ 1 _ _ _ n
    (fun k => (fillTo n (fun i => normal seed sigma (2 * i)) 0 k,
      fillTo n (fun i => normal seed sigma (2 * i + 1)) 0 k, 2 * k))
    Nat.one_pos ?_ ?_ ?_ ?_ ?_
  · simp only [fillTo_zero, Nat.mul_zero]
  · simp only [fillTo_all]
  · omega
  · intro k hk
    omega
  · intro k hk
    have w1 := writeAt_fillTo n (fun i => normal seed sigma (2 * i)) 0 k hk
    have w2 := writeAt_fillTo n (fun i => normal seed sigma (2 * i + 1)) 0 k hk
    have e : 2 * (k + 1) = 2 * k + 2 := by omega
    simp only [Nat.zero_add, Nat.mul_one, w1, w2, bind_ok, pure, Except.pure, e]

theorem countsLoop_eq (sqrt : K → K) (sigma : K) (re im : List K) (n : Nat)
    (hre : n ≤ re.length) (him : n ≤ im.length) (hn : n < SIZE_MOD) :
    forLoop 0 n 1 (fun i (c : Int × Int × Int) => do
        let x ← readAt re i
        let y ← readAt im i
        let magnitude : K := sqrt (x * x + y * y)
        let count1 : Int := if magnitude ≤ sigma then c.1 + 1 else c.1
        let count2 : Int := if magnitude ≤ 2 * sigma then c.2.1 + 1 else c.2.1
        let count3 : Int := if magnitude ≤ 3 * sigma then c.2.2 + 1 else c.2.2
        pure (count1, count2, count3))
      (0, 0, 0)
    = .ok (phasorCounts sqrt sigma re im n) := by
  refine forLoop_trace_eq 0 _ 1 _ _ _ n (phasorCounts sqrt sigma re im)
    Nat.one_pos rfl rfl ?_ ?_ ?_
  · omega
  · intro k hk
    omega
  · intro k hk
    have hk1 : k < re.length := by omega
    have hk2 : k < im.length := by omega
    simp only [Nat.zero_add, Nat.mul_one, readAt_of_lt re k hk1, readAt_of_lt im k hk2,
      bind_ok, pure, Except.pure, phasorCounts, List.getD_eq_getElem _ _ hk1,
      List.getD_eq_getElem _ _ hk2]

theorem computeSNR_eq (log10 : K → K) (original noisy : List K)
    (heq : original.length = noisy.length) (hlen : original.length < SIZE_MOD) :
    computeSNR log10 original noisy =
      .ok (if meanSquare (differences noisy original) = 0 then Measured.infinity
        else Measured.finite
          (10 * log10 (meanSquare original / meanSquare (differences noisy original)))) := by
  unfold computeSNR
  rw [if_neg (not_not.2 heq)]
  simp only []
  rw [noiseOf_eq _ noisy original (by omega) (le_refl _) hlen, bind_ok, heq,
    range_map_sub_eq noisy original heq.symm, foldl_sq_eq_sum, foldl_sq_eq_sum]
  by_cases h : meanSquare (differences noisy original) = 0
  · have h2 := h
    unfold meanSquare at h2
    rw [if_pos h, if_pos h2]
    rfl
  · have h2 := h
    unfold meanSquare at h2
    rw [if_neg h, if_neg h2]
    simp only [meanSquare, heq, pure, Except.pure]

theorem computeSNR_mismatch (log10 : K → K) (original noisy : List K)
    (hne : original.length ≠ noisy.length) :
    computeSNR log10 original noisy = .error .invalidArgument := by
  unfold computeSNR
  rw [if_pos hne]

theorem computePhasorStatistics_mismatch (sqrt : K → K) (normal : Nat → K → Nat → K)
    (noisy original : List K) (seed : Nat) (hne : noisy.length ≠ original.length) :
    computePhasorStatistics sqrt normal noisy original seed = .error .invalidArgument := by
  unfold computePhasorStatistics
  rw [if_pos hne]

theorem computePhasorStatistics_eq (sqrt : K → K) (normal : Nat → K → Nat → K)
    (noisy original : List K) (seed : Nat) (heq : noisy.length = original.length)
    (hlen : noisy.length < SIZE_MOD) :
    computePhasorStatistics sqrt normal noisy original seed =
      .ok (((phasorCounts sqrt (sqrt (meanSquare (differences noisy original) / 2))
            ((List.range noisy.length).map (fun i =>
              normal seed (sqrt (meanSquare (differences noisy original) / 2)) (2 * i)))
            ((List.range noisy.length).map (fun i =>
              normal seed (sqrt (meanSquare (differences noisy original) / 2)) (2 * i + 1)))
            noisy.length).1 : K) / (noisy.length : K),
        ((phasorCounts sqrt (sqrt (meanSquare (differences noisy original) / 2))
            ((List.range noisy.length).map (fun i =>
              normal seed (sqrt (meanSquare (differences noisy original) / 2)) (2 * i)))
            ((List.range noisy.length).map (fun i =>
              normal seed (sqrt (meanSquare (differences noisy original) / 2)) (2 * i + 1)))
            noisy.length).2.1 : K) / (noisy.length : K),
        ((phasorCounts sqrt (sqrt (meanSquare (differences noisy original) / 2))
            ((List.range noisy.length).map (fun i =>
              normal seed (sqrt (meanSquare (differences noisy original) / 2)) (2 * i)))
            ((List.range noisy.length).map (fun i =>
              normal seed (sqrt (meanSquare (differences noisy original) / 2)) (2 * i + 1)))
            noisy.length).2.2 : K) / (noisy.length : K)) := by
  unfold computePhasorStatistics
  rw [if_neg (not_not.2 heq)]
  simp only []
  rw [noiseOf_eq _ noisy original (le_refl _) (by omega) hlen, bind_ok,
    range_map_sub_eq noisy original heq, foldl_sq_eq_sum,
    length_differences noisy original heq, partsLoop_eq normal seed _ _ hlen, bind_ok]
  simp only []
  rw [countsLoop_eq sqrt _ _ _ _ (by simp) (by simp) hlen, bind_ok]
  simp only [meanSquare, length_differences noisy original heq, pure, Except.pure]

theorem sum_sq_nonneg (l : List K) : 0 ≤ (l.map (fun x => x * x)).sum := by
  induction l with
  | nil => simp
  | cons a t ih =>
    simp only [List.map_cons, List.sum_cons]
    exact add_nonneg (mul_self_nonneg a) ih

theorem sum_sq_eq_zero_iff (l : List K) :
    (l.map (fun x => x * x)).sum = 0 ↔ ∀ x ∈ l, x = 0 := by
  induction l with
  | nil => simp
  | cons a t ih =>
    simp only [List.map_cons, List.sum_cons, List.mem_cons, forall_eq_or_imp]
    rw [add_eq_zero_iff_of_nonneg (mul_self_nonneg a) (sum_sq_nonneg t), mul_self_eq_zero, ih]

theorem meanSquare_eq_zero_iff (l : List K) (hl : 0 < l.length) :
    meanSquare l = 0 ↔ ∀ x ∈ l, x = 0 := by
  have hne : ((l.length : ℕ) : K) ≠ 0 := Nat.cast_ne_zero.2 (by omega)
  unfold meanSquare
  rw [div_eq_zero_iff, sum_sq_eq_zero_iff]
  constructor
  · rintro (h | h)
    · exact h
    · exact absurd h hne
  · intro h
    exact Or.inl h

theorem differences_zero_iff (noisy original : List K) (h : noisy.length = original.length) :
    (∀ x ∈ differences noisy original, x = 0) ↔ noisy = original := by
  induction noisy generalizing original with
  | nil =>
    cases original with
    | nil => simp [differences]
    | cons b t => simp at h
  | cons a s ih =>
    cases original with
    | nil => simp at h
    | cons b t =>
      have hl : s.length = t.length := by simpa using h
      have ih2 := ih t hl
      simp only [differences, List.zipWith_cons_cons, List.mem_cons, forall_eq_or_imp,
        sub_eq_zero, List.cons.injEq] at ih2 ⊢
      rw [ih2]

/-! ## Closed forms and invariances -/

theorem mem_crossings_iff (noisy : List K) (i : Nat) :
    i ∈ (List.range' 1 (noisy.length - 1)).filter (fun i => decide (crossesAt noisy i)) ↔
      (1 ≤ i ∧ i < noisy.length ∧
        ((noisy.getD (i - 1) 0 < 0 ∧ noisy.getD i 0 ≥ 0) ∨
          (noisy.getD (i - 1) 0 > 0 ∧ noisy.getD i 0 ≤ 0))) := by
  simp only [List.mem_filter, List.mem_range'_1, decide_eq_true_eq, crossesAt]
  constructor
  · rintro ⟨⟨h1, h2⟩, h3⟩
    exact ⟨h1, by omega, h3⟩
  · rintro ⟨h1, h2, h3⟩
    exact ⟨⟨h1, by omega⟩, h3⟩

theorem phasorCounts_order (sqrt : K → K) (sigma : K) (hs : 0 ≤ sigma) (re im : List K)
    (k : Nat) :
    0 ≤ (phasorCounts sqrt sigma re im k).1 ∧
    (phasorCounts sqrt sigma re im k).1 ≤ (phasorCounts sqrt sigma re im k).2.1 ∧
    (phasorCounts sqrt sigma re im k).2.1 ≤ (phasorCounts sqrt sigma re im k).2.2 ∧
    (phasorCounts sqrt sigma re im k).2.2 ≤ (k : Int) := by
  induction k with
  | zero => simp [phasorCounts]
  | succ k ih =>
    obtain ⟨h0, h1, h2, h3⟩ := ih
    have a12 : ∀ m : K, m ≤ sigma → m ≤ 2 * sigma := fun m hm => by linarith
    have a23 : ∀ m : K, m ≤ 2 * sigma → m ≤ 3 * sigma := fun m hm => by linarith
    simp only [phasorCounts]
    push_cast
    by_cases c1 : sqrt (re.getD k 0 * re.getD k 0 + im.getD k 0 * im.getD k 0) ≤ sigma
    · have c2 := a12 _ c1
      have c3 := a23 _ c2
      simp only [c1, c2, c3, if_true]
      omega
    · by_cases c2 : sqrt (re.getD k 0 * re.getD k 0 + im.getD k 0 * im.getD k 0) ≤ 2 * sigma
      · have c3 := a23 _ c2
        simp only [c1, c2, c3, if_true, if_false]
        omega
      · by_cases c3 : sqrt (re.getD k 0 * re.getD k 0 + im.getD k 0 * im.getD k 0) ≤ 3 * sigma
        · simp only [c1, c2, c3, if_true, if_false]
          omega
        · simp only [c1, c2, c3, if_false]
          omega

theorem getD_map_scale (a : K) (s : List K) (j : Nat) :
    (s.map (fun x => a * x)).getD j 0 = a * s.getD j 0 := by
  have h := List.getD_map (l := s) (d := (0 : K)) (n := j) (fun x => a * x)
  simpa using h

theorem hardBit_scale (a : K) (ha : 0 < a) (x : K) :
    (if a * x > 0 then (1 : Int) else 0) = (if x > 0 then (1 : Int) else 0) := by
  have h : a * x > 0 ↔ x > 0 := mul_pos_iff_of_pos_left ha
  by_cases hx : x > 0
  · rw [if_pos hx, if_pos (h.2 hx)]
  · rw [if_neg hx, if_neg (fun hc => hx (h.1 hc))]

theorem decodedPrefix_scale (a : K) (ha : 0 < a) (s : List K) (k : Nat) :
    decodedPrefix (s.map (fun x => a * x)) k = decodedPrefix s k := by
  unfold decodedPrefix
  apply List.map_congr_left
  intro j _
  rw [getD_map_scale, getD_map_scale, hardBit_scale a ha, hardBit_scale a ha]

theorem demodulateBPSK_scale (a : K) (ha : 0 < a) (s : List K) (hlen : s.length < SIZE_MOD) :
    demodulateBPSK (s.map (fun x => a * x)) = demodulateBPSK s := by
  rw [demodulateBPSK_eq _ (by simpa using hlen), demodulateBPSK_eq s hlen, List.map_map]
  congr 1
  apply List.map_congr_left
  intro x _
  exact hardBit_scale a ha x

theorem demodulateQPSK_scale (a : K) (ha : 0 < a) (s : List K) (hpos : 0 < s.length)
    (hlen : s.length < SIZE_MOD) :
    demodulateQPSK (s.map (fun x => a * x)) = demodulateQPSK s := by
  rw [demodulateQPSK_eq _ (by simpa using hpos) (by simpa using hlen),
    demodulateQPSK_eq s hpos hlen, List.length_map]
  have : (fun j => if (s.map (fun x => a * x)).getD j 0 > 0 then (1 : Int) else 0) =
      (fun j => if s.getD j 0 > 0 then (1 : Int) else 0) := by
    funext j
    rw [getD_map_scale, hardBit_scale a ha]
  rw [this]

theorem decodeConvolutional_scale (a : K) (ha : 0 < a) (s : List K)
    (heven : s.length % 2 = 0) (hlen : s.length < SIZE_MOD) :
    decodeConvolutional (s.map (fun x => a * x)) = decodeConvolutional s := by
  rw [decodeConvolutional_eq _ (by simpa using heven) (by simpa using hlen),
    decodeConvolutional_eq s heven hlen, List.length_map, decodedPrefix_scale a ha]

/-! ## The encoder in closed form -/

theorem encodeStep_closed :
    ∀ a ∈ ([0, 1] : List Int), ∀ b ∈ ([0, 1] : List Int), ∀ c ∈ ([0, 1] : List Int),
      ∀ d ∈ ([0, 1] : List Int),
        encodeStep (4 * a + 2 * b + c) d =
          (Int.xor (Int.xor d b) c, Int.xor d c, 4 * d + 2 * a + b) ∧
        Int.xor (Int.xor (Int.xor d b) c) (Int.xor d c) = b := by
  decide

theorem delayed_bit (bits : List Int) (hbits : ∀ b ∈ bits, b = 0 ∨ b = 1) (k d : Nat) :
    delayed bits k d ∈ ([0, 1] : List Int) := by
  unfold delayed
  by_cases h : d ≤ k
  · rw [if_pos h]
    exact getD_bit bits hbits _
  · rw [if_neg h]
    simp

theorem delayed_succ (bits : List Int) (k d : Nat) :
    delayed bits (k + 1) (d + 1) = delayed bits k d := by
  unfold delayed
  by_cases h : d ≤ k
  · rw [if_pos h, if_pos (by omega)]
    have : k + 1 - (d + 1) = k - d := by omega
    rw [this]
  · rw [if_neg h, if_neg (by omega)]

theorem delayed_zero (bits : List Int) (k : Nat) : delayed bits k 0 = bits.getD k 0 := by
  simp [delayed]

theorem encodeTrace_state (bits : List Int) (hbits : ∀ b ∈ bits, b = 0 ∨ b = 1) (k : Nat) :
    (encodeTrace bits k).2 = 4 * delayed bits k 1 + 2 * delayed bits k 2 + delayed bits k 3 := by
  induction k with
  | zero => simp [encodeTrace, delayed]
  | succ k ih =>
    have h := encodeStep_closed _ (delayed_bit bits hbits k 1) _ (delayed_bit bits hbits k 2) _
      (delayed_bit bits hbits k 3) _ (getD_bit bits hbits k)
    simp only [encodeTrace]
    rw [ih, h.1, delayed_succ, delayed_succ, delayed_succ, delayed_zero]

theorem encodeTrace_pair (bits : List Int) (j m : Nat) (hjm : j < m) :
    (encodeTrace bits m).1.getD (2 * j) 0 =
      (encodeStep (encodeTrace bits j).2 (bits.getD j 0)).1 ∧
    (encodeTrace bits m).1.getD (2 * j + 1) 0 =
      (encodeStep (encodeTrace bits j).2 (bits.getD j 0)).2.1 := by
  have ht := encodeTrace_take bits (j + 1) m (by omega)
  have hl := encodeTrace_length bits j
  constructor
  · rw [← getD_take_of_lt _ (2 * (j + 1)) (2 * j) 0 (by omega), ht]
    simp only [encodeTrace]
    rw [List.getD_eq_getElem?_getD, List.append_assoc,
      List.getElem?_append_right (by omega), hl]
    simp
  · rw [← getD_take_of_lt _ (2 * (j + 1)) (2 * j + 1) 0 (by omega), ht]
    simp only [encodeTrace]
    rw [List.getD_eq_getElem?_getD, List.append_assoc,
      List.getElem?_append_right (by omega), hl]
    simp

theorem encodeTrace_getD (bits : List Int) (hbits : ∀ b ∈ bits, b = 0 ∨ b = 1) (m i : Nat)
    (hi : i < 2 * m) : (encodeTrace bits m).1.getD i 0 = encodedBitAt bits i := by
  have hp := encodeTrace_pair bits (i / 2) m (by omega)
  have h := encodeStep_closed _ (delayed_bit bits hbits (i / 2) 1) _
    (delayed_bit bits hbits (i / 2) 2) _ (delayed_bit bits hbits (i / 2) 3) _
    (getD_bit bits hbits (i / 2))
  rw [encodeTrace_state bits hbits, h.1] at hp
  unfold encodedBitAt
  by_cases he : i % 2 = 0
  · rw [if_pos he]
    have : 2 * (i / 2) = i := by omega
    rw [this] at hp
    exact hp.1
  · rw [if_neg he]
    have : 2 * (i / 2) + 1 = i := by omega
    rw [this] at hp
    exact hp.2

theorem getD_map_of_lt {α β : Type} (f : α → β) (l : List α) (i : Nat) (h : i < l.length)
    (d : β) (e : α) : (l.map f).getD i d = f (l.getD i e) := by
  rw [List.getD_eq_getElem _ _ (by simpa using h), List.getD_eq_getElem _ _ h]
  simp

theorem encodeTrace_mem (bits : List Int) (hbits : ∀ b ∈ bits, b = 0 ∨ b = 1) (m i : Nat)
    (hi : i < 2 * m) :
    (encodeTrace bits m).1.getD i 0 = 0 ∨ (encodeTrace bits m).1.getD i 0 = 1 := by
  have hl := encodeTrace_length bits m
  have hi2 : i < (encodeTrace bits m).1.length := by omega
  rw [List.getD_eq_getElem _ _ hi2]
  exact (encodeTrace_bits bits hbits m).1 _ (List.getElem_mem hi2)

theorem decodedPrefix_bpsk (bits : List Int) (hbits : ∀ b ∈ bits, b = 0 ∨ b = 1) (m : Nat) :
    decodedPrefix ((encodeTrace bits m).1.map (fun b => if b ≠ 0 then (1 : K) else -1)) m =
      (List.range m).map (fun k => delayed bits k 2) := by
  unfold decodedPrefix
  apply List.map_congr_left
  intro k hk
  have hk2 : k < m := List.mem_range.1 hk
  have hl := encodeTrace_length bits m
  have hp := encodeTrace_pair bits k m hk2
  have h := encodeStep_closed _ (delayed_bit bits hbits k 1) _
    (delayed_bit bits hbits k 2) _ (delayed_bit bits hbits k 3) _ (getD_bit bits hbits k)
  rw [encodeTrace_state bits hbits, h.1] at hp
  rw [getD_map_of_lt _ _ (k * 2) (by omega) 0 0, getD_map_of_lt _ _ (k * 2 + 1) (by omega) 0 0,
    hardBit_bpsk _ (encodeTrace_mem bits hbits m (k * 2) (by omega)),
    hardBit_bpsk _ (encodeTrace_mem bits hbits m (k * 2 + 1) (by omega)), Nat.mul_comm k 2,
    hp.1, hp.2]
  exact h.2

theorem bpsk_convolutional_delay (sqrt : K → K) (bits : List Int)
    (hbits : ∀ b ∈ bits, b = 0 ∨ b = 1) (hlen : 2 * bits.length < SIZE_MOD) :
    (modulate sqrt .BPSK .CONVOLUTIONAL bits >>= demodulate sqrt .BPSK .CONVOLUTIONAL) =
      .ok ((List.range bits.length).map (fun k => delayed bits k 2)) := by
  have hl := encodeTrace_length bits bits.length
  have hsl : ((encodeTrace bits bits.length).1.map
      (fun b => if b ≠ 0 then (1 : K) else -1)).length = 2 * bits.length := by
    rw [List.length_map, hl]
  simp only [modulate_convolutional]
  rw [encodeConvolutional_eq bits (by omega), bind_ok,
    modulateBPSK_eq _ (by rw [hl]; exact hlen), bind_ok]
  simp only [demodulate_eq]
  rw [demodulateBPSK_eq _ (by rw [hsl]; exact hlen), bind_ok,
    decodeConvolutional_eq _ (by rw [hsl]; omega) (by rw [hsl]; exact hlen), hsl]
  have : 2 * bits.length / 2 = bits.length := by omega
  rw [this, decodedPrefix_bpsk bits hbits]

theorem ext_getD {α : Type} (a b : List α) (d : α) (hl : a.length = b.length)
    (h : ∀ i, i < a.length → a.getD i d = b.getD i d) : a = b := by
  apply List.ext_getElem hl
  intro i h1 h2
  have := h i h1
  rwa [List.getD_eq_getElem _ _ h1, List.getD_eq_getElem _ _ h2] at this

theorem getD_zipWith_xor (a b : List Int) (hab : a.length = b.length) (i : Nat) :
    (List.zipWith Int.xor a b).getD i 0 = Int.xor (a.getD i 0) (b.getD i 0) := by
  by_cases hi : i < a.length
  · have hi2 : i < b.length := hab ▸ hi
    rw [List.getD_eq_getElem _ _ (by simpa [hab] using hi2), List.getD_eq_getElem _ _ hi,
      List.getD_eq_getElem _ _ hi2]
    simp
  · rw [List.getD_eq_default _ _ (by simp [hab]; omega), List.getD_eq_default _ _ (by omega),
      List.getD_eq_default _ _ (by omega)]
    rfl

theorem delayed_zipWith_xor (a b : List Int) (hab : a.length = b.length) (k d : Nat) :
    delayed (List.zipWith Int.xor a b) k d = Int.xor (delayed a k d) (delayed b k d) := by
  unfold delayed
  by_cases h : d ≤ k
  · rw [if_pos h, if_pos h, if_pos h, getD_zipWith_xor a b hab]
  · rw [if_neg h, if_neg h, if_neg h]
    rfl

theorem xor_bits_linear :
    ∀ a ∈ ([0, 1] : List Int), ∀ b ∈ ([0, 1] : List Int), ∀ c ∈ ([0, 1] : List Int),
      ∀ x ∈ ([0, 1] : List Int), ∀ y ∈ ([0, 1] : List Int), ∀ z ∈ ([0, 1] : List Int),
        Int.xor (Int.xor (Int.xor a x) (Int.xor b y)) (Int.xor c z) =
          Int.xor (Int.xor (Int.xor a b) c) (Int.xor (Int.xor x y) z) ∧
        Int.xor (Int.xor a x) (Int.xor c z) = Int.xor (Int.xor a c) (Int.xor x z) ∧
        (Int.xor a x = 0 ∨ Int.xor a x = 1) := by
  decide

theorem zipWith_xor_bits (a b : List Int) (ha : ∀ x ∈ a, x = 0 ∨ x = 1)
    (hb : ∀ x ∈ b, x = 0 ∨ x = 1) : ∀ x ∈ List.zipWith Int.xor a b, x = 0 ∨ x = 1 := by
  induction a generalizing b with
  | nil => simp
  | cons p s ih =>
    cases b with
    | nil => simp
    | cons q t =>
      intro x hx
      simp only [List.zipWith_cons_cons, List.mem_cons] at hx
      rcases hx with rfl | hx
      · have hp : p ∈ ([0, 1] : List Int) := by simpa using ha p (List.mem_cons_self _ _)
        have hq : q ∈ ([0, 1] : List Int) := by simpa using hb q (List.mem_cons_self _ _)
        exact (xor_bits_linear p hp 0 (by decide) 0 (by decide) q hq 0 (by decide) 0
          (by decide)).2.2
      · exact ih t (fun y hy => ha y (List.mem_cons_of_mem _ hy))
          (fun y hy => hb y (List.mem_cons_of_mem _ hy)) x hx

theorem encodedBitAt_xor (a b : List Int) (ha : ∀ x ∈ a, x = 0 ∨ x = 1)
    (hb : ∀ x ∈ b, x = 0 ∨ x = 1) (hab : a.length = b.length) (i : Nat) :
    encodedBitAt (List.zipWith Int.xor a b) i =
      Int.xor (encodedBitAt a i) (encodedBitAt b i) := by
  have h := xor_bits_linear _ (getD_bit a ha (i / 2)) _ (delayed_bit a ha (i / 2) 2) _
    (delayed_bit a ha (i / 2) 3) _ (getD_bit b hb (i / 2)) _ (delayed_bit b hb (i / 2) 2) _
    (delayed_bit b hb (i / 2) 3)
  unfold encodedBitAt
  rw [getD_zipWith_xor a b hab, delayed_zipWith_xor a b hab, delayed_zipWith_xor a b hab]
  by_cases he : i % 2 = 0
  · rw [if_pos he, if_pos he, if_pos he]
    exact h.1
  · rw [if_neg he, if_neg he, if_neg he]
    exact h.2.1

theorem encodeTrace_xor (a b : List Int) (ha : ∀ x ∈ a, x = 0 ∨ x = 1)
    (hb : ∀ x ∈ b, x = 0 ∨ x = 1) (hab : a.length = b.length) (m : Nat) :
    (encodeTrace (List.zipWith Int.xor a b) m).1 =
      List.zipWith Int.xor (encodeTrace a m).1 (encodeTrace b m).1 := by
  have hla := encodeTrace_length a m
  have hlb := encodeTrace_length b m
  have hlx := encodeTrace_length (List.zipWith Int.xor a b) m
  apply ext_getD _ _ 0
  · rw [hlx, List.length_zipWith, hla, hlb, Nat.min_self]
  · intro i hi
    rw [getD_zipWith_xor _ _ (by rw [hla, hlb]),
      encodeTrace_getD _ (zipWith_xor_bits a b ha hb) m i (by omega),
      encodeTrace_getD a ha m i (by omega), encodeTrace_getD b hb m i (by omega),
      encodedBitAt_xor a b ha hb hab]

theorem encodeTrace_zeros (n m : Nat) :
    (encodeTrace (List.replicate n 0) m).1 = List.replicate (2 * m) 0 := by
  have hz : ∀ b ∈ List.replicate n (0 : Int), b = 0 ∨ b = 1 := by
    intro b hb
    exact Or.inl (List.eq_of_mem_replicate hb)
  have hg : ∀ j, (List.replicate n (0 : Int)).getD j 0 = 0 := by
    intro j
    by_cases hj : j < n
    · rw [List.getD_eq_getElem _ _ (by simpa using hj)]
      simp
    · rw [List.getD_eq_default _ _ (by simp; omega)]
  have hd : ∀ k d, delayed (List.replicate n (0 : Int)) k d = 0 := by
    intro k d
    unfold delayed
    by_cases h : d ≤ k
    · rw [if_pos h, hg]
    · rw [if_neg h]
  apply ext_getD _ _ 0
  · rw [encodeTrace_length, List.length_replicate]
  · intro i hi
    rw [encodeTrace_length] at hi
    rw [encodeTrace_getD _ hz m i hi, List.getD_eq_getElem _ _ (by simpa using hi)]
    unfold encodedBitAt
    rw [hg, hd, hd]
    by_cases he : i % 2 = 0
    · rw [if_pos he]
      simp
      rfl
    · rw [if_neg he]
      simp
      rfl

/-! ## Exact arithmetic over the reals -/

theorem addNoise001_eq (pow : K → K → K) (sqrt log cos : K → K) (G_PI : K)
    (uniform : Nat → Nat → K) (targetSNRdB : K) (seed : Nat) (signal : List K)
    (hlen : signal.length < SIZE_MOD) :
    addNoise001 pow sqrt log cos G_PI uniform targetSNRdB seed signal =
      .ok ((List.range signal.length).map (fun i => signal.getD i 0 +
        noiseAt pow sqrt log cos G_PI uniform targetSNRdB seed signal i)) := by
  have h : addNoise001 pow sqrt log cos G_PI uniform targetSNRdB seed signal =
      addNoise pow sqrt log cos G_PI uniform targetSNRdB seed signal := by
    simp only [addNoise, addNoise001, adjustNoisePower, sizeDivisor, calculateNoisePower,
      calculateNoisePower001]
  rw [h, addNoise_eq pow sqrt log cos G_PI uniform targetSNRdB seed signal hlen]

theorem meanSquare_map_scale (c : K) (l : List K) :
    meanSquare (l.map (fun x => c * x)) = c * c * meanSquare l := by
  have hs : ∀ t : List K, ((t.map (fun x => c * x)).map (fun x => x * x)).sum =
      c * c * (t.map (fun x => x * x)).sum := by
    intro t
    induction t with
    | nil => simp
    | cons a t ih =>
      simp only [List.map_cons, List.sum_cons, ih]
      ring
  unfold meanSquare
  rw [hs, List.length_map, mul_div_assoc]

theorem meanSquare_nonneg (l : List K) : 0 ≤ meanSquare l := by
  unfold meanSquare
  exact div_nonneg (sum_sq_nonneg l) (Nat.cast_nonneg _)

theorem differences_add (x : List K) (f : Nat → K) :
    differences ((List.range x.length).map (fun i => x.getD i 0 + f i)) x =
      (List.range x.length).map f := by
  have hl : ((List.range x.length).map (fun i => x.getD i 0 + f i)).length = x.length := by
    simp
  rw [← range_map_sub_eq _ x hl, hl]
  apply List.map_congr_left
  intro i hi
  rw [getD_map_range _ _ _ _ (List.mem_range.1 hi)]
  ring

theorem computeSNR_addNoise001 (log cos : ℝ → ℝ) (G_PI : ℝ) (uniform : Nat → Nat → ℝ)
    (targetSNRdB : ℝ) (seed : Nat) (x : List ℝ) (hP : meanSquare x ≠ 0)
    (hz : ∃ i, i < x.length ∧ boxMuller Real.sqrt log cos G_PI uniform seed i ≠ 0)
    (hlen : x.length < SIZE_MOD) :
    ∃ noisy,
      addNoise001 Real.rpow Real.sqrt log cos G_PI uniform targetSNRdB seed x = .ok noisy ∧
      computeSNR (Real.logb 10) x noisy =
        .ok (.finite (targetSNRdB - 10 * Real.logb 10 (meanSquare
          ((List.range x.length).map (boxMuller Real.sqrt log cos G_PI uniform seed))))) := by
  refine ⟨_, addNoise001_eq Real.rpow Real.sqrt log cos G_PI uniform targetSNRdB seed x hlen, ?_⟩
  obtain ⟨i0, hi0, hz0⟩ := hz
  have hPpos : 0 < meanSquare x := lt_of_le_of_ne (meanSquare_nonneg x) (Ne.symm hP)
  have hL : 0 < Real.rpow 10 (targetSNRdB / 10) :=
    Real.rpow_pos_of_pos (by norm_num) _
  have hM : meanSquare ((List.range x.length).map
      (boxMuller Real.sqrt log cos G_PI uniform seed)) ≠ 0 := by
    intro hc
    rw [meanSquare_eq_zero_iff _ (by simp; omega)] at hc
    exact hz0 (hc _ (List.mem_map.2 ⟨i0, List.mem_range.2 hi0, rfl⟩))
  have hd : differences ((List.range x.length).map (fun i => x.getD i 0 +
        noiseAt Real.rpow Real.sqrt log cos G_PI uniform targetSNRdB seed x i)) x =
      ((List.range x.length).map (boxMuller Real.sqrt log cos G_PI uniform seed)).map
        (fun z => Real.sqrt (adjustNoisePower Real.rpow targetSNRdB x) * z) := by
    rw [differences_add, List.map_map]
    rfl
  have hsq : Real.sqrt (adjustNoisePower Real.rpow targetSNRdB x) *
      Real.sqrt (adjustNoisePower Real.rpow targetSNRdB x) =
        meanSquare x / Real.rpow 10 (targetSNRdB / 10) := by
    rw [adjustNoisePower_eq]
    exact Real.mul_self_sqrt (div_nonneg hPpos.le hL.le)
  rw [computeSNR_eq (Real.logb 10) x _ (by simp) hlen, hd, meanSquare_map_scale, hsq]
  have hne : meanSquare x / Real.rpow 10 (targetSNRdB / 10) * meanSquare ((List.range
      x.length).map (boxMuller Real.sqrt log cos G_PI uniform seed)) ≠ 0 :=
    mul_ne_zero (div_ne_zero hP hL.ne') hM
  rw [if_neg hne]
  have hfrac : meanSquare x / (meanSquare x / Real.rpow 10 (targetSNRdB / 10) * meanSquare
      ((List.range x.length).map (boxMuller Real.sqrt log cos G_PI uniform seed))) =
      Real.rpow 10 (targetSNRdB / 10) / meanSquare ((List.range x.length).map
        (boxMuller Real.sqrt log cos G_PI uniform seed)) := by
    field_simp
    ring
  rw [hfrac, Real.logb_div hL.ne' hM, Real.rpow_eq_pow,
    Real.logb_rpow (by norm_num) (by norm_num)]
  congr 2
  ring

/-! ## Noise injection in explicit arithmetic -/

theorem addNoiseOn_eq (ops : DoubleOps K) (pow : K → K → K) (sqrt log cos : K → K) (G_PI : K)
    (uniform : Nat → Nat → K) (targetSNRdB : K) (seed : Nat) (signal : List K)
    (hlen : signal.length < SIZE_MOD) :
    addNoiseOn ops pow sqrt log cos G_PI uniform targetSNRdB seed signal =
      (.ok ((List.range signal.length).map (fun i => ops.add (signal.getD i 0)
        (injectedOn ops pow sqrt log cos G_PI uniform targetSNRdB seed
          (signalPowerOn ops signal) i))),
        [sizeDivisor signal, 10, pow 10 (ops.div targetSNRdB 10)]) := by
  have key : forLoop 0 signal.length 1 (fun i (st : List K × Nat) => do
        let u1 : K := uniform seed st.2
        let u2 : K := uniform seed (st.2 + 1)
        let z : K :=
          ops.mul (sqrt (ops.mul (-2) (log u1))) (cos (ops.mul (ops.mul 2 G_PI) u2))
        let x ← readAt signal i
        let noisySignal ← writeAt st.1 i
          (ops.add x (ops.mul (sqrt (adjustNoisePowerOn ops pow targetSNRdB signal).1) z))
        pure (noisySignal, st.2 + 2))
      (List.replicate signal.length 0, 0)
      = .ok (fillTo signal.length (fun i => ops.add (signal.getD i 0)
          (injectedOn ops pow sqrt log cos G_PI uniform targetSNRdB seed
            (signalPowerOn ops signal) i)) 0 signal.length,
        2 * signal.length) := by
    refine forLoop_trace_eq 0 _ 1 _ _ _ signal.length
      (fun k => (fillTo signal.length (fun i => ops.add (signal.getD i 0)
          (injectedOn ops pow sqrt log cos G_PI uniform targetSNRdB seed
            (signalPowerOn ops signal) i)) 0 k, 2 * k))
      Nat.one_pos ?_ rfl ?_ ?_ ?_
    · simp only [fillTo_zero, Nat.mul_zero]
    · omega
    · intro k hk
      omega
    · intro k hk
      have w := writeAt_fillTo signal.length (fun i => ops.add (signal.getD i 0)
          (injectedOn ops pow sqrt log cos G_PI uniform targetSNRdB seed
            (signalPowerOn ops signal) i)) 0 k hk
      simp only [injectedOn, signalPowerOn, List.getD_eq_getElem _ _ hk] at w
      have e : 2 * (k + 1) = 2 * k + 2 := by omega
      simp only [Nat.zero_add, Nat.mul_one, readAt_of_lt signal k hk, bind_ok, injectedOn,
        signalPowerOn, adjustNoisePowerOn, recordedDiv, w, pure, Except.pure, e]
  unfold addNoiseOn
  simp only []
  rw [key, except_map_ok, fillTo_all]
  rfl

theorem addNoiseOn_nil (ops : DoubleOps K) (pow : K → K → K) (sqrt log cos : K → K) (G_PI : K)
    (uniform : Nat → Nat → K) (targetSNRdB : K) (seed : Nat) :
    addNoiseOn ops pow sqrt log cos G_PI uniform targetSNRdB seed [] =
      (.ok [], [0, 10, pow 10 (ops.div targetSNRdB 10)]) := by
  rw [addNoiseOn_eq ops pow sqrt log cos G_PI uniform targetSNRdB seed [] (by simp [SIZE_MOD])]
  simp [sizeDivisor]

theorem addNoiseOn_exact (pow : K → K → K) (sqrt log cos : K → K) (G_PI : K)
    (uniform : Nat → Nat → K) (targetSNRdB : K) (seed : Nat) (signal : List K) :
    (addNoiseOn exactOps pow sqrt log cos G_PI uniform targetSNRdB seed signal).1 =
      addNoise pow sqrt log cos G_PI uniform targetSNRdB seed signal := by
  simp only [addNoiseOn, adjustNoisePowerOn, recordedDiv, exactOps, addNoise,
    adjustNoisePower, calculateNoisePower]

/-! ## Rounding to the nearest double -/

theorem log_two_eq (r : ℚ) (e : ℤ) (h1 : (2 : ℚ) ^ e ≤ r) (h2 : r < (2 : ℚ) ^ (e + 1)) :
    Int.log 2 r = e := by
  have hr : 0 < r := lt_of_lt_of_le (zpow_pos (by norm_num) e) h1
  have hb : 1 < 2 := by decide
  apply le_antisymm
  · have h := (Int.lt_zpow_iff_log_lt hb hr (x := e + 1)).1 (by simpa using h2)
    omega
  · exact (Int.zpow_le_iff_le_log hb hr).1 (by simpa using h1)

theorem roundHalfEven_near (t : ℚ) (m : ℤ) (hlo : (m : ℚ) - 1 / 2 < t)
    (hhi : t < (m : ℚ) + 1 / 2) : roundHalfEven t = m := by
  unfold roundHalfEven
  by_cases h : (m : ℚ) ≤ t
  · have hf : ⌊t⌋ = m := by
      rw [Int.floor_eq_iff]
      constructor
      · exact h
      · linarith
    rw [hf, if_pos (by linarith)]
  · have h2 : t < (m : ℚ) := not_le.1 h
    have hf : ⌊t⌋ = m - 1 := by
      rw [Int.floor_eq_iff]
      constructor
      · push_cast
        linarith
      · push_cast
        linarith
    rw [hf, if_neg (by push_cast; linarith), if_pos (by push_cast; linarith)]
    omega

theorem roundDouble_near (q : ℚ) (e m : ℤ) (h1 : (2 : ℚ) ^ e ≤ |q|)
    (h2 : |q| < (2 : ℚ) ^ (e + 1)) (hlo : (m : ℚ) - 1 / 2 < q / 2 ^ (e - 52))
    (hhi : q / 2 ^ (e - 52) < (m : ℚ) + 1 / 2) :
    roundDouble q = (m : ℚ) * 2 ^ (e - 52) := by
  have hq : q ≠ 0 := by
    intro h
    rw [h, abs_zero] at h1
    exact absurd h1 (not_le.2 (zpow_pos (by norm_num) e))
  unfold roundDouble
  rw [if_neg hq, log_two_eq _ e h1 h2, roundHalfEven_near _ m hlo hhi]

theorem roundDouble_one : roundDouble 1 = 1 := by
  rw [roundDouble_near _ 0 4503599627370496 (by norm_num) (by norm_num) (by norm_num)
    (by norm_num)]
  norm_num

theorem run_tenth : roundDouble (1 / 10) = 3602879701896397 / 2 ^ 55 := by
  rw [roundDouble_near _ (-4) 7205759403792794 (by norm_num [abs_of_pos])
    (by norm_num [abs_of_pos]) (by norm_num) (by norm_num)]
  norm_num

theorem run_scaled_log :
    roundDouble (-2 * (-2354585214891771 / 2 ^ 52)) = 2354585214891771 / 2 ^ 51 := by
  rw [roundDouble_near _ 0 4709170429783542 (by norm_num [abs_of_pos])
    (by norm_num [abs_of_pos]) (by norm_num) (by norm_num)]
  norm_num

theorem run_normal :
    roundDouble (4605238125525901 / 2 ^ 52 * (5028374390644147 / 2 ^ 53)) =
      5141856152682255 / 2 ^ 53 := by
  rw [roundDouble_near _ (-1) 5141856152682255 (by norm_num [abs_of_pos])
    (by norm_num [abs_of_pos]) (by norm_num) (by norm_num)]
  norm_num

theorem run_noise :
    roundDouble (5696652996790543 / 2 ^ 54 * (5141856152682255 / 2 ^ 53)) =
      6503990737370571 / 2 ^ 55 := by
  rw [roundDouble_near _ (-3) 6503990737370571 (by norm_num [abs_of_pos])
    (by norm_num [abs_of_pos]) (by norm_num) (by norm_num)]
  norm_num

theorem run_add_one :
    roundDouble (1 + 6503990737370571 / 2 ^ 55) = 5316598469541817 / 2 ^ 52 := by
  rw [roundDouble_near _ 0 5316598469541817 (by norm_num [abs_of_pos])
    (by norm_num [abs_of_pos]) (by norm_num) (by norm_num)]
  norm_num

theorem run_add_neg_one :
    roundDouble (-1 + 6503990737370571 / 2 ^ 55) = -7381201570398349 / 2 ^ 53 := by
  rw [roundDouble_near _ (-1) (-7381201570398349) (by norm_num [abs_of_neg])
    (by norm_num [abs_of_neg]) (by norm_num) (by norm_num)]
  norm_num

theorem run_power (x : ℚ) (hx : x * x = 1) : signalPowerOn binary64 [x] = 1 := by
  simp [signalPowerOn, binary64, sizeDivisor, hx, roundDouble_one]

theorem run_injected :
    injectedOn binary64 runPow runSqrt runLog runCos runPi runUniform 10 0 1 0 =
      6503990737370571 / 2 ^ 55 := by
  simp only [injectedOn, binary64, runPow, runLog, runCos]
  rw [run_tenth, run_scaled_log]
  simp only [runSqrt]
  rw [if_pos trivial, if_neg (by norm_num), run_normal, run_noise]

theorem run_output (x : ℚ) (hx : x * x = 1) :
    (addNoiseOn binary64 runPow runSqrt runLog runCos runPi runUniform 10 0 [x]).1 =
      .ok [roundDouble (x + 6503990737370571 / 2 ^ 55)] := by
  rw [addNoiseOn_eq _ _ _ _ _ _ _ _ _ _ (by simp [SIZE_MOD]), run_power x hx]
  have hr : List.range ([x] : List ℚ).length = [0] := rfl
  rw [hr]
  simp only [List.map_cons, List.map_nil, run_injected]
  rfl

/-! ## Two samples of a sine -/

theorem sine_two_samples (sin : K → K) (hsin : sin 0 = 0) (PI amplitude frequency : K) :
    (generateSineWave sin PI 2 amplitude frequency >>= computeZeroCrossingPoints) = .ok [] := by
  rw [generateSineWave_eq sin PI 2 amplitude frequency (by decide), bind_ok,
    computeZeroCrossingPoints_eq _ (by simp [SIZE_MOD])]
  congr 1
  rw [List.eq_nil_iff_forall_not_mem]
  intro i hi
  obtain ⟨h1, h2, h3⟩ := (mem_crossings_iff _ i).1 hi
  have hi1 : i = 1 := by
    have : i < 2 := by simpa using h2
    omega
  subst hi1
  have h0 : ((List.range 2).map
      (fun (i : Nat) => amplitude * sin (2 * PI * frequency * (i : K)))).getD (1 - 1) 0 = 0 := by
    rw [getD_map_range _ _ _ _ (by decide)]
    simp [hsin]
  rw [h0] at h3
  rcases h3 with ⟨h, _⟩ | ⟨h, _⟩
  · exact lt_irrefl _ h
  · exact lt_irrefl _ h

/-! ## Claims -/

/-- C1: for `ChannelModel(BPSK, NONE)` and every vector of bits in `{0, 1}` (of any size a
vector can have, the empty one included), `demodulate(modulate(bits))` returns `bits`. -/
theorem bpsk_none_roundtrip (sqrt : K → K) (bits : List Int)
    (hbits : ∀ b ∈ bits, b = 0 ∨ b = 1) (hlen : bits.length < SIZE_MOD) :
    (modulate sqrt .BPSK .NONE bits >>= demodulate sqrt .BPSK .NONE) = .ok bits := by
  have hl : (bits.map (fun b => if b ≠ 0 then (1 : K) else -1)).length = bits.length :=
    List.length_map _ _
  simp only [modulate_none]
  rw [modulateBPSK_eq bits hlen, bind_ok]
  simp only [demodulate_eq]
  rw [demodulateBPSK_eq _ (hl ▸ hlen), bind_ok, List.map_map]
  exact congrArg Except.ok
    (map_id_of_forall bits _ (fun b hb => hardBit_bpsk b (hbits b hb)))

/-- C1 at the bits `[1, 0, 1, 1, 0]` of the specification's example, over the reals. -/
theorem bpsk_none_roundtrip_witness :
    (∀ b ∈ ([1, 0, 1, 1, 0] : List Int), b = 0 ∨ b = 1) ∧
    ([1, 0, 1, 1, 0] : List Int).length < SIZE_MOD ∧
    (modulate Real.sqrt .BPSK .NONE [1, 0, 1, 1, 0] >>= demodulate Real.sqrt .BPSK .NONE)
      = .ok [1, 0, 1, 1, 0] :=
  ⟨by decide, by decide,
   bpsk_none_roundtrip Real.sqrt [1, 0, 1, 1, 0] (by decide) (by decide)⟩

/-- C2: for `ChannelModel(QPSK, NONE)` and every non-empty vector of bits in `{0, 1}` of
even size, `demodulate(modulate(bits))` returns `bits` (`std::sqrt(2.0)` is positive). -/
theorem qpsk_none_roundtrip (sqrt : K → K) (hsqrt : 0 < sqrt 2) (bits : List Int)
    (hbits : ∀ b ∈ bits, b = 0 ∨ b = 1) (hpos : 0 < bits.length)
    (heven : bits.length % 2 = 0) (hlen : bits.length < SIZE_MOD) :
    (modulate sqrt .QPSK .NONE bits >>= demodulate sqrt .QPSK .NONE) = .ok bits := by
  have hl : (bits.map (fun b => if b ≠ 0 then sqrt 2 / 2 else -(sqrt 2 / 2))).length
      = bits.length := List.length_map _ _
  simp only [modulate_none]
  rw [modulateQPSK_even sqrt bits hpos hlen heven, bind_ok]
  simp only [demodulate_eq]
  rw [demodulateQPSK_even _ (hl ▸ hpos) (hl ▸ hlen) (hl ▸ heven), bind_ok, List.map_map]
  exact congrArg Except.ok
    (map_id_of_forall bits _
      (fun b hb => hardBit_qpsk (sqrt 2 / 2) (half_pos hsqrt) b (hbits b hb)))

/-- C2 at the bits `[1, 0, 0, 1]`, over the reals. -/
theorem qpsk_none_roundtrip_witness :
    0 < Real.sqrt 2 ∧ (∀ b ∈ ([1, 0, 0, 1] : List Int), b = 0 ∨ b = 1) ∧
    0 < ([1, 0, 0, 1] : List Int).length ∧ ([1, 0, 0, 1] : List Int).length % 2 = 0 ∧
    ([1, 0, 0, 1] : List Int).length < SIZE_MOD ∧
    (modulate Real.sqrt .QPSK .NONE [1, 0, 0, 1] >>= demodulate Real.sqrt .QPSK .NONE)
      = .ok [1, 0, 0, 1] :=
  ⟨Real.sqrt_pos.2 two_pos, by decide, by decide, by decide, by decide,
   qpsk_none_roundtrip Real.sqrt (Real.sqrt_pos.2 two_pos) [1, 0, 0, 1] (by decide)
     (by decide) (by decide) (by decide)⟩

/-- C3 (code defect): `demodulateQAM16` does not invert `modulateQAM16`. On the bits
`[0, 0, 0, 0]`, `ChannelModel(QAM16, NONE)` returns `[0, 1, 0, 1]` from
`demodulate(modulate(bits))`, with exact real symbol values. -/
theorem qam16_none_roundtrip_zero_group :
    (modulate Real.sqrt .QAM16 .NONE [0, 0, 0, 0] >>= demodulate Real.sqrt .QAM16 .NONE)
      = .ok [0, 1, 0, 1] :=
  qam16_zero_group Real.sqrt (Real.sqrt_pos.2 (by norm_num))

/-- C4 (code defect): on the bits `[1, 1]` the encoder emits `[1, 1, 1, 1]`, while the code
with generator polynomials 7 and 5 emits the pair `(0, 1)` for the second bit. -/
theorem encodeConvolutional_one_one :
    encodeConvolutional [1, 1] = .ok [1, 1, 1, 1] ∧ generatorPair75 [1, 1] 1 = (0, 1) := by
  constructor
  · rw [encodeConvolutional_eq [1, 1] (by decide)]
    have : (encodeTrace [1, 1] ([1, 1] : List Int).length).1 = [1, 1, 1, 1] := by decide
    rw [this]
  · decide

/-- C5 (code defect): with convolutional coding and no noise, `ChannelModel(BPSK,
CONVOLUTIONAL)` returns `[0]` from `demodulate(modulate([1]))`. -/
theorem bpsk_convolutional_roundtrip_one :
    (modulate Real.sqrt .BPSK .CONVOLUTIONAL [1] >>=
      demodulate Real.sqrt .BPSK .CONVOLUTIONAL) = .ok [0] :=
  bpsk_convolutional_one Real.sqrt

/-- C6 (code defect): on a vector shorter than one symbol group (empty for QPSK, fewer than
three elements for 16-QAM) the modulators and the demodulators access an element out of
range: the loop bound `size() - 1` or `size() - 3` wraps around. -/
theorem short_group_out_of_range (sqrt : K → K) (bits : List Int) (symbols : List K)
    (hb : bits.length < 3) (hs : symbols.length < 3) :
    modulateQPSK sqrt ([] : List Int) = .error .outOfRange ∧
    modulateQAM16 sqrt bits = .error .outOfRange ∧
    demodulateQPSK ([] : List K) = .error .outOfRange ∧
    demodulateQAM16 sqrt symbols = .error .outOfRange :=
  ⟨modulateQPSK_nil sqrt, modulateQAM16_short sqrt bits hb, demodulateQPSK_nil,
   demodulateQAM16_short sqrt symbols hs⟩

/-- C6 at one 16-QAM bit (`numSamples = 1`) and two received values, over the reals. -/
theorem short_group_out_of_range_witness :
    ([1] : List Int).length < 3 ∧ ([1, -1] : List ℝ).length < 3 ∧
    modulateQPSK Real.sqrt ([] : List Int) = .error .outOfRange ∧
    modulateQAM16 Real.sqrt [1] = .error .outOfRange ∧
    demodulateQPSK ([] : List ℝ) = .error .outOfRange ∧
    demodulateQAM16 Real.sqrt [1, -1] = .error .outOfRange :=
  ⟨by decide, by simp, short_group_out_of_range Real.sqrt [1] [1, -1] (by decide) (by simp)⟩

/-- C7 (code defect): with coding `NONE` and no noise the bit-error count is not always
zero. For 16-QAM the bits `[0, 0, 0, 0]` come back with two errors, and for QPSK the single
bit `[1]` makes `demodulate` access an element out of range. -/
theorem bit_errors_without_noise :
    (modulate Real.sqrt .QAM16 .NONE [0, 0, 0, 0] >>= demodulate Real.sqrt .QAM16 .NONE >>=
      countBitErrors [0, 0, 0, 0]) = .ok 2 ∧
    (modulate Real.sqrt .QPSK .NONE [1] >>= demodulate Real.sqrt .QPSK .NONE)
      = .error .outOfRange := by
  constructor
  · rw [qam16_zero_group Real.sqrt (Real.sqrt_pos.2 (by norm_num)), bind_ok,
      countBitErrors_eq _ _ (by decide)]
    have : errorsAfter [0, 0, 0, 0] [0, 1, 0, 1]
        (min ([0, 0, 0, 0] : List Int).length ([0, 1, 0, 1] : List Int).length) = 2 := by
      decide
    rw [this]
  · simp only [modulate_none]
    rw [modulateQPSK_eq Real.sqrt [1] (by decide) (by decide)]
    have : fillTo (([1] : List Int).length / 2 * 2)
        (fun j => if ([1] : List Int).getD j 0 ≠ 0 then Real.sqrt 2 / 2 else -(Real.sqrt 2 / 2))
        0 (([1] : List Int).length / 2 * 2) = [] := rfl
    rw [this, bind_ok]
    simp only [demodulate_eq]
    rw [demodulateQPSK_nil, bind_error]

/-- C8 (counterexample): with convolutional coding and 16-QAM, `demodulate` of the symbols
`[1, 1, 1, 1]` returns `[0, 0]`, while decoding the output of the hard-decision demodulator
gives `[1, 1]`. -/
theorem demodulate_convolutional_qam16_differs :
    demodulate Real.sqrt .QAM16 .CONVOLUTIONAL [1, 1, 1, 1] = .ok [0, 0] ∧
    demodulateThenDecode Real.sqrt .QAM16 [1, 1, 1, 1] = .ok [1, 1] := by
  have hs : (2 : ℝ) < Real.sqrt 10 := by
    rw [Real.lt_sqrt (by norm_num)]
    norm_num
  obtain ⟨h1, h2, h3⟩ := qam16_ones Real.sqrt hs
  constructor
  · rw [demodulate_convolutional_eq Real.sqrt .QAM16 _ (by simp) (by simp) (by simp [SIZE_MOD]),
      h2]
  · unfold demodulateThenDecode
    simp only []
    rw [h1, bind_ok, h3]

/-- C8 (amended): with convolutional coding, `demodulate(symbols)` is `decodeConvolutional`
applied to the received symbols themselves, for every scheme and every symbol vector whose
size is a non-zero multiple of 4; for BPSK and QPSK this equals decoding the output of the
hard-decision demodulator. -/
theorem demodulate_convolutional_decodes_symbols (sqrt : K → K) (m : ModulationType)
    (symbols : List K) (hpos : 0 < symbols.length) (h4 : symbols.length % 4 = 0)
    (hlen : symbols.length < SIZE_MOD) :
    demodulate sqrt m .CONVOLUTIONAL symbols = decodeConvolutional symbols ∧
    (m ≠ .QAM16 →
      demodulate sqrt m .CONVOLUTIONAL symbols = demodulateThenDecode sqrt m symbols) :=
  ⟨demodulate_convolutional_eq sqrt m symbols hpos h4 hlen, fun hm =>
    (demodulate_convolutional_eq sqrt m symbols hpos h4 hlen).trans
      (demodulateThenDecode_eq sqrt m symbols hm hpos h4 hlen).symm⟩

/-- C8 (amended) at QPSK and the symbols `[1, -1, -1, 1]`, over the reals. -/
theorem demodulate_convolutional_decodes_symbols_witness :
    0 < ([1, -1, -1, 1] : List ℝ).length ∧ ([1, -1, -1, 1] : List ℝ).length % 4 = 0 ∧
    ([1, -1, -1, 1] : List ℝ).length < SIZE_MOD ∧
    demodulate Real.sqrt .QPSK .CONVOLUTIONAL [1, -1, -1, 1]
      = decodeConvolutional ([1, -1, -1, 1] : List ℝ) ∧
    (ModulationType.QPSK ≠ .QAM16 →
      demodulate Real.sqrt .QPSK .CONVOLUTIONAL [1, -1, -1, 1]
        = demodulateThenDecode Real.sqrt .QPSK [1, -1, -1, 1]) :=
  ⟨by simp, by simp, by simp [SIZE_MOD],
   demodulate_convolutional_decodes_symbols Real.sqrt .QPSK [1, -1, -1, 1] (by simp) (by simp)
     (by simp [SIZE_MOD])⟩

/-- C9 (counterexample): on the samples `[0, -1]` no index is recorded, although at
`i = 1` one of the two samples is strictly negative and the other is `>= 0`. -/
theorem zeroCrossing_either_order_fails :
    computeZeroCrossingPoints ([0, -1] : List ℝ) = .ok [] ∧
    crossesEitherOrder ([0, -1] : List ℝ) 1 := by
  constructor
  · rw [computeZeroCrossingPoints_eq _ (by simp [SIZE_MOD])]
    have : ([0, -1] : List ℝ).length - 1 = 1 := by simp
    rw [this]
    have h0 : ([0, -1] : List ℝ).getD (1 - 1) 0 = 0 := rfl
    have hc : ¬ crossesAt ([0, -1] : List ℝ) 1 := by
      unfold crossesAt
      rw [h0]
      simp
    simp [List.range', hc]
  · unfold crossesEitherOrder
    have h0 : ([0, -1] : List ℝ).getD (1 - 1) 0 = 0 := rfl
    have h1 : ([0, -1] : List ℝ).getD 1 0 = -1 := rfl
    rw [h0, h1]
    norm_num

/-- C9 (amended): `computeZeroCrossingPoints` records index `i` (`1 <= i < len`) exactly
when `noisy[i-1]` is strictly negative and `noisy[i] >= 0`, or `noisy[i-1]` is strictly
positive and `noisy[i] <= 0`. -/
theorem zeroCrossing_recorded_iff (noisy : List K) (hlen : noisy.length < SIZE_MOD) :
    ∃ pts, computeZeroCrossingPoints noisy = .ok pts ∧
      ∀ i, i ∈ pts ↔ (1 ≤ i ∧ i < noisy.length ∧
        ((noisy.getD (i - 1) 0 < 0 ∧ noisy.getD i 0 ≥ 0) ∨
          (noisy.getD (i - 1) 0 > 0 ∧ noisy.getD i 0 ≤ 0))) := by
  refine ⟨_, computeZeroCrossingPoints_eq noisy hlen, ?_⟩
  intro i
  simp only [List.mem_filter, List.mem_range'_1, decide_eq_true_eq, crossesAt]
  constructor
  · rintro ⟨⟨h1, h2⟩, h3⟩
    exact ⟨h1, by omega, h3⟩
  · rintro ⟨h1, h2, h3⟩
    exact ⟨⟨h1, by omega⟩, h3⟩

/-- C9 (amended) at the samples `[1, -1, 0, 2]`, over the reals. -/
theorem zeroCrossing_recorded_iff_witness :
    ([1, -1, 0, 2] : List ℝ).length < SIZE_MOD ∧
    ∃ pts, computeZeroCrossingPoints ([1, -1, 0, 2] : List ℝ) = .ok pts ∧
      ∀ i, i ∈ pts ↔ (1 ≤ i ∧ i < ([1, -1, 0, 2] : List ℝ).length ∧
        ((([1, -1, 0, 2] : List ℝ).getD (i - 1) 0 < 0 ∧ ([1, -1, 0, 2] : List ℝ).getD i 0 ≥ 0) ∨
          (([1, -1, 0, 2] : List ℝ).getD (i - 1) 0 > 0 ∧
            ([1, -1, 0, 2] : List ℝ).getD i 0 ≤ 0))) :=
  ⟨by simp [SIZE_MOD], zeroCrossing_recorded_iff ([1, -1, 0, 2] : List ℝ) (by simp [SIZE_MOD])⟩

/-- C10 (counterexample): the first sample of a sine is 0, so on two samples no index is
returned. At amplitude 1 and frequency `2/5`, `2 * f * N` is `8/5`: the count is not within 1
of it. At frequency `1/2`, `2 * f * N` is 2: the count is not within less than 2 of it. -/
theorem sine_crossings_not_within_one :
    (generateSineWave Real.sin Real.pi 2 1 (2 / 5) >>= computeZeroCrossingPoints) = .ok [] ∧
    ¬ (|((([] : List Nat).length : Nat) : ℝ) - 2 * (2 / 5) * ((2 : Nat) : ℝ)| ≤ 1) ∧
    (generateSineWave Real.sin Real.pi 2 1 (1 / 2) >>= computeZeroCrossingPoints) = .ok [] ∧
    ¬ (|((([] : List Nat).length : Nat) : ℝ) - 2 * (1 / 2) * ((2 : Nat) : ℝ)| < 2) := by
  refine ⟨?_, ?_, sine_two_samples Real.sin Real.sin_zero Real.pi 1 (1 / 2), ?_⟩
  · obtain ⟨pts, h1, h2⟩ := sine_run_count 1 (2 / 5) 2 one_pos (by norm_num) (by norm_num)
      (by decide) (by decide)
    have h0 : ⌊(2 : ℝ) * (2 / 5) * (((2 : Nat) : ℝ) - 1)⌋₊ = 0 := by
      rw [Nat.floor_eq_zero]
      norm_num
    rw [h0] at h2
    rw [h1, List.length_eq_zero.1 h2]
  · norm_num [abs_le]
  · norm_num [abs_lt]

/-- C10 (amended): for every amplitude `> 0`, frequency `0 < f < 1/2` and `N >= 1`, the
number of indices `computeZeroCrossingPoints` returns on the noiseless sine
`sample[i] = amplitude * sin(2*pi*f*i)`, `i` in `[0, N)`, differs from `2*f*N` by less
than 2 (samples taken as exact reals). -/
theorem sine_zero_crossing_count (amplitude frequency : ℝ) (N : Nat) (ha : 0 < amplitude)
    (hf0 : 0 < frequency) (hf1 : frequency < 1 / 2) (hN : 1 ≤ N) (hlen : N < SIZE_MOD) :
    ∃ pts, (generateSineWave Real.sin Real.pi N amplitude frequency >>=
        computeZeroCrossingPoints) = .ok pts ∧
      |(pts.length : ℝ) - 2 * frequency * (N : ℝ)| < 2 := by
  obtain ⟨pts, h1, h2⟩ := sine_run_count amplitude frequency N ha hf0 hf1 hN hlen
  refine ⟨pts, h1, ?_⟩
  have hN1 : (1 : ℝ) ≤ (N : ℝ) := by exact_mod_cast hN
  have hy : (0 : ℝ) ≤ 2 * frequency * ((N : ℝ) - 1) :=
    mul_nonneg (by linarith) (by linarith)
  have hle := Nat.floor_le hy
  have hlt := Nat.lt_floor_add_one (2 * frequency * ((N : ℝ) - 1))
  rw [h2, abs_lt]
  constructor <;> nlinarith

/-- C10 (amended) at the defaults of the specification, amplitude 1, `f = 0.05` and
`N = 1000`. -/
theorem sine_zero_crossing_count_witness :
    (0 : ℝ) < 1 ∧ (0 : ℝ) < 1 / 20 ∧ (1 / 20 : ℝ) < 1 / 2 ∧ 1 ≤ 1000 ∧ 1000 < SIZE_MOD ∧
    ∃ pts, (generateSineWave Real.sin Real.pi 1000 1 (1 / 20) >>=
        computeZeroCrossingPoints) = .ok pts ∧
      |(pts.length : ℝ) - 2 * (1 / 20) * ((1000 : Nat) : ℝ)| < 2 :=
  ⟨one_pos, by norm_num, by norm_num, by decide, by decide,
   sine_zero_crossing_count 1 (1 / 20) 1000 one_pos (by norm_num) (by norm_num) (by decide)
     (by decide)⟩

/-- C11 (counterexample): on the empty waveform `addNoise` returns the empty waveform, and
one of the divisions evaluated during the call has the divisor 0. -/
theorem addNoise_empty_divides_by_zero :
    (addNoiseOn exactOps Real.rpow Real.sqrt Real.log Real.cos Real.pi (fun _ _ => 1 / 2)
      10 0 []).1 = .ok [] ∧
    ¬ (∀ d ∈ (addNoiseOn exactOps Real.rpow Real.sqrt Real.log Real.cos Real.pi
      (fun _ _ => 1 / 2) 10 0 []).2, d ≠ 0) := by
  rw [addNoiseOn_nil]
  refine ⟨rfl, ?_⟩
  intro h
  exact h 0 (List.mem_cons_self _ _) rfl

/-- C11 (amended): `addNoise` on the empty waveform returns the empty waveform, whatever
values the arithmetic of `double` gives to its operations; the first division evaluated
during the call is the mean-of-squares division `sum / signal.size()` of
`adjustNoisePower`, with the divisor 0, and its quotient reaches no output sample. -/
theorem addNoise_empty (ops : DoubleOps K) (pow : K → K → K) (sqrt log cos : K → K) (G_PI : K)
    (uniform : Nat → Nat → K) (targetSNRdB : K) (seed : Nat) :
    addNoiseOn ops pow sqrt log cos G_PI uniform targetSNRdB seed [] =
      (.ok [], [0, 10, pow 10 (ops.div targetSNRdB 10)]) ∧
    (adjustNoisePowerOn ops pow targetSNRdB []).1 =
      ops.div (ops.div 0 0) (pow 10 (ops.div targetSNRdB 10)) ∧
    addNoise pow sqrt log cos G_PI uniform targetSNRdB seed [] = .ok [] :=
  ⟨addNoiseOn_nil ops pow sqrt log cos G_PI uniform targetSNRdB seed,
   by simp [adjustNoisePowerOn, recordedDiv, sizeDivisor],
   addNoise_nil pow sqrt log cos G_PI uniform targetSNRdB seed⟩

/-- C12: for every vector of `n` bits in `{0, 1}` the convolutional encoder returns exactly
`2 * n` values, each 0 or 1; the first `2 * k` of them are the encoding of the first `k`
bits (two coded bits per input bit, in input order), and the empty vector is encoded as the
empty vector. -/
theorem encodeConvolutional_shape (bits : List Int) (hbits : ∀ b ∈ bits, b = 0 ∨ b = 1)
    (hlen : bits.length < SIZE_MOD) :
    ∃ enc, encodeConvolutional bits = .ok enc ∧ enc.length = 2 * bits.length ∧
      (∀ c ∈ enc, c = 0 ∨ c = 1) ∧
      (∀ k, k ≤ bits.length → encodeConvolutional (bits.take k) = .ok (enc.take (2 * k))) ∧
      encodeConvolutional [] = .ok [] := by
  refine ⟨_, encodeConvolutional_eq bits hlen, encodeTrace_length bits _,
    (encodeTrace_bits bits hbits _).1, ?_, ?_⟩
  · intro k hk
    have hl : (bits.take k).length = k := by simp [hk]
    rw [encodeConvolutional_eq _ (by rw [hl]; omega), hl, encodeTrace_take bits k _ hk,
      encodeTrace_congr (bits.take k) bits k (fun j hj => getD_take_of_lt bits k j 0 hj)]
  · rw [encodeConvolutional_eq [] (by decide)]
    rfl

/-- C12 at the bits `[1, 0, 1]`. -/
theorem encodeConvolutional_shape_witness :
    (∀ b ∈ ([1, 0, 1] : List Int), b = 0 ∨ b = 1) ∧ ([1, 0, 1] : List Int).length < SIZE_MOD ∧
    ∃ enc, encodeConvolutional [1, 0, 1] = .ok enc ∧
      enc.length = 2 * ([1, 0, 1] : List Int).length ∧
      (∀ c ∈ enc, c = 0 ∨ c = 1) ∧
      (∀ k, k ≤ ([1, 0, 1] : List Int).length →
        encodeConvolutional (([1, 0, 1] : List Int).take k) = .ok (enc.take (2 * k))) ∧
      encodeConvolutional [] = .ok [] :=
  ⟨by decide, by decide, encodeConvolutional_shape [1, 0, 1] (by decide) (by decide)⟩

/-- C13: for every vector of soft values of even size `2m`, `decodeConvolutional` returns
exactly `m` bits, bit `k` being `(soft[2k] > 0) xor (soft[2k+1] > 0)`; no access is out of
range, and a value of exactly 0 counts as bit 0. -/
theorem decodeConvolutional_pairs (softBits : List K) (heven : softBits.length % 2 = 0)
    (hlen : softBits.length < SIZE_MOD) :
    ∃ decoded, decodeConvolutional softBits = .ok decoded ∧
      decoded.length = softBits.length / 2 ∧
      (∀ k, k < softBits.length / 2 → decoded.getD k 0 =
        if (decide (softBits.getD (2 * k) 0 > 0) != decide (softBits.getD (2 * k + 1) 0 > 0))
        then 1 else 0) ∧
      decodeConvolutional ([0, 1] : List K) = .ok [1] ∧
      decodeConvolutional ([1, 0] : List K) = .ok [1] := by
  refine ⟨_, decodeConvolutional_eq softBits heven hlen, ?_, ?_, ?_, ?_⟩
  · simp [decodedPrefix]
  · intro k hk
    unfold decodedPrefix
    rw [getD_map_range _ _ _ _ hk, xor_indicator, Nat.mul_comm k 2]
  · rw [decodeConvolutional_eq _ (by simp) (by simp [SIZE_MOD])]
    have : ([0, 1] : List K).length / 2 = 1 := by simp
    have h0 : ([0, 1] : List K).getD (0 * 2) 0 = 0 := rfl
    have h1 : ([0, 1] : List K).getD (0 * 2 + 1) 0 = 1 := rfl
    rw [this]
    simp only [decodedPrefix, List.range_succ, List.range_zero, List.nil_append, List.map_cons,
      List.map_nil, h0, h1, zero_lt_one, if_true, gt_iff_lt, lt_self_iff_false, if_false]
    rfl
  · rw [decodeConvolutional_eq _ (by simp) (by simp [SIZE_MOD])]
    have : ([1, 0] : List K).length / 2 = 1 := by simp
    have h0 : ([1, 0] : List K).getD (0 * 2) 0 = 1 := rfl
    have h1 : ([1, 0] : List K).getD (0 * 2 + 1) 0 = 0 := rfl
    rw [this]
    simp only [decodedPrefix, List.range_succ, List.range_zero, List.nil_append, List.map_cons,
      List.map_nil, h0, h1, zero_lt_one, if_true, gt_iff_lt, lt_self_iff_false, if_false]
    rfl

/-- C13 at the soft values `[1, -1, 0, 2]`, over the reals. -/
theorem decodeConvolutional_pairs_witness :
    ([1, -1, 0, 2] : List ℝ).length % 2 = 0 ∧ ([1, -1, 0, 2] : List ℝ).length < SIZE_MOD ∧
    ∃ decoded, decodeConvolutional ([1, -1, 0, 2] : List ℝ) = .ok decoded ∧
      decoded.length = ([1, -1, 0, 2] : List ℝ).length / 2 ∧
      (∀ k, k < ([1, -1, 0, 2] : List ℝ).length / 2 → decoded.getD k 0 =
        if (decide (([1, -1, 0, 2] : List ℝ).getD (2 * k) 0 > 0) !=
            decide (([1, -1, 0, 2] : List ℝ).getD (2 * k + 1) 0 > 0))
        then 1 else 0) ∧
      decodeConvolutional ([0, 1] : List ℝ) = .ok [1] ∧
      decodeConvolutional ([1, 0] : List ℝ) = .ok [1] :=
  ⟨by simp, by simp [SIZE_MOD],
   decodeConvolutional_pairs ([1, -1, 0, 2] : List ℝ) (by simp) (by simp [SIZE_MOD])⟩

/-- C14: for `ChannelModel(QAM16, NONE)` and every vector of `n >= 4` bits in `{0, 1}`,
`modulate` returns `4 * floor(n/4)` values; for group `g` with bits `(b0, b1, b2, b3)` the
positions `4g .. 4g+3` hold `(I, Q, I, Q)` with `I = level(b0 b1) / sqrt(10)` and
`Q = level(b2 b3) / sqrt(10)`; the bits of a trailing incomplete group do not affect the
output. -/
theorem qam16_modulate_layout (sqrt : K → K) (bits : List Int)
    (hbits : ∀ b ∈ bits, b = 0 ∨ b = 1) (h4 : 4 ≤ bits.length)
    (hlen : bits.length < SIZE_MOD) :
    ∃ symbols, modulate sqrt .QAM16 .NONE bits = .ok symbols ∧
      symbols.length = 4 * (bits.length / 4) ∧
      (∀ g, g < bits.length / 4 →
        symbols.getD (4 * g) 0 =
          levelOf (bits.getD (4 * g) 0) (bits.getD (4 * g + 1) 0) / sqrt 10 ∧
        symbols.getD (4 * g + 1) 0 =
          levelOf (bits.getD (4 * g + 2) 0) (bits.getD (4 * g + 3) 0) / sqrt 10 ∧
        symbols.getD (4 * g + 2) 0 = symbols.getD (4 * g) 0 ∧
        symbols.getD (4 * g + 3) 0 = symbols.getD (4 * g + 1) 0) ∧
      (∀ other : List Int, other.length = bits.length →
        other.take (4 * (bits.length / 4)) = bits.take (4 * (bits.length / 4)) →
        modulate sqrt .QAM16 .NONE other = .ok symbols) := by
  have hm : modulate sqrt .QAM16 .NONE bits =
      .ok ((List.range (bits.length / 4 * 4)).map (qamSymbolAt sqrt bits)) := by
    simp only [modulate_none]
    rw [modulateQAM16_eq sqrt bits (by omega) hlen, fillTo_all]
  refine ⟨_, hm, ?_, ?_, ?_⟩
  · simp
    omega
  · intro g hg
    have e : 4 * g = g * 4 := Nat.mul_comm 4 g
    have hg1 : g * 4 + 1 < bits.length := by omega
    have hg3 : g * 4 + 3 < bits.length := by omega
    have i0 := qamSymbolAt_I sqrt bits g 0 (Or.inl rfl) hg1
    have i2 := qamSymbolAt_I sqrt bits g 2 (Or.inr rfl) hg1
    have q1 := qamSymbolAt_Q sqrt bits g 1 (Or.inl rfl) hg3
    have q3 := qamSymbolAt_Q sqrt bits g 3 (Or.inr rfl) hg3
    rw [Nat.add_zero] at i0
    rw [e, getD_map_range _ _ _ _ (by omega), getD_map_range _ _ _ _ (by omega),
      getD_map_range _ _ _ _ (by omega), getD_map_range _ _ _ _ (by omega), i0, i2, q1, q3,
      List.getD_eq_getElem _ _ (by omega : g * 4 < bits.length),
      List.getD_eq_getElem _ _ hg1,
      List.getD_eq_getElem _ _ (by omega : g * 4 + 2 < bits.length),
      List.getD_eq_getElem _ _ hg3,
      qamLevel_eq_levelOf _ _ (hbits _ (List.getElem_mem _)) (hbits _ (List.getElem_mem _)),
      qamLevel_eq_levelOf _ _ (hbits _ (List.getElem_mem _)) (hbits _ (List.getElem_mem _))]
    exact ⟨rfl, rfl, rfl, rfl⟩
  · intro other hl ht
    rw [← hm]
    simp only [modulate_none]
    exact modulateQAM16_congr sqrt bits other (by omega) hlen hl ht

/-- C14 at the bits `[1, 0, 0, 1, 1]`, over the reals. -/
theorem qam16_modulate_layout_witness :
    (∀ b ∈ ([1, 0, 0, 1, 1] : List Int), b = 0 ∨ b = 1) ∧
    4 ≤ ([1, 0, 0, 1, 1] : List Int).length ∧ ([1, 0, 0, 1, 1] : List Int).length < SIZE_MOD ∧
    ∃ symbols, modulate Real.sqrt .QAM16 .NONE [1, 0, 0, 1, 1] = .ok symbols ∧
      symbols.length = 4 * (([1, 0, 0, 1, 1] : List Int).length / 4) ∧
      (∀ g, g < ([1, 0, 0, 1, 1] : List Int).length / 4 →
        symbols.getD (4 * g) 0 =
          levelOf (([1, 0, 0, 1, 1] : List Int).getD (4 * g) 0)
            (([1, 0, 0, 1, 1] : List Int).getD (4 * g + 1) 0) / Real.sqrt 10 ∧
        symbols.getD (4 * g + 1) 0 =
          levelOf (([1, 0, 0, 1, 1] : List Int).getD (4 * g + 2) 0)
            (([1, 0, 0, 1, 1] : List Int).getD (4 * g + 3) 0) / Real.sqrt 10 ∧
        symbols.getD (4 * g + 2) 0 = symbols.getD (4 * g) 0 ∧
        symbols.getD (4 * g + 3) 0 = symbols.getD (4 * g + 1) 0) ∧
      (∀ other : List Int, other.length = ([1, 0, 0, 1, 1] : List Int).length →
        other.take (4 * (([1, 0, 0, 1, 1] : List Int).length / 4)) =
          ([1, 0, 0, 1, 1] : List Int).take (4 * (([1, 0, 0, 1, 1] : List Int).length / 4)) →
        modulate Real.sqrt .QAM16 .NONE other = .ok symbols) :=
  ⟨by decide, by decide, by decide,
   qam16_modulate_layout Real.sqrt [1, 0, 0, 1, 1] (by decide) (by decide) (by decide)⟩

/-- C15: for `ChannelModel(QPSK, NONE)` and every non-empty vector of `n` bits in `{0, 1}`,
`modulate` returns `2 * floor(n/2)` values, entry `2k` being `+sqrt(2)/2` if `bits[2k] = 1`
and `-sqrt(2)/2` otherwise, and entry `2k+1` likewise for `bits[2k+1]`; a trailing unpaired
bit does not affect the output. -/
theorem qpsk_modulate_layout (sqrt : K → K) (bits : List Int)
    (hbits : ∀ b ∈ bits, b = 0 ∨ b = 1) (hpos : 0 < bits.length)
    (hlen : bits.length < SIZE_MOD) :
    ∃ symbols, modulate sqrt .QPSK .NONE bits = .ok symbols ∧
      symbols.length = 2 * (bits.length / 2) ∧
      (∀ k, k < bits.length / 2 →
        symbols.getD (2 * k) 0 =
          (if bits.getD (2 * k) 0 = 1 then sqrt 2 / 2 else -(sqrt 2 / 2)) ∧
        symbols.getD (2 * k + 1) 0 =
          (if bits.getD (2 * k + 1) 0 = 1 then sqrt 2 / 2 else -(sqrt 2 / 2))) ∧
      (∀ other : List Int, other.length = bits.length →
        other.take (2 * (bits.length / 2)) = bits.take (2 * (bits.length / 2)) →
        modulate sqrt .QPSK .NONE other = .ok symbols) := by
  have hm : modulate sqrt .QPSK .NONE bits =
      .ok ((List.range (bits.length / 2 * 2)).map
        (fun j => if bits.getD j 0 ≠ 0 then sqrt 2 / 2 else -(sqrt 2 / 2))) := by
    simp only [modulate_none]
    rw [modulateQPSK_eq sqrt bits hpos hlen, fillTo_all]
  have hb : ∀ j, (if bits.getD j 0 ≠ 0 then sqrt 2 / 2 else -(sqrt 2 / 2)) =
      (if bits.getD j 0 = 1 then sqrt 2 / 2 else -(sqrt 2 / 2)) := by
    intro j
    rcases getD_zero_or_one bits hbits j with h | h <;> rw [h] <;> simp
  refine ⟨_, hm, ?_, ?_, ?_⟩
  · simp
    omega
  · intro k hk
    rw [getD_map_range _ _ _ _ (by omega), getD_map_range _ _ _ _ (by omega), hb, hb]
    exact ⟨rfl, rfl⟩
  · intro other hl ht
    rw [← hm]
    simp only [modulate_none]
    exact modulateQPSK_congr sqrt bits other hpos hlen hl ht

/-- C15 at the bits `[1, 0, 1]`, over the reals. -/
theorem qpsk_modulate_layout_witness :
    (∀ b ∈ ([1, 0, 1] : List Int), b = 0 ∨ b = 1) ∧ 0 < ([1, 0, 1] : List Int).length ∧
    ([1, 0, 1] : List Int).length < SIZE_MOD ∧
    ∃ symbols, modulate Real.sqrt .QPSK .NONE [1, 0, 1] = .ok symbols ∧
      symbols.length = 2 * (([1, 0, 1] : List Int).length / 2) ∧
      (∀ k, k < ([1, 0, 1] : List Int).length / 2 →
        symbols.getD (2 * k) 0 =
          (if ([1, 0, 1] : List Int).getD (2 * k) 0 = 1 then Real.sqrt 2 / 2
            else -(Real.sqrt 2 / 2)) ∧
        symbols.getD (2 * k + 1) 0 =
          (if ([1, 0, 1] : List Int).getD (2 * k + 1) 0 = 1 then Real.sqrt 2 / 2
            else -(Real.sqrt 2 / 2))) ∧
      (∀ other : List Int, other.length = ([1, 0, 1] : List Int).length →
        other.take (2 * (([1, 0, 1] : List Int).length / 2)) =
          ([1, 0, 1] : List Int).take (2 * (([1, 0, 1] : List Int).length / 2)) →
        modulate Real.sqrt .QPSK .NONE other = .ok symbols) :=
  ⟨by decide, by decide, by decide,
   qpsk_modulate_layout Real.sqrt [1, 0, 1] (by decide) (by decide) (by decide)⟩

/-- C16: the 16-QAM constellation has unit average power: the average over the 16 groups of
four bits of `I^2 + Q^2`, for the pair `(I, Q)` that `modulateQAM16` produces, is exactly 1
(`std::sqrt(10.0)` taken as the exact square root of 10). -/
theorem qam16_unit_average_power (sqrt : K → K) (hs : sqrt 10 * sqrt 10 = 10) :
    ((allGroups.map (fun g => pairPower (modulateQAM16 sqrt g))).sum) / 16 = 1 := by
  simp only [allGroups, List.map_cons, List.map_nil, pairPower_group sqrt hs, List.sum_cons,
    List.sum_nil]
  norm_num [qamLevel]

/-- C16 over the reals, with the real square root. -/
theorem qam16_unit_average_power_witness :
    Real.sqrt 10 * Real.sqrt 10 = 10 ∧
    ((allGroups.map (fun g => pairPower (modulateQAM16 Real.sqrt g))).sum) / 16 = 1 :=
  ⟨Real.mul_self_sqrt (by norm_num),
   qam16_unit_average_power Real.sqrt (Real.mul_self_sqrt (by norm_num))⟩

/-- C17: `computeSNR` and `computePhasorStatistics` each fail with `std::invalid_argument`
exactly when their two arrays differ in length; for equal lengths each returns a result. -/
theorem length_mismatch_invalid_argument (log10 sqrt : K → K) (normal : Nat → K → Nat → K)
    (original noisy : List K) (seed : Nat) (hlo : original.length < SIZE_MOD)
    (hln : noisy.length < SIZE_MOD) :
    (computeSNR log10 original noisy = .error .invalidArgument ↔
      original.length ≠ noisy.length) ∧
    (computePhasorStatistics sqrt normal noisy original seed = .error .invalidArgument ↔
      noisy.length ≠ original.length) ∧
    (original.length = noisy.length →
      (∃ v, computeSNR log10 original noisy = .ok v) ∧
      (∃ f, computePhasorStatistics sqrt normal noisy original seed = .ok f)) := by
  refine ⟨⟨?_, computeSNR_mismatch log10 original noisy⟩,
    ⟨?_, computePhasorStatistics_mismatch sqrt normal noisy original seed⟩, ?_⟩
  · intro h heq
    rw [computeSNR_eq log10 original noisy heq hlo] at h
    cases h
  · intro h heq
    rw [computePhasorStatistics_eq sqrt normal noisy original seed heq hln] at h
    cases h
  · intro heq
    exact ⟨⟨_, computeSNR_eq log10 original noisy heq hlo⟩,
      ⟨_, computePhasorStatistics_eq sqrt normal noisy original seed heq.symm hln⟩⟩

/-- C17 at the arrays `[1, 2]` and `[1, 2, 3]`, over the reals. -/
theorem length_mismatch_invalid_argument_witness :
    ([1, 2] : List ℝ).length < SIZE_MOD ∧ ([1, 2, 3] : List ℝ).length < SIZE_MOD ∧
    (computeSNR (Real.logb 10) ([1, 2] : List ℝ) [1, 2, 3] = .error .invalidArgument ↔
      ([1, 2] : List ℝ).length ≠ ([1, 2, 3] : List ℝ).length) ∧
    (computePhasorStatistics Real.sqrt (fun _ _ _ => 0) ([1, 2, 3] : List ℝ) [1, 2] 0
        = .error .invalidArgument ↔
      ([1, 2, 3] : List ℝ).length ≠ ([1, 2] : List ℝ).length) ∧
    (([1, 2] : List ℝ).length = ([1, 2, 3] : List ℝ).length →
      (∃ v, computeSNR (Real.logb 10) ([1, 2] : List ℝ) [1, 2, 3] = .ok v) ∧
      (∃ f, computePhasorStatistics Real.sqrt (fun _ _ _ => 0) ([1, 2, 3] : List ℝ) [1, 2] 0
        = .ok f)) :=
  ⟨by simp [SIZE_MOD], by simp [SIZE_MOD],
   length_mismatch_invalid_argument (Real.logb 10) Real.sqrt (fun _ _ _ => 0) [1, 2] [1, 2, 3] 0
     (by simp [SIZE_MOD]) (by simp [SIZE_MOD])⟩

/-- C18: for equal-length, non-empty arrays `computeSNR` returns `+infinity` exactly when
the mean of the squared differences `(noisy[i] - original[i])^2` is 0, which is exactly when
`noisy` equals `original`; otherwise it returns
`10 * log10(meanSquare(original) / meanSquare(noisy - original))` (exact arithmetic). -/
theorem computeSNR_value (log10 : K → K) (original noisy : List K)
    (heq : original.length = noisy.length) (hpos : 0 < original.length)
    (hlen : original.length < SIZE_MOD) :
    (computeSNR log10 original noisy = .ok .infinity ↔
      meanSquare (differences noisy original) = 0) ∧
    (meanSquare (differences noisy original) = 0 ↔ noisy = original) ∧
    (noisy ≠ original → computeSNR log10 original noisy =
      .ok (.finite (10 * log10 (meanSquare original /
        meanSquare (differences noisy original))))) := by
  have hz : meanSquare (differences noisy original) = 0 ↔ noisy = original := by
    rw [meanSquare_eq_zero_iff _ (by rw [length_differences _ _ heq.symm]; omega),
      differences_zero_iff noisy original heq.symm]
  refine ⟨?_, hz, ?_⟩
  · rw [computeSNR_eq log10 original noisy heq hlen]
    by_cases h : meanSquare (differences noisy original) = 0
    · simp [h]
    · rw [if_neg h]
      constructor
      · intro hc
        cases hc
      · intro hc
        exact absurd hc h
  · intro hne
    rw [computeSNR_eq log10 original noisy heq hlen, if_neg (fun h => hne (hz.1 h))]

/-- C18 at `original = [1, 2]`, `noisy = [1, 3]`, over the reals. -/
theorem computeSNR_value_witness :
    ([1, 2] : List ℝ).length = ([1, 3] : List ℝ).length ∧ 0 < ([1, 2] : List ℝ).length ∧
    ([1, 2] : List ℝ).length < SIZE_MOD ∧
    (computeSNR (Real.logb 10) ([1, 2] : List ℝ) [1, 3] = .ok .infinity ↔
      meanSquare (differences ([1, 3] : List ℝ) [1, 2]) = 0) ∧
    (meanSquare (differences ([1, 3] : List ℝ) [1, 2]) = 0 ↔
      ([1, 3] : List ℝ) = [1, 2]) ∧
    (([1, 3] : List ℝ) ≠ [1, 2] → computeSNR (Real.logb 10) ([1, 2] : List ℝ) [1, 3] =
      .ok (.finite (10 * Real.logb 10 (meanSquare ([1, 2] : List ℝ) /
        meanSquare (differences ([1, 3] : List ℝ) [1, 2]))))) :=
  ⟨rfl, by simp, by simp [SIZE_MOD],
   computeSNR_value (Real.logb 10) [1, 2] [1, 3] rfl (by simp) (by simp [SIZE_MOD])⟩

/-- C19 (counterexample): the run of `addNoise` with `targetSNRdB = 10` and seed 0 in the
arithmetic of `double`. The waveforms `[1]` and `[-1]` have the same length and the same
computed mean of squares, and the same value `0x1.71b585985fdcbp-3` is added to both; the
rounded sums are `0x1.2e36b0b30bfb9p+0` and `-0x1.a3929e99e808dp-1`, so the differences
`noisy[0] - input[0]` are `0.18052200671443885` and `0.18052200671443897`. -/
theorem addNoise_differences_differ :
    ([1] : List ℚ).length = ([-1] : List ℚ).length ∧
    signalPowerOn binary64 ([1] : List ℚ) = signalPowerOn binary64 ([-1] : List ℚ) ∧
    (addNoiseOn binary64 runPow runSqrt runLog runCos runPi runUniform 10 0 [1]).1 =
      .ok [5316598469541817 / 2 ^ 52] ∧
    (addNoiseOn binary64 runPow runSqrt runLog runCos runPi runUniform 10 0 [-1]).1 =
      .ok [-7381201570398349 / 2 ^ 53] ∧
    (5316598469541817 / 2 ^ 52 : ℚ) - 1 ≠ -7381201570398349 / 2 ^ 53 - (-1) := by
  refine ⟨rfl, ?_, ?_, ?_, ?_⟩
  · rw [run_power 1 (by norm_num), run_power (-1) (by norm_num)]
  · rw [run_output 1 (by norm_num), run_add_one]
  · rw [run_output (-1) (by norm_num), run_add_neg_one]
  · norm_num

/-- C19 (amended): for two waveforms of equal length and equal computed mean-square power,
the same `targetSNRdB` and the same seed, `addNoise` injects the same values: output sample
`i` is `input[i] + n[i]` (one addition of `double`) with the same `n[i]` for both
waveforms. In exact arithmetic the sequences `noisy[i] - input[i]` are therefore identical.
The generator is created inside the call, so the output is a function of the arguments
alone: every call on the same input returns the same output. -/
theorem addNoise_noise_determined (ops : DoubleOps K) (pow : K → K → K) (sqrt log cos : K → K)
    (G_PI : K) (uniform : Nat → Nat → K) (targetSNRdB : K) (seed : Nat) (x y : List K)
    (hxy : x.length = y.length) (hp : signalPowerOn ops x = signalPowerOn ops y)
    (hlen : x.length < SIZE_MOD) :
    ∃ nx ny,
      (addNoiseOn ops pow sqrt log cos G_PI uniform targetSNRdB seed x).1 = .ok nx ∧
      (addNoiseOn ops pow sqrt log cos G_PI uniform targetSNRdB seed y).1 = .ok ny ∧
      nx.length = x.length ∧ ny.length = y.length ∧
      (∀ i, i < x.length →
        nx.getD i 0 = ops.add (x.getD i 0) (injectedOn ops pow sqrt log cos G_PI uniform
          targetSNRdB seed (signalPowerOn ops x) i) ∧
        ny.getD i 0 = ops.add (y.getD i 0) (injectedOn ops pow sqrt log cos G_PI uniform
          targetSNRdB seed (signalPowerOn ops x) i)) ∧
      ((∀ a b, ops.add a b = a + b) →
        ∀ i, i < x.length → nx.getD i 0 - x.getD i 0 = ny.getD i 0 - y.getD i 0) ∧
      (∀ out, (addNoiseOn ops pow sqrt log cos G_PI uniform targetSNRdB seed x).1 = .ok out →
        out = nx) := by
  have hx := addNoiseOn_eq ops pow sqrt log cos G_PI uniform targetSNRdB seed x hlen
  have hy := addNoiseOn_eq ops pow sqrt log cos G_PI uniform targetSNRdB seed y (hxy ▸ hlen)
  have hget : ∀ i, i < x.length →
      ((List.range x.length).map (fun i => ops.add (x.getD i 0)
        (injectedOn ops pow sqrt log cos G_PI uniform targetSNRdB seed
          (signalPowerOn ops x) i))).getD i 0 =
        ops.add (x.getD i 0) (injectedOn ops pow sqrt log cos G_PI uniform targetSNRdB seed
          (signalPowerOn ops x) i) ∧
      ((List.range y.length).map (fun i => ops.add (y.getD i 0)
        (injectedOn ops pow sqrt log cos G_PI uniform targetSNRdB seed
          (signalPowerOn ops y) i))).getD i 0 =
        ops.add (y.getD i 0) (injectedOn ops pow sqrt log cos G_PI uniform targetSNRdB seed
          (signalPowerOn ops x) i) := by
    intro i hi
    rw [getD_map_range _ _ _ _ hi, getD_map_range _ _ _ _ (hxy ▸ hi), hp]
    exact ⟨rfl, rfl⟩
  refine ⟨_, _, by rw [hx], by rw [hy], by simp, by simp, hget, ?_, ?_⟩
  · intro hadd i hi
    rw [(hget i hi).1, (hget i hi).2, hadd, hadd]
    ring
  · intro out hout
    rw [hx] at hout
    exact (Except.ok.inj hout).symm

/-- C19 (amended) at the waveforms `[1]` and `[-1]`, `targetSNRdB = 10` and seed 0, in the
arithmetic of `double`. -/
theorem addNoise_noise_determined_witness :
    ([1] : List ℚ).length = ([-1] : List ℚ).length ∧
    signalPowerOn binary64 ([1] : List ℚ) = signalPowerOn binary64 ([-1] : List ℚ) ∧
    ([1] : List ℚ).length < SIZE_MOD ∧
    ∃ nx ny,
      (addNoiseOn binary64 runPow runSqrt runLog runCos runPi runUniform 10 0 [1]).1
        = .ok nx ∧
      (addNoiseOn binary64 runPow runSqrt runLog runCos runPi runUniform 10 0 [-1]).1
        = .ok ny ∧
      nx.length = ([1] : List ℚ).length ∧ ny.length = ([-1] : List ℚ).length ∧
      (∀ i, i < ([1] : List ℚ).length →
        nx.getD i 0 = binary64.add (([1] : List ℚ).getD i 0) (injectedOn binary64 runPow
          runSqrt runLog runCos runPi runUniform 10 0 (signalPowerOn binary64 [1]) i) ∧
        ny.getD i 0 = binary64.add (([-1] : List ℚ).getD i 0) (injectedOn binary64 runPow
          runSqrt runLog runCos runPi runUniform 10 0 (signalPowerOn binary64 [1]) i)) ∧
      ((∀ a b, binary64.add a b = a + b) →
        ∀ i, i < ([1] : List ℚ).length →
          nx.getD i 0 - ([1] : List ℚ).getD i 0 = ny.getD i 0 - ([-1] : List ℚ).getD i 0) ∧
      (∀ out,
        (addNoiseOn binary64 runPow runSqrt runLog runCos runPi runUniform 10 0 [1]).1
          = .ok out → out = nx) :=
  ⟨rfl, by simp [signalPowerOn, binary64, sizeDivisor], by simp [SIZE_MOD],
   addNoise_noise_determined binary64 runPow runSqrt runLog runCos runPi runUniform 10 0
     [1] [-1] rfl (by simp [signalPowerOn, binary64, sizeDivisor]) (by simp [SIZE_MOD])⟩

/-- C20: for every waveform `x` of length `N`, `addNoise` returns `N` samples with
`out[i] = x[i] + sqrt(P / 10^(targetSNRdB/10)) * sqrt(-2*ln(u[2i])) * cos(2*pi*u[2i+1])`,
where `P` is the mean of the `x[j]^2` and `u` is the stream of the generator seeded with the
seed: sample `i` uses the draws `2i` and `2i+1`. -/
theorem addNoise_samples (pow : K → K → K) (sqrt log cos : K → K) (G_PI : K)
    (uniform : Nat → Nat → K) (targetSNRdB : K) (seed : Nat) (x : List K)
    (hlen : x.length < SIZE_MOD) :
    ∃ out, addNoise pow sqrt log cos G_PI uniform targetSNRdB seed x = .ok out ∧
      out.length = x.length ∧
      ∀ i, i < x.length → out.getD i 0 =
        x.getD i 0 + sqrt (meanSquare x / pow 10 (targetSNRdB / 10)) *
          sqrt (-2 * log (uniform seed (2 * i))) * cos (2 * G_PI * uniform seed (2 * i + 1)) := by
  refine ⟨_, addNoise_eq pow sqrt log cos G_PI uniform targetSNRdB seed x hlen, ?_, ?_⟩
  · simp
  · intro i hi
    rw [getD_map_range _ _ _ _ hi]
    simp only [noiseAt, adjustNoisePower_eq]
    ring

/-- C20 at the waveform `[1, 2, 3]`, over the reals. -/
theorem addNoise_samples_witness :
    ([1, 2, 3] : List ℝ).length < SIZE_MOD ∧
    ∃ out,
      addNoise Real.rpow Real.sqrt Real.log Real.cos Real.pi (fun _ _ => 1 / 2) 10 0 [1, 2, 3]
        = .ok out ∧
      out.length = ([1, 2, 3] : List ℝ).length ∧
      ∀ i, i < ([1, 2, 3] : List ℝ).length → out.getD i 0 =
        ([1, 2, 3] : List ℝ).getD i 0 +
          Real.sqrt (meanSquare ([1, 2, 3] : List ℝ) / Real.rpow 10 (10 / 10)) *
          Real.sqrt (-2 * Real.log ((fun _ _ => 1 / 2 : Nat → Nat → ℝ) 0 (2 * i))) *
          Real.cos (2 * Real.pi * (fun _ _ => 1 / 2 : Nat → Nat → ℝ) 0 (2 * i + 1)) :=
  ⟨by simp [SIZE_MOD],
   addNoise_samples Real.rpow Real.sqrt Real.log Real.cos Real.pi (fun _ _ => 1 / 2) 10 0
     [1, 2, 3] (by simp [SIZE_MOD])⟩

/-- C21: for equal-length, non-empty inputs the three fractions returned by
`computePhasorStatistics` satisfy `0 <= f1 <= f2 <= f3 <= 1`, whatever values the random
generator produces (`std::sqrt` returns no negative value, so `sigma >= 0`). The counters
are `int`; a count is at most the size, so for sizes up to `INT_MAX = 2147483647` no
counter leaves the range of `int`. -/
theorem phasor_fractions_ordered (sqrt : K → K) (hsqrt : ∀ x, 0 ≤ sqrt x)
    (normal : Nat → K → Nat → K) (noisy original : List K) (seed : Nat)
    (heq : noisy.length = original.length) (hpos : 0 < noisy.length)
    (hint : noisy.length ≤ 2147483647) :
    ∃ f1 f2 f3, computePhasorStatistics sqrt normal noisy original seed = .ok (f1, f2, f3) ∧
      0 ≤ f1 ∧ f1 ≤ f2 ∧ f2 ≤ f3 ∧ f3 ≤ 1 := by
  have hlen : noisy.length < SIZE_MOD :=
    lt_of_le_of_lt hint (by decide)
  obtain ⟨h0, h1, h2, h3⟩ := phasorCounts_order sqrt
    (sqrt (meanSquare (differences noisy original) / 2)) (hsqrt _)
    ((List.range noisy.length).map (fun i =>
      normal seed (sqrt (meanSquare (differences noisy original) / 2)) (2 * i)))
    ((List.range noisy.length).map (fun i =>
      normal seed (sqrt (meanSquare (differences noisy original) / 2)) (2 * i + 1)))
    noisy.length
  have hn : (0 : K) < (noisy.length : K) := Nat.cast_pos.2 hpos
  refine ⟨_, _, _, computePhasorStatistics_eq sqrt normal noisy original seed heq hlen,
    ?_, ?_, ?_, ?_⟩
  · exact div_nonneg (Int.cast_nonneg.2 h0) hn.le
  · exact div_le_div_of_nonneg_right (Int.cast_le.2 h1) hn.le
  · exact div_le_div_of_nonneg_right (Int.cast_le.2 h2) hn.le
  · rw [div_le_one hn]
    have : ((phasorCounts sqrt (sqrt (meanSquare (differences noisy original) / 2))
        ((List.range noisy.length).map (fun i =>
          normal seed (sqrt (meanSquare (differences noisy original) / 2)) (2 * i)))
        ((List.range noisy.length).map (fun i =>
          normal seed (sqrt (meanSquare (differences noisy original) / 2)) (2 * i + 1)))
        noisy.length).2.2 : K) ≤ ((noisy.length : Int) : K) := Int.cast_le.2 h3
    simpa using this

/-- C21 at `noisy = [1, 3]`, `original = [1, 2]` and a generator that returns 1, over the
reals. -/
theorem phasor_fractions_ordered_witness :
    (∀ x, 0 ≤ Real.sqrt x) ∧ ([1, 3] : List ℝ).length = ([1, 2] : List ℝ).length ∧
    0 < ([1, 3] : List ℝ).length ∧ ([1, 3] : List ℝ).length ≤ 2147483647 ∧
    ∃ f1 f2 f3,
      computePhasorStatistics Real.sqrt (fun _ _ _ => 1) ([1, 3] : List ℝ) [1, 2] 0
        = .ok (f1, f2, f3) ∧
      0 ≤ f1 ∧ f1 ≤ f2 ∧ f2 ≤ f3 ∧ f3 ≤ 1 :=
  ⟨Real.sqrt_nonneg, rfl, by simp, by simp,
   phasor_fractions_ordered Real.sqrt Real.sqrt_nonneg (fun _ _ _ => 1) [1, 3] [1, 2] 0 rfl
     (by simp) (by simp)⟩

/-- C22: `computeZeroCrossings` returns
`frequency * sqrt((L + 1 + bandwidth^2 / (12 * frequency^2)) / (L + 1))` with
`L = 10^(snrDb/10)` and does not read the samples: two arrays give the same result. -/
theorem computeZeroCrossings_closed_form (pow : K → K → K) (sqrt : K → K)
    (noisy1 noisy2 : List K) (frequency bandwidth snrDb : K) :
    computeZeroCrossings pow sqrt noisy1 frequency bandwidth snrDb =
      frequency * sqrt ((pow 10 (snrDb / 10) + 1 + bandwidth ^ 2 / (12 * frequency ^ 2)) /
        (pow 10 (snrDb / 10) + 1)) ∧
    computeZeroCrossings pow sqrt noisy1 frequency bandwidth snrDb =
      computeZeroCrossings pow sqrt noisy2 frequency bandwidth snrDb := by
  have e1 : bandwidth * bandwidth = bandwidth ^ 2 := by ring
  have e2 : 12 * frequency * frequency = 12 * frequency ^ 2 := by ring
  constructor
  · simp only [computeZeroCrossings, e1, e2]
  · simp only [computeZeroCrossings]

/-- C23: `generateSineWave` returns exactly `numSamples` samples with
`sample[i] = amplitude * sin(2*pi*frequency*i)`; `sample[0] = 0` whenever
`numSamples >= 1` (`std::sin(0.0)` is 0). -/
theorem generateSineWave_samples (sin : K → K) (hsin : sin 0 = 0) (PI : K) (numSamples : Nat)
    (amplitude frequency : K) (hlen : numSamples < SIZE_MOD) :
    ∃ signal, generateSineWave sin PI numSamples amplitude frequency = .ok signal ∧
      signal.length = numSamples ∧
      (∀ i, i < numSamples →
        signal.getD i 0 = amplitude * sin (2 * PI * frequency * (i : K))) ∧
      (1 ≤ numSamples → signal.getD 0 0 = 0) := by
  refine ⟨_, generateSineWave_eq sin PI numSamples amplitude frequency hlen, ?_, ?_, ?_⟩
  · simp
  · intro i hi
    rw [getD_map_range _ _ _ _ hi]
  · intro h1
    rw [getD_map_range _ _ _ _ (by omega)]
    simp [hsin]

/-- C23 at `numSamples = 1000`, amplitude 1 and frequency 0.05, over the reals. -/
theorem generateSineWave_samples_witness :
    Real.sin 0 = 0 ∧ 1000 < SIZE_MOD ∧
    ∃ signal, generateSineWave Real.sin Real.pi 1000 1 (1 / 20) = .ok signal ∧
      signal.length = 1000 ∧
      (∀ i, i < 1000 →
        signal.getD i 0 = 1 * Real.sin (2 * Real.pi * (1 / 20) * (i : ℝ))) ∧
      (1 ≤ 1000 → signal.getD 0 0 = 0) :=
  ⟨Real.sin_zero, by decide,
   generateSineWave_samples Real.sin Real.sin_zero Real.pi 1000 1 (1 / 20) (by decide)⟩

/-- C24: for `ChannelModel(BPSK, Convolutional)` with no noise and every bit sequence over
`{0, 1}` of length `n`, `demodulate(modulate(bits))` has length `n` and is the input delayed
by two positions: element `k` is `bits[k-2]` for `k >= 2` and 0 for `k < 2`. -/
theorem bpsk_convolutional_roundtrip_delay (sqrt : K → K) (bits : List Int)
    (hbits : ∀ b ∈ bits, b = 0 ∨ b = 1) (hlen : 2 * bits.length < SIZE_MOD) :
    ∃ out, (modulate sqrt .BPSK .CONVOLUTIONAL bits >>= demodulate sqrt .BPSK .CONVOLUTIONAL)
        = .ok out ∧
      out.length = bits.length ∧
      ∀ k, k < bits.length → out.getD k 0 = if 2 ≤ k then bits.getD (k - 2) 0 else 0 := by
  refine ⟨_, bpsk_convolutional_delay sqrt bits hbits hlen, ?_, ?_⟩
  · simp
  · intro k hk
    rw [getD_map_range _ _ _ _ hk]
    rfl

/-- C24 at the bits `[1, 0, 1, 1]`, over the reals. -/
theorem bpsk_convolutional_roundtrip_delay_witness :
    (∀ b ∈ ([1, 0, 1, 1] : List Int), b = 0 ∨ b = 1) ∧
    2 * ([1, 0, 1, 1] : List Int).length < SIZE_MOD ∧
    ∃ out, (modulate Real.sqrt .BPSK .CONVOLUTIONAL [1, 0, 1, 1] >>=
        demodulate Real.sqrt .BPSK .CONVOLUTIONAL) = .ok out ∧
      out.length = ([1, 0, 1, 1] : List Int).length ∧
      ∀ k, k < ([1, 0, 1, 1] : List Int).length →
        out.getD k 0 = if 2 ≤ k then ([1, 0, 1, 1] : List Int).getD (k - 2) 0 else 0 :=
  ⟨by decide, by decide,
   bpsk_convolutional_roundtrip_delay Real.sqrt [1, 0, 1, 1] (by decide) (by decide)⟩

/-- C25: `computeZeroCrossingPoints` returns a strictly increasing list of indices, each in
`[1, len-1]`, that contains `i` exactly when `(noisy[i-1] < 0 and noisy[i] >= 0)` or
`(noisy[i-1] > 0 and noisy[i] <= 0)`; it is empty for inputs of length 0 or 1, and an index
whose predecessor sample is exactly 0 is never recorded. -/
theorem zeroCrossing_points_shape (noisy : List K) (hlen : noisy.length < SIZE_MOD) :
    ∃ pts, computeZeroCrossingPoints noisy = .ok pts ∧
      pts.Pairwise (fun i j => i < j) ∧
      (∀ i ∈ pts, 1 ≤ i ∧ i ≤ noisy.length - 1) ∧
      (∀ i, i ∈ pts ↔ (1 ≤ i ∧ i < noisy.length ∧
        ((noisy.getD (i - 1) 0 < 0 ∧ noisy.getD i 0 ≥ 0) ∨
          (noisy.getD (i - 1) 0 > 0 ∧ noisy.getD i 0 ≤ 0)))) ∧
      (noisy.length ≤ 1 → pts = []) ∧
      (∀ i ∈ pts, noisy.getD (i - 1) 0 ≠ 0) := by
  refine ⟨_, computeZeroCrossingPoints_eq noisy hlen, ?_, ?_, mem_crossings_iff noisy, ?_, ?_⟩
  · exact List.Pairwise.filter _ (List.pairwise_lt_range' 1 (noisy.length - 1))
  · intro i hi
    obtain ⟨h1, h2, _⟩ := (mem_crossings_iff noisy i).1 hi
    exact ⟨h1, by omega⟩
  · intro h
    have : noisy.length - 1 = 0 := by omega
    rw [this]
    rfl
  · intro i hi
    obtain ⟨_, _, h3⟩ := (mem_crossings_iff noisy i).1 hi
    rcases h3 with ⟨h, _⟩ | ⟨h, _⟩
    · exact ne_of_lt h
    · exact ne_of_gt h

/-- C25 at the samples `[1, -1, 0, 2]`, over the reals. -/
theorem zeroCrossing_points_shape_witness :
    ([1, -1, 0, 2] : List ℝ).length < SIZE_MOD ∧
    ∃ pts, computeZeroCrossingPoints ([1, -1, 0, 2] : List ℝ) = .ok pts ∧
      pts.Pairwise (fun i j => i < j) ∧
      (∀ i ∈ pts, 1 ≤ i ∧ i ≤ ([1, -1, 0, 2] : List ℝ).length - 1) ∧
      (∀ i, i ∈ pts ↔ (1 ≤ i ∧ i < ([1, -1, 0, 2] : List ℝ).length ∧
        ((([1, -1, 0, 2] : List ℝ).getD (i - 1) 0 < 0 ∧ ([1, -1, 0, 2] : List ℝ).getD i 0 ≥ 0) ∨
          (([1, -1, 0, 2] : List ℝ).getD (i - 1) 0 > 0 ∧
            ([1, -1, 0, 2] : List ℝ).getD i 0 ≤ 0)))) ∧
      (([1, -1, 0, 2] : List ℝ).length ≤ 1 → pts = []) ∧
      (∀ i ∈ pts, ([1, -1, 0, 2] : List ℝ).getD (i - 1) 0 ≠ 0) :=
  ⟨by simp [SIZE_MOD], zeroCrossing_points_shape ([1, -1, 0, 2] : List ℝ) (by simp [SIZE_MOD])⟩

/-- C26: the convolutional encoder is linear over GF(2): for two bit sequences `a`, `b` over
`{0, 1}` of equal length, `encode(a xor b)` is the element-wise xor of `encode(a)` and
`encode(b)`, and the encoding of an all-zero sequence is all zeros. -/
theorem encodeConvolutional_linear (a b : List Int) (ha : ∀ x ∈ a, x = 0 ∨ x = 1)
    (hb : ∀ x ∈ b, x = 0 ∨ x = 1) (hab : a.length = b.length) (hlen : a.length < SIZE_MOD) :
    (∃ ea eb, encodeConvolutional a = .ok ea ∧ encodeConvolutional b = .ok eb ∧
      encodeConvolutional (List.zipWith Int.xor a b) = .ok (List.zipWith Int.xor ea eb)) ∧
    encodeConvolutional (List.replicate a.length 0) = .ok (List.replicate (2 * a.length) 0) := by
  have hlx : (List.zipWith Int.xor a b).length = a.length := by
    rw [List.length_zipWith, hab, Nat.min_self]
  constructor
  · refine ⟨_, _, encodeConvolutional_eq a hlen, encodeConvolutional_eq b (hab ▸ hlen), ?_⟩
    rw [encodeConvolutional_eq _ (by rw [hlx]; exact hlen), hlx, encodeTrace_xor a b ha hb hab,
      ← hab]
  · rw [encodeConvolutional_eq _ (by rw [List.length_replicate]; exact hlen),
      List.length_replicate, encodeTrace_zeros]

/-- C26 at `a = [1, 0, 1, 1]` and `b = [0, 1, 1, 0]`. -/
theorem encodeConvolutional_linear_witness :
    (∀ x ∈ ([1, 0, 1, 1] : List Int), x = 0 ∨ x = 1) ∧
    (∀ x ∈ ([0, 1, 1, 0] : List Int), x = 0 ∨ x = 1) ∧
    ([1, 0, 1, 1] : List Int).length = ([0, 1, 1, 0] : List Int).length ∧
    ([1, 0, 1, 1] : List Int).length < SIZE_MOD ∧
    (∃ ea eb, encodeConvolutional [1, 0, 1, 1] = .ok ea ∧
      encodeConvolutional [0, 1, 1, 0] = .ok eb ∧
      encodeConvolutional (List.zipWith Int.xor [1, 0, 1, 1] [0, 1, 1, 0])
        = .ok (List.zipWith Int.xor ea eb)) ∧
    encodeConvolutional (List.replicate ([1, 0, 1, 1] : List Int).length 0)
      = .ok (List.replicate (2 * ([1, 0, 1, 1] : List Int).length) 0) :=
  ⟨by decide, by decide, rfl, by decide,
   encodeConvolutional_linear [1, 0, 1, 1] [0, 1, 1, 0] (by decide) (by decide) rfl
     (by decide)⟩

/-- C27: the measured SNR of the output of `addNoise` (version 001) deviates from the target
only through the sample power of the normal draws: for every waveform `x` with non-zero
power (so `x` is not empty), when not all Box-Muller values `z[i]` are 0,
`computeSNR(x, addNoise(x)) = targetSNRdB - 10 * log10(mean of z[i]^2)` in exact real
arithmetic; a waveform `y` of the same length and non-zero power gives the same value. -/
theorem measured_snr_of_addNoise (log cos : ℝ → ℝ) (G_PI : ℝ) (uniform : Nat → Nat → ℝ)
    (targetSNRdB : ℝ) (seed : Nat) (x : List ℝ) (hP : meanSquare x ≠ 0)
    (hz : ∃ i, i < x.length ∧ boxMuller Real.sqrt log cos G_PI uniform seed i ≠ 0)
    (hlen : x.length < SIZE_MOD) :
    ∃ noisy,
      addNoise001 Real.rpow Real.sqrt log cos G_PI uniform targetSNRdB seed x = .ok noisy ∧
      computeSNR (Real.logb 10) x noisy =
        .ok (.finite (targetSNRdB - 10 * Real.logb 10 (meanSquare
          ((List.range x.length).map (boxMuller Real.sqrt log cos G_PI uniform seed))))) ∧
      ∀ y : List ℝ, y.length = x.length → meanSquare y ≠ 0 →
        ∃ noisyY,
          addNoise001 Real.rpow Real.sqrt log cos G_PI uniform targetSNRdB seed y
            = .ok noisyY ∧
          computeSNR (Real.logb 10) y noisyY = computeSNR (Real.logb 10) x noisy := by
  obtain ⟨noisy, h1, h2⟩ :=
    computeSNR_addNoise001 log cos G_PI uniform targetSNRdB seed x hP hz hlen
  refine ⟨noisy, h1, h2, ?_⟩
  intro y hy hPy
  obtain ⟨noisyY, h3, h4⟩ :=
    computeSNR_addNoise001 log cos G_PI uniform targetSNRdB seed y hPy (hy ▸ hz) (hy ▸ hlen)
  exact ⟨noisyY, h3, by rw [h4, h2, hy]⟩

/-- C27 at the waveform `[1]`, target 10 dB, with the draws `u1 = exp(-1/2)` and `u2 = 0`,
for which the Box-Muller value is 1. -/
theorem measured_snr_of_addNoise_witness :
    meanSquare ([1] : List ℝ) ≠ 0 ∧
    (∃ i, i < ([1] : List ℝ).length ∧ boxMuller Real.sqrt Real.log Real.cos Real.pi
      (fun _ k => if k = 0 then Real.exp (-1 / 2) else 0) 0 i ≠ 0) ∧
    ([1] : List ℝ).length < SIZE_MOD ∧
    ∃ noisy,
      addNoise001 Real.rpow Real.sqrt Real.log Real.cos Real.pi
        (fun _ k => if k = 0 then Real.exp (-1 / 2) else 0) 10 0 [1] = .ok noisy ∧
      computeSNR (Real.logb 10) [1] noisy =
        .ok (.finite (10 - 10 * Real.logb 10 (meanSquare
          ((List.range ([1] : List ℝ).length).map (boxMuller Real.sqrt Real.log Real.cos Real.pi
            (fun _ k => if k = 0 then Real.exp (-1 / 2) else 0) 0))))) ∧
      ∀ y : List ℝ, y.length = ([1] : List ℝ).length → meanSquare y ≠ 0 →
        ∃ noisyY,
          addNoise001 Real.rpow Real.sqrt Real.log Real.cos Real.pi
            (fun _ k => if k = 0 then Real.exp (-1 / 2) else 0) 10 0 y = .ok noisyY ∧
          computeSNR (Real.logb 10) y noisyY = computeSNR (Real.logb 10) [1] noisy :=
  ⟨by norm_num [meanSquare], ⟨0, by simp, by norm_num [boxMuller]⟩, by simp [SIZE_MOD],
   measured_snr_of_addNoise Real.log Real.cos Real.pi
     (fun _ k => if k = 0 then Real.exp (-1 / 2) else 0) 10 0 [1] (by norm_num [meanSquare])
     ⟨0, by simp, by norm_num [boxMuller]⟩ (by simp [SIZE_MOD])⟩

/-- C28: `calculateEbN0` does not depend on the waveform: for every waveform with non-zero
power (so the waveform is not empty), `bitRate > 0` and `bandwidth > 0` it returns
`targetSNRdB + 10 * log10(bandwidth / bitRate)` (exact real arithmetic). -/
theorem calculateEbN0_closed_form (targetSNRdB bitRate bandwidth : ℝ) (signal : List ℝ)
    (hP : meanSquare signal ≠ 0) (hR : 0 < bitRate) (hB : 0 < bandwidth) :
    calculateEbN0 Real.rpow (Real.logb 10) targetSNRdB bitRate bandwidth signal =
      targetSNRdB + 10 * Real.logb 10 (bandwidth / bitRate) := by
  have hL : 0 < Real.rpow 10 (targetSNRdB / 10) :=
    Real.rpow_pos_of_pos (by norm_num) _
  have hm : signal.foldl (fun sum x => sum + x * x) 0 / (signal.length : ℝ) =
      meanSquare signal := by
    rw [foldl_sq_eq_sum]
    rfl
  simp only [calculateEbN0, calculateNoisePower, hm]
  have hfrac : meanSquare signal / bitRate /
      (meanSquare signal / Real.rpow 10 (targetSNRdB / 10) / bandwidth) =
      Real.rpow 10 (targetSNRdB / 10) * (bandwidth / bitRate) := by
    field_simp
    ring
  rw [hfrac, Real.logb_mul hL.ne' (div_ne_zero hB.ne' hR.ne'), Real.rpow_eq_pow,
    Real.logb_rpow (by norm_num) (by norm_num)]
  ring

/-- C28 at the waveform `[1, 2]`, target 10 dB, bit rate 1000 and bandwidth 2000. -/
theorem calculateEbN0_closed_form_witness :
    meanSquare ([1, 2] : List ℝ) ≠ 0 ∧ (0 : ℝ) < 1000 ∧ (0 : ℝ) < 2000 ∧
    calculateEbN0 Real.rpow (Real.logb 10) 10 1000 2000 ([1, 2] : List ℝ) =
      10 + 10 * Real.logb 10 (2000 / 1000) :=
  ⟨by norm_num [meanSquare], by norm_num, by norm_num,
   calculateEbN0_closed_form 10 1000 2000 [1, 2] (by norm_num [meanSquare]) (by norm_num)
     (by norm_num)⟩

/-- C29: BPSK and QPSK demodulation is invariant under positive scaling of the received
symbols: for `a > 0`, either coding and every symbol vector `s` (non-empty for QPSK, of even
size when the coding is convolutional), `demodulate(a * s) = demodulate(s)`. -/
theorem demodulate_scale_invariant (sqrt : K → K) (a : K) (ha : 0 < a) (m : ModulationType)
    (c : CodingType) (s : List K) (hm : m ≠ .QAM16) (hq : m = .QPSK → 0 < s.length)
    (hc : c = .CONVOLUTIONAL → s.length % 2 = 0) (hlen : s.length < SIZE_MOD) :
    demodulate sqrt m c (s.map (fun x => a * x)) = demodulate sqrt m c s := by
  rw [demodulate_eq, demodulate_eq]
  cases m
  · cases c
    · simp only []
      rw [demodulateBPSK_scale a ha s hlen]
    · simp only []
      rw [demodulateBPSK_scale a ha s hlen, decodeConvolutional_scale a ha s (hc rfl) hlen]
  · cases c
    · simp only []
      rw [demodulateQPSK_scale a ha s (hq rfl) hlen]
    · simp only []
      rw [demodulateQPSK_scale a ha s (hq rfl) hlen,
        decodeConvolutional_scale a ha s (hc rfl) hlen]
  · exact absurd rfl hm

/-- C29 at QPSK with convolutional coding, `a = 3` and `s = [1, -1]`, over the reals. -/
theorem demodulate_scale_invariant_witness :
    (0 : ℝ) < 3 ∧ ModulationType.QPSK ≠ .QAM16 ∧
    (ModulationType.QPSK = .QPSK → 0 < ([1, -1] : List ℝ).length) ∧
    (CodingType.CONVOLUTIONAL = .CONVOLUTIONAL → ([1, -1] : List ℝ).length % 2 = 0) ∧
    ([1, -1] : List ℝ).length < SIZE_MOD ∧
    demodulate Real.sqrt .QPSK .CONVOLUTIONAL (([1, -1] : List ℝ).map (fun x => 3 * x))
      = demodulate Real.sqrt .QPSK .CONVOLUTIONAL ([1, -1] : List ℝ) :=
  ⟨by norm_num, by decide, fun _ => by simp, fun _ => by simp, by simp [SIZE_MOD],
   demodulate_scale_invariant Real.sqrt 3 (by norm_num) .QPSK .CONVOLUTIONAL [1, -1]
     (by decide) (fun _ => by simp) (fun _ => by simp) (by simp [SIZE_MOD])⟩

/-- C30: the two versions of `addNoise` agree: for every waveform, `targetSNRdB` and seed,
and for any bit rate, bandwidth, modulation and coding of the version-002 injector, the
version-002 `AWGN::addNoise` returns the output of the version-001 `AWGN::addNoise`, given
the same uniform random stream. -/
theorem addNoise_versions_agree (pow : K → K → K) (sqrt log cos : K → K) (G_PI : K)
    (uniform : Nat → Nat → K) (targetSNRdB bitRate bandwidth : K) (seed : Nat)
    (modulation : ModulationType) (coding : CodingType) (signal : List K) :
    AWGNv2.addNoise pow sqrt log cos G_PI uniform
        ⟨⟨targetSNRdB, bitRate, bandwidth⟩, seed, modulation, coding⟩ signal =
      addNoise001 pow sqrt log cos G_PI uniform targetSNRdB seed signal := by
  simp only [AWGNv2.addNoise, addNoise, addNoise001, adjustNoisePower, sizeDivisor,
    calculateNoisePower, calculateNoisePower001]

end AWGN
